import Mathlib

/-!
# AGMG: generalized minimum spanning tree over vertex-weight clusters

Shallow embedding of `src/src/grafo.cpp` (`grafo::agmg_gulosa`,
`grafo::agmg_randomizada`, `grafo::agmg_reativa`) and theorems about it.

Modelling conventions

* The abstract class `grafo` (its header is not part of the sources) is the
  structure `Grafo`: `get_ordem()`, the flag `direcionado`, `get_no(i)` (here the
  weight of the node, `none` when the C++ lookup yields `nullptr`) and
  `get_vizinhos(u)` (here the list of `(destino, peso)` of the linked list).
* Vertex ids and `get_ordem()` are natural numbers.
* A run that does not return normally (exception, undefined behaviour) is an
  `Except.error` carrying a `Falha`.
* C arrays indexed `1..n` are lists whose position `i - 1` holds entry `i`;
  entry `0` of the C array is never written, so reading it is a `Falha`.
* The hand-rolled doubling buffer of the edge scan is a list that grows by
  appending; the result buffer `int*` of `3 * m` integers is a list of `m`
  triples.
* `rand()` is a stream of draws threaded through the code.
* `double` values (`alpha`, `prob_guloso`) are exact rationals.
-/

namespace AGMG

/-! ## Data model -/

/-- The ways a run of the C++ code can fail to return normally. -/
inductive Falha where
  /-- The expression `new int[m]` with `m < 0` throws `std::bad_array_new_length`. -/
  | bad_array_new_length
  /-- A member of a null pointer is read. -/
  | ponteiro_nulo
  /-- An array is read outside its allocated or initialised range. -/
  | fora_dos_limites
  /-- A triple is written past the end of the buffer `resultado`. -/
  | estouro_resultado
  /-- The right operand of `%` is zero. -/
  | divisao_por_zero
  /-- Signed `int` arithmetic leaves the range of `int`. -/
  | overflow_int
  /-- A `double` whose truncated value is not an `int` is converted to `int`. -/
  | conversao_indefinida
  /-- The `while` loop of `find` did not finish within the fuel of the model. -/
  | sem_combustivel
  deriving DecidableEq

deriving instance DecidableEq for Except

/-- The struct `ArestaInfo` (grafo.cpp:18-22). -/
structure ArestaInfo where
  origem : Nat
  destino : Nat
  peso : Int
  deriving DecidableEq

/-- The comparator `compararArestas` (grafo.cpp:24-26). -/
def compararArestas (a b : ArestaInfo) : Bool := decide (a.peso < b.peso)

/-- The part of the abstract class `grafo` that the solvers use. -/
structure Grafo where
  /-- Value of `get_ordem()`: the vertices are `1..ordem`. -/
  ordem : Nat
  /-- The member `direcionado`. -/
  direcionado : Bool
  /-- For `get_no(i)`: `none` when it returns `nullptr`, else `no->peso`. -/
  get_no : Nat → Option Int
  /-- For `get_vizinhos(u)`: the `(destino, peso)` of each list cell, in list order. -/
  get_vizinhos : Nat → List (Nat × Int)

/-- What a solver hands back: the `int*` (`none` for `nullptr`, else the triples
written to it, in order) and the value stored in `*num_arestas`. -/
structure Solucao where
  resultado : Option (List ArestaInfo)
  num_arestas : Nat
  deriving DecidableEq

/-- The constant `INT_MAX` of `<climits>` for a 32-bit `int`. -/
def INT_MAX : Int := 2147483647

/-- The constant `INT_MIN` of `<climits>` for a 32-bit `int`. -/
def INT_MIN : Int := -2147483648

/-- The constant `RAND_MAX` of `<cstdlib>` (the glibc value). -/
def RAND_MAX : Nat := 2147483647

/-- The state of `rand()`: the stream of the draws still to come. -/
abbrev Gerador := Nat → Nat

/-- One call of `rand()`: the draw and the state after it. -/
def rand (s : Gerador) : Nat × Gerador := (s 0, fun i => s (i + 1))

/-- Read `xs[i]` of a 0-based array. -/
def ler {α : Type} (xs : List α) (i : Nat) : Except Falha α :=
  match xs[i]? with
  | some x => .ok x
  | none => .error .fora_dos_limites

/-- Read entry `u` of an array indexed `1..n` (entry 0 is never initialised). -/
def ler_vertice {α : Type} (xs : List α) (u : Nat) : Except Falha α :=
  if u = 0 then .error .fora_dos_limites else ler xs (u - 1)

/-! ## Vertex weights (grafo.cpp:127-136 and 250-255) -/

/-- The loop reading `get_no(i)->peso` for the listed vertices; `none` as soon as
one lookup yields `nullptr`. -/
def le_pesos (g : Grafo) : List Nat → Option (List Int)
  | [] => some []
  | i :: resto =>
    match g.get_no i with
    | none => none
    | some p =>
      match le_pesos g resto with
      | none => none
      | some ps => some (p :: ps)

/-- The array `pesos_vertices` for the vertices `1..n`. -/
def pesos_vertices (g : Grafo) : Option (List Int) :=
  le_pesos g (List.range' 1 g.ordem)

/-! ## Edge scan (grafo.cpp:138-166 and 257-281) -/

/-- The inner `while (atual)` loop for one vertex `u`. -/
def coleta_vizinhos (direcionado : Bool) (u : Nat) : List (Nat × Int) → List ArestaInfo
  | [] => []
  | (v, w) :: resto =>
    if !direcionado && decide (u > v) then coleta_vizinhos direcionado u resto
    else ⟨u, v, w⟩ :: coleta_vizinhos direcionado u resto

/-- The scan over the listed vertices. -/
def coleta_de (g : Grafo) : List Nat → List ArestaInfo
  | [] => []
  | u :: resto => coleta_vizinhos g.direcionado u (g.get_vizinhos u) ++ coleta_de g resto

/-- The array `arestas` (with `contador` its length) after the scan `u = 1..n`. -/
def coleta_arestas (g : Grafo) : List ArestaInfo :=
  coleta_de g (List.range' 1 g.ordem)

/-- The call `std::sort(arestas, arestas + contador, compararArestas)`: the
result is ordered for the comparator (no later edge compares below an earlier
one). The library leaves the order of edges of equal weight open; here they
keep their order. -/
def std_sort (arestas : List ArestaInfo) : List ArestaInfo :=
  arestas.insertionSort (fun a b => compararArestas b a = false)

/-! ## Cluster partition (grafo.cpp:170-186 and 289-305) -/

/-- The inner loop `for j in 1..i-1`: the cluster of the first earlier vertex of
equal weight. -/
def busca_cluster : List Int → List Nat → Int → Option Nat
  | pj :: ps, cj :: cs, p => if p = pj then some cj else busca_cluster ps cs p
  | _, _, _ => none

/-- One round of the outer loop: `st` is (`cluster_id` of the vertices before
`i`, `num_clusters`) and `p` is `pesos_vertices[i]`. -/
def passo_particao (pesos : List Int) (st : List Nat × Nat) (p : Int) : List Nat × Nat :=
  match busca_cluster pesos st.1 p with
  | some c => (st.1 ++ [c], st.2)
  | none => (st.1 ++ [st.2], st.2 + 1)

/-- The arrays `cluster_id` (for vertices `1..n`) and the count `num_clusters`. -/
def particiona (pesos : List Int) : List Nat × Nat :=
  pesos.foldl (passo_particao pesos) ([], 0)

/-! ## Disjoint sets (grafo.cpp:188-211 and 307-330) -/

/-- The loop of the lambda `find`, with path halving; each round of the `while`
uses one unit of fuel. -/
def find_laco : Nat → List Nat → Nat → Except Falha (List Nat × Nat)
  | 0, _, _ => .error .sem_combustivel
  | fuel + 1, pai, u =>
    match ler pai u with
    | .error e => .error e
    | .ok pu =>
      if pu = u then .ok (pai, u)
      else
        match ler pai pu with
        | .error e => .error e
        | .ok ppu => find_laco fuel (pai.set u ppu) ppu

/-- The lambda `find`: the new `pai` and the value returned. -/
def find (pai : List Nat) (u : Nat) : Except Falha (List Nat × Nat) :=
  find_laco pai.length pai u

/-- The lambda `unite`: the new `pai` and `rank`. -/
def unite (pai rank : List Nat) (u v : Nat) : Except Falha (List Nat × List Nat) :=
  match find pai u with
  | .error e => .error e
  | .ok (pai1, ru) =>
    match find pai1 v with
    | .error e => .error e
    | .ok (pai2, rv) =>
      if ru = rv then .ok (pai2, rank)
      else
        match ler rank ru, ler rank rv with
        | .ok ku, .ok kv =>
          if ku < kv then
            .ok (pai2.set ru rv, if kv = ku then rank.set rv (kv + 1) else rank)
          else
            .ok (pai2.set rv ru, if ku = kv then rank.set ru (ku + 1) else rank)
        | .error e, _ => .error e
        | _, .error e => .error e

/-! ## Cluster-connecting sweep (grafo.cpp:213-231 and 332-350) -/

/-- The variables the sweep changes. -/
structure Varredura where
  pai : List Nat
  rank : List Nat
  resultado : List ArestaInfo
  num_arestas : Nat

/-- The loop `for (i = 0; i < contador; ++i)` over the edges still to visit. The
buffer `resultado` has room for `3 * (num_clusters - 1)` integers. The two calls
of `find` in the test `find(c_u) != find(c_v)` run left to right here (C++ leaves
their order open). -/
def varredura (cluster_id : List Nat) (num_clusters : Nat) :
    List ArestaInfo → Varredura → Except Falha Varredura
  | [], st => .ok st
  | a :: resto, st =>
    match ler_vertice cluster_id a.origem, ler_vertice cluster_id a.destino with
    | .ok c_u, .ok c_v =>
      match find st.pai c_u with
      | .error e => .error e
      | .ok (pai1, r_u) =>
        match find pai1 c_v with
        | .error e => .error e
        | .ok (pai2, r_v) =>
          if r_u = r_v then varredura cluster_id num_clusters resto { st with pai := pai2 }
          else if 3 * ((num_clusters : Int) - 1) < 3 * (st.num_arestas : Int) + 3 then
            .error .estouro_resultado
          else
            match unite pai2 st.rank c_u c_v with
            | .error e => .error e
            | .ok (pai3, rank3) =>
              if ((st.num_arestas + 1 : Nat) : Int) = (num_clusters : Int) - 1 then
                .ok ⟨pai3, rank3, st.resultado ++ [a], st.num_arestas + 1⟩
              else
                varredura cluster_id num_clusters resto
                  ⟨pai3, rank3, st.resultado ++ [a], st.num_arestas + 1⟩
    | .error e, _ => .error e
    | _, .error e => .error e

/-- The common tail of both solvers: partition, disjoint sets, allocation of
`resultado`, sweep. -/
def conecta_clusters (pesos : List Int) (arestas : List ArestaInfo) : Except Falha Solucao :=
  let cluster_id := (particiona pesos).1
  let num_clusters := (particiona pesos).2
  if (3 : Int) * ((num_clusters : Int) - 1) < 0 then .error .bad_array_new_length
  else
    match varredura cluster_id num_clusters arestas
        ⟨List.range num_clusters, List.replicate num_clusters 0, [], 0⟩ with
    | .error e => .error e
    | .ok st => .ok ⟨some st.resultado, st.num_arestas⟩

/-! ## Greedy solver (grafo.cpp:125-241) -/

/-- The method `grafo::agmg_gulosa`. -/
def agmg_gulosa (g : Grafo) : Except Falha Solucao :=
  match pesos_vertices g with
  | none => .ok ⟨none, 0⟩
  | some pesos => conecta_clusters pesos (std_sort (coleta_arestas g))

/-! ## Randomized solver (grafo.cpp:249-360) -/

/-- The conversion `(int)x` of a `double`: truncation toward zero. -/
def trunca (x : ℚ) : Int := if 0 ≤ x then ⌊x⌋ else ⌈x⌉

/-- The statement `std::swap(arestas[i], arestas[r])`. -/
def troca (arestas : List ArestaInfo) (i r : Nat) : Except Falha (List ArestaInfo) :=
  match ler arestas i, ler arestas r with
  | .ok ai, .ok ar => .ok ((arestas.set i ar).set r ai)
  | .error e, _ => .error e
  | _, .error e => .error e

/-- The loop `for (i = 0; i < k; ++i)` of the shuffle, with `passos = k - i`
rounds still to run. -/
def embaralha_laco (contador : Nat) :
    Nat → Nat → List ArestaInfo → Gerador → Except Falha (List ArestaInfo × Gerador)
  | 0, _, arestas, s => .ok (arestas, s)
  | passos + 1, i, arestas, s =>
    if (contador : Int) - (i : Int) = 0 then .error .divisao_por_zero
    else
      let r := i + (rand s).1 % (contador - i)
      match troca arestas i r with
      | .error e => .error e
      | .ok arestas1 => embaralha_laco contador passos (i + 1) arestas1 (rand s).2

/-- The power `2 ^ e` for an integer exponent. -/
def pot2 (e : Int) : ℚ :=
  if 0 ≤ e then ((2 ^ e.toNat : Nat) : ℚ) else 1 / ((2 ^ (-e).toNat : Nat) : ℚ)

/-- The loop of `log2_nat`. -/
def log2_laco : Nat → Nat → Nat
  | 0, _ => 0
  | fuel + 1, n => if 2 ≤ n then log2_laco fuel (n / 2) + 1 else 0

/-- The position of the leading bit of `n`: the largest `l` with `2 ^ l ≤ n`. -/
def log2_nat (n : Nat) : Nat := log2_laco n n

/-- The binary exponent of a positive rational: the largest `d` with `2 ^ d ≤ a`. -/
def expoente (a : ℚ) : Int :=
  if pot2 ((log2_nat a.num.natAbs : Int) - (log2_nat a.den : Int)) ≤ a then
    (log2_nat a.num.natAbs : Int) - (log2_nat a.den : Int)
  else (log2_nat a.num.natAbs : Int) - (log2_nat a.den : Int) - 1

/-- Rounding to the nearest integer, a tie going to the even one. -/
def arredonda_par (x : ℚ) : Int :=
  if x - (⌊x⌋ : ℚ) < 1 / 2 then ⌊x⌋
  else if 1 / 2 < x - (⌊x⌋ : ℚ) then ⌊x⌋ + 1
  else if ⌊x⌋ % 2 = 0 then ⌊x⌋ else ⌊x⌋ + 1

/-- The exponent of the spacing of the doubles around `x ≠ 0`: 52 below the binary
exponent of `|x|` (a significand of 53 bits), and `-1074` in the subnormal range. -/
def expoente_ulp (x : ℚ) : Int := max (expoente (if x < 0 then -x else x) - 52) (-1074)

/-- The result of an arithmetic operation on `double` (IEEE 754 binary64) whose
exact value is `x`: `x` rounded to the nearest double, a tie going to the even
significand. A value too large for a finite double is left as a real above every
`int`; its conversion to `int` is undefined just as that of infinity. -/
def arredonda_double (x : ℚ) : ℚ :=
  if x = 0 then 0 else (arredonda_par (x / pot2 (expoente_ulp x)) : ℚ) * pot2 (expoente_ulp x)

/-- The product `contador * alpha` of line 283, for `alpha` the exact value of the
`double` argument: `contador` is an `int` and converts to `double` exactly, and the
product is rounded to a double. A count above `INT_MAX` is not a value of the `int`
variable `contador`; for such a count the product is left exact. -/
def produto_double (contador : Nat) (alpha : ℚ) : ℚ :=
  if (contador : Int) ≤ INT_MAX then arredonda_double ((contador : ℚ) * alpha)
  else (contador : ℚ) * alpha

/-- The conversion `(int)x` is undefined: the truncated value is not an `int`. -/
def fora_do_int (x : ℚ) : Prop := trunca x < INT_MIN ∨ INT_MAX < trunca x

instance (x : ℚ) : Decidable (fora_do_int x) := by
  unfold fora_do_int; infer_instance

/-- The number `k = std::max(1, (int)(contador * alpha))`, the product taken in
`double` arithmetic; it is the value of `k` when the conversion to `int` is defined
(`embaralha` fails when it is not). -/
def k_embaralha (contador : Nat) (alpha : ℚ) : Int :=
  max 1 (trunca (produto_double contador alpha))

/-- The shuffle step (grafo.cpp:283-287): the array `arestas` after it. The run
fails when the conversion `(int)(contador * alpha)` is undefined. -/
def embaralha (alpha : ℚ) (arestas : List ArestaInfo) (s : Gerador) :
    Except Falha (List ArestaInfo × Gerador) :=
  if (arestas.length : Int) ≤ INT_MAX ∧ fora_do_int (produto_double arestas.length alpha) then
    .error .conversao_indefinida
  else embaralha_laco arestas.length (k_embaralha arestas.length alpha).toNat 0 arestas s

/-- The default argument `alpha = 0.5` of `agmg_randomizada`. -/
def alpha_padrao : ℚ := 1 / 2

/-- The method `grafo::agmg_randomizada`. -/
def agmg_randomizada (g : Grafo) (alpha : ℚ) (s : Gerador) : Except Falha (Solucao × Gerador) :=
  match pesos_vertices g with
  | none => .error .ponteiro_nulo
  | some pesos =>
    match embaralha alpha (coleta_arestas g) s with
    | .error e => .error e
    | .ok (arestas, s1) =>
      match conecta_clusters pesos arestas with
      | .error e => .error e
      | .ok sol => .ok (sol, s1)

/-! ## Reactive controller (grafo.cpp:367-412) -/

/-- The constant `MAX_ITER`. -/
def MAX_ITER : Nat := 50

/-- The constant `INITIAL_PROB`. -/
def INITIAL_PROB : ℚ := 1 / 2

/-- The variables of `agmg_reativa` that live across rounds. `num_arestas` is
`none` while `*num_arestas` has not been written. -/
structure Reativa where
  prob_guloso : ℚ
  melhor : Option (List ArestaInfo)
  menor_custo : Int
  falhas_guloso : Nat
  falhas_random : Nat
  num_arestas : Option Nat
  semente : Gerador

/-- What one round computes before it touches the retained best. -/
structure Rodada where
  usar_guloso : Bool
  solucao : Solucao
  custo : Int
  semente : Gerador

/-- The state before the first round. -/
def Reativa.inicial (s : Gerador) : Reativa :=
  ⟨INITIAL_PROB, none, INT_MAX, 0, 0, none, s⟩

/-- The triples `solucao[0 .. 3 * temp_size)` that the round reads. -/
def triplas (sol : Solucao) : Except Falha (List ArestaInfo) :=
  if sol.num_arestas = 0 then .ok []
  else
    match sol.resultado with
    | none => .error .ponteiro_nulo
    | some r => if sol.num_arestas ≤ r.length then .ok (r.take sol.num_arestas)
                else .error .fora_dos_limites

/-- The loop `custo += solucao[i]` over the weights, in `int` arithmetic. -/
def soma_custo : List ArestaInfo → Int → Except Falha Int
  | [], custo => .ok custo
  | a :: resto, custo =>
    if custo + a.peso < INT_MIN ∨ INT_MAX < custo + a.peso then .error .overflow_int
    else soma_custo resto (custo + a.peso)

/-- Lines 376-389: the draw, the solver call and the cost of its solution. -/
def executa_rodada (g : Grafo) (st : Reativa) : Except Falha Rodada :=
  let usar_guloso := decide (((rand st.semente).1 : ℚ) / (RAND_MAX : ℚ) < st.prob_guloso)
  let chamada : Except Falha (Solucao × Gerador) :=
    if usar_guloso then
      match agmg_gulosa g with
      | .error e => .error e
      | .ok sol => .ok (sol, (rand st.semente).2)
    else agmg_randomizada g alpha_padrao (rand st.semente).2
  match chamada with
  | .error e => .error e
  | .ok (sol, s1) =>
    match triplas sol with
    | .error e => .error e
    | .ok ts =>
      match soma_custo ts 0 with
      | .error e => .error e
      | .ok custo => .ok ⟨usar_guloso, sol, custo, s1⟩

/-- Lines 404-406: the new value of `prob_guloso`. -/
def nova_prob (prob : ℚ) (falhas_guloso falhas_random : Nat) : ℚ :=
  if falhas_guloso + falhas_random > 0 then
    1 - (falhas_guloso : ℚ) / ((falhas_guloso + falhas_random : Nat) : ℚ)
  else prob

/-- Lines 391-406: the update of the retained best, of the failure counters and
of `prob_guloso`. -/
def atualiza (st : Reativa) (r : Rodada) : Except Falha Reativa :=
  if r.custo < st.menor_custo then
    match triplas r.solucao with
    | .error e => .error e
    | .ok ts =>
      .ok ⟨nova_prob st.prob_guloso st.falhas_guloso st.falhas_random, some ts, r.custo,
        st.falhas_guloso, st.falhas_random, some r.solucao.num_arestas, r.semente⟩
  else
    let fg := if r.usar_guloso then st.falhas_guloso + 1 else st.falhas_guloso
    let fr := if r.usar_guloso then st.falhas_random else st.falhas_random + 1
    .ok ⟨nova_prob st.prob_guloso fg fr, st.melhor, st.menor_custo, fg, fr,
      st.num_arestas, r.semente⟩

/-- One round of the `for` loop. -/
def rodada (g : Grafo) (st : Reativa) : Except Falha Reativa :=
  match executa_rodada g st with
  | .error e => .error e
  | .ok r => atualiza st r

/-- The `for` loop with `n` rounds still to run. -/
def laco_reativa (g : Grafo) : Nat → Reativa → Except Falha Reativa
  | 0, st => .ok st
  | n + 1, st =>
    match rodada g st with
    | .error e => .error e
    | .ok st1 => laco_reativa g n st1

/-- The method `grafo::agmg_reativa`: the variables when the loop is left; the
pointer returned is `melhor`, and `*num_arestas` is `num_arestas`. -/
def agmg_reativa (g : Grafo) (s : Gerador) : Except Falha Reativa :=
  laco_reativa g MAX_ITER (Reativa.inicial s)

/-- The rounds the `for` loop runs, in order, `n` of them from state `st`. -/
def historico (g : Grafo) : Nat → Reativa → Except Falha (List Rodada)
  | 0, _ => .ok []
  | n + 1, st =>
    match executa_rodada g st with
    | .error e => .error e
    | .ok r =>
      match atualiza st r with
      | .error e => .error e
      | .ok st1 =>
        match historico g n st1 with
        | .error e => .error e
        | .ok rs => .ok (r :: rs)

/-! ## Notions used by the statements and proofs -/

/-- Two cluster ids are linked by the listed pairs: the equivalence generated by
the pairs (a chain of pairs, each used in either direction). -/
def Liga (es : List (Nat × Nat)) : Nat → Nat → Prop :=
  Relation.EqvGen (fun a b => (a, b) ∈ es)

/-- Merge the class of `e.2` into the class of `e.1` in a labelling. -/
def une (rep : Nat → Nat) (e : Nat × Nat) : Nat → Nat :=
  fun x => if rep x = rep e.2 then rep e.1 else rep x

/-- The labelling obtained by merging along the listed pairs, in order. -/
def rotulos (es : List (Nat × Nat)) : Nat → Nat := es.foldl une id

/-- The number of components into which the listed pairs link the ids `0..k-1`. -/
def ncomp (k : Nat) (es : List (Nat × Nat)) : Nat :=
  ((Finset.range k).image (rotulos es)).card

/-- Entry `i` of a 0-based array of naturals (0 outside the array). -/
def em (xs : List Nat) (i : Nat) : Nat := xs.getD i 0

/-- The disjoint-set invariant: `pai` and `rank` have `k` entries, `rep` sends
every id to the root of its tree, ranks grow strictly toward the root and are at
most `m`. -/
structure UF (pai rank : List Nat) (k m : Nat) (rep : Nat → Nat) : Prop where
  len_pai : pai.length = k
  len_rank : rank.length = k
  pai_lt : ∀ i < k, em pai i < k
  rep_lt : ∀ i < k, rep i < k
  rep_pai : ∀ i < k, rep (em pai i) = rep i
  rep_raiz : ∀ i < k, em pai i = i → rep i = i
  raiz_rep : ∀ i < k, em pai (rep i) = rep i
  rank_pai : ∀ i < k, em pai i ≠ i → em rank i < em rank (em pai i)
  rank_le : ∀ i < k, em rank i ≤ m

/-- The pair of cluster ids that an edge joins. -/
def par (cluster_id : List Nat) (a : ArestaInfo) : Nat × Nat :=
  (em cluster_id (a.origem - 1), em cluster_id (a.destino - 1))

/-- Both endpoints of the edge are vertices `1..n`. -/
def BemFormada (n : Nat) (a : ArestaInfo) : Prop :=
  1 ≤ a.origem ∧ a.origem ≤ n ∧ 1 ≤ a.destino ∧ a.destino ≤ n

instance (n : Nat) (a : ArestaInfo) : Decidable (BemFormada n a) := by
  unfold BemFormada; infer_instance

/-- The invariant of the sweep after the edges `P` have been visited. -/
structure Inv (cid : List Nat) (k : Nat) (P : List ArestaInfo) (st : Varredura) : Prop where
  uf : ∃ rep, UF st.pai st.rank k st.num_arestas rep ∧
    ∀ x y, x < k → y < k → (rep x = rep y ↔ Liga (st.resultado.map (par cid)) x y)
  num : st.num_arestas = st.resultado.length
  conta : st.resultado.length + ncomp k (st.resultado.map (par cid)) = k
  bem : ∀ a ∈ st.resultado, BemFormada cid.length a
  sub : st.resultado.Sublist P
  proc : ∀ a ∈ P, BemFormada cid.length a →
    Liga (st.resultado.map (par cid)) (par cid a).1 (par cid a).2
  guloso : ∀ (i : Nat) (t : ArestaInfo), st.resultado[i]? = some t →
    ∃ P1 P2, P = P1 ++ t :: P2 ∧
      ¬ Liga ((st.resultado.take i).map (par cid)) (par cid t).1 (par cid t).2 ∧
      ∀ a ∈ P1, BemFormada cid.length a →
        Liga ((st.resultado.take i).map (par cid)) (par cid a).1 (par cid a).2

/-- The total weight of a list of edges. -/
def custo (l : List ArestaInfo) : Int := (l.map ArestaInfo.peso).sum

/-- The partition after the vertices of weights `pre` have been handled: equal ids
mean equal weights, and every id below the count is in use. -/
structure Particao (pre : List Int) (st : List Nat × Nat) : Prop where
  len : st.1.length = pre.length
  lt : ∀ i < pre.length, em st.1 i < st.2
  iff : ∀ i j, i < pre.length → j < pre.length → (em st.1 i = em st.1 j ↔ pre[i]? = pre[j]?)
  sobre : ∀ c < st.2, ∃ i < pre.length, em st.1 i = c

/-- One step between vertices at the cluster level: either both are vertices of
the same weight (the same cluster), or an edge of `S` leads from one to the other. -/
def PassoV (pesos : List Int) (S : List ArestaInfo) (u v : Nat) : Prop :=
  (1 ≤ u ∧ u ≤ pesos.length ∧ 1 ≤ v ∧ v ≤ pesos.length ∧ pesos[u - 1]? = pesos[v - 1]?) ∨
  (∃ e ∈ S, e.origem = u ∧ e.destino = v)

/-- Two vertices are linked at the cluster level by the edges `S`: a chain of
steps, each taken in either direction. -/
def LigaV (pesos : List Int) (S : List ArestaInfo) : Nat → Nat → Prop :=
  Relation.EqvGen (PassoV pesos S)

/-- The edges `S` connect all clusters into one component: every two vertices
`1..n` are linked at the cluster level. -/
def Conexo (pesos : List Int) (S : List ArestaInfo) : Prop :=
  ∀ u v, 1 ≤ u → u ≤ pesos.length → 1 ≤ v → v ≤ pesos.length → LigaV pesos S u v

/-- The sum of the absolute values of the weights of a list of edges. -/
def soma_abs (l : List ArestaInfo) : Int := (l.map (fun a => |a.peso|)).sum

/-- The retained best of `fin` is the solution of round `r`: same triples, same
edge count, same cost. -/
def Retida (fin : Reativa) (r : Rodada) : Prop :=
  ∃ ts, triplas r.solucao = .ok ts ∧ fin.melhor = some ts ∧
    fin.num_arestas = some r.solucao.num_arestas ∧ fin.menor_custo = r.custo

/-- The ids follow the order of first occurrence: the count is the number of
distinct weights, and a vertex whose weight first occurs at position `f` has as id
the number of distinct weights before `f`. -/
structure Ordem (pre : List Int) (st : List Nat × Nat) : Prop where
  conta : st.2 = pre.toFinset.card
  prim : ∀ (i f : Nat) (p : Int), pre[i]? = some p → pre[f]? = some p →
    (∀ j < f, pre[j]? ≠ some p) → em st.1 i = (pre.take f).toFinset.card

/-- The arcs the edge scan is to collect, after the words of the specification:
for the vertices `1..n` in order, the stored arcs of each vertex in list order,
all of them for a directed graph and those with `u ≤ v` for an undirected one. -/
def arcos_elegiveis (g : Grafo) : List ArestaInfo :=
  (List.range' 1 g.ordem).flatMap (fun u =>
    ((g.get_vizinhos u).filter (fun p => g.direcionado || decide (u ≤ p.1))).map
      (fun p => ⟨u, p.1, p.2⟩))

/-- The index pairs `(i, r)` of the calls `std::swap(arestas[i], arestas[r])` that
the shuffle loop makes, in order, with `passos` rounds still to run. -/
def trocas_laco (contador : Nat) : Nat → Nat → Gerador → List (Nat × Nat)
  | 0, _, _ => []
  | passos + 1, i, s =>
    (i, i + (rand s).1 % (contador - i)) :: trocas_laco contador passos (i + 1) (rand s).2

/-- The index pairs of the swaps of the shuffle step for `contador` edges. -/
def trocas_embaralha (alpha : ℚ) (contador : Nat) (s : Gerador) : List (Nat × Nat) :=
  trocas_laco contador (k_embaralha contador alpha).toNat 0 s

/-- Perform the listed swaps in order. -/
def aplica_trocas : List (Nat × Nat) → List ArestaInfo → Except Falha (List ArestaInfo)
  | [], l => .ok l
  | (i, r) :: ts, l =>
    match troca l i r with
    | .error e => .error e
    | .ok l1 => aplica_trocas ts l1

/-- The value `prob_guloso` is to have for the failure counters of the state:
the initial one while no failure is recorded, `1 - fg / (fg + fr)` afterwards. -/
def ProbOk (st : Reativa) : Prop :=
  st.prob_guloso =
    if st.falhas_guloso + st.falhas_random = 0 then 1 / 2
    else 1 - (st.falhas_guloso : ℚ) / ((st.falhas_guloso : ℚ) + (st.falhas_random : ℚ))

/-- The listed pairs form a forest: no pair links ids that the other pairs of the
list already link (so no pair lies on a cycle). -/
def Floresta (es : List (Nat × Nat)) : Prop :=
  ∀ (i : Nat) (e : Nat × Nat), es[i]? = some e → ¬ Liga (es.eraseIdx i) e.1 e.2

/-- The invariant of the disjoint-set state: both arrays have `k` entries, every
entry of `pai` is an index below `k`, and the rank grows strictly from every
non-root to its parent. -/
def InvDSU (pai rank : List Nat) (k : Nat) : Prop :=
  pai.length = k ∧ rank.length = k ∧ (∀ i < k, em pai i < k) ∧
    ∀ i < k, em pai i ≠ i → em rank i < em rank (em pai i)

instance (pai rank : List Nat) (k : Nat) : Decidable (InvDSU pai rank k) := by
  unfold InvDSU; infer_instance

/-- The root of the tree of `u`: the node reached by following the parent links
as many times as `pai` has entries. -/
def raiz (pai : List Nat) (u : Nat) : Nat := (em pai)^[pai.length] u

/-- The number of ids whose rank is above the rank of `u`. -/
def acima (rank : List Nat) (k u : Nat) : Nat :=
  ((Finset.range k).filter (fun i => em rank u < em rank i)).card

/-- The parent array is well formed: it has `k` entries, all of them indices below
`k`, and the parent links contain no cycle other than the loops at the roots, so
that following them ends at a root. -/
def Aciclico (pai : List Nat) (k : Nat) : Prop :=
  pai.length = k ∧ (∀ i < k, em pai i < k) ∧ ∀ i < k, em pai (raiz pai i) = raiz pai i

instance (pai : List Nat) (k : Nat) : Decidable (Aciclico pai k) := by
  unfold Aciclico; infer_instance

/-- The number of parent links from `i` to its root, counting at most `n`. -/
def prof (pai : List Nat) : Nat → Nat → Nat
  | 0, _ => 0
  | n + 1, i => if em pai i = i then 0 else prof pai n (em pai i) + 1

/-- The selection rule for the selected edges `T`, in order: each is a collected
edge whose clusters are not linked by the edges selected before it, so its
endpoints lie in different clusters (and have different weights); and the selected
edges form a forest on the cluster ids. -/
def Selecao (g : Grafo) (pesos : List Int) (T : List ArestaInfo) : Prop :=
  (∀ (i : Nat) (t : ArestaInfo), T[i]? = some t →
    t ∈ coleta_arestas g ∧
    ¬ Liga ((T.take i).map (par (particiona pesos).1))
      (par (particiona pesos).1 t).1 (par (particiona pesos).1 t).2 ∧
    (par (particiona pesos).1 t).1 ≠ (par (particiona pesos).1 t).2 ∧
    pesos[t.origem - 1]? ≠ pesos[t.destino - 1]?) ∧
  Floresta (T.map (par (particiona pesos).1))

/-! ## Concrete inputs -/

/-- The graph with no vertices. -/
def grafo_vazio : Grafo := ⟨0, false, fun _ => none, fun _ => []⟩

/-- One vertex whose lookup yields `nullptr`. -/
def grafo_sem_no : Grafo := ⟨1, false, fun _ => none, fun _ => []⟩

/-- Two vertices of weights 1 and 2 (two clusters) and no edge. -/
def grafo_sem_arestas : Grafo :=
  ⟨2, false, fun i => if i = 1 then some 1 else if i = 2 then some 2 else none, fun _ => []⟩

/-- Two collected edges, the heavier one first. -/
def duas_arestas : List ArestaInfo := [⟨1, 2, 5⟩, ⟨1, 2, 1⟩]

/-- Scenario A: three vertices of distinct weights and a triangle of edges with
weights 3 (1-2), 1 (1-3) and 2 (2-3), stored in both directions. -/
def triangulo : Grafo where
  ordem := 3
  direcionado := false
  get_no := fun i =>
    if i = 1 then some 10 else if i = 2 then some 20 else if i = 3 then some 30 else none
  get_vizinhos := fun u =>
    if u = 1 then [(2, 3), (3, 1)] else if u = 2 then [(1, 3), (3, 2)]
    else if u = 3 then [(1, 1), (2, 2)] else []

/-- Two vertices of distinct weights joined by two parallel edges, the one of
weight 5 stored before the one of weight 1. -/
def grafo_paralelo : Grafo where
  ordem := 2
  direcionado := false
  get_no := fun i => if i = 1 then some 10 else if i = 2 then some 20 else none
  get_vizinhos := fun u =>
    if u = 1 then [(2, 5), (2, 1)] else if u = 2 then [(1, 5), (1, 1)] else []

/-- Two vertices of equal weight (one cluster) joined by one edge. -/
def grafo_um_cluster : Grafo where
  ordem := 2
  direcionado := false
  get_no := fun i => if i = 1 then some 7 else if i = 2 then some 7 else none
  get_vizinhos := fun u => if u = 1 then [(2, 3)] else if u = 2 then [(1, 3)] else []

/-- A stream of draws in `0..RAND_MAX`. -/
def sorteios : Gerador := fun i => i * 1000000007 % 2147483648

/-- The stream of draws `RAND_MAX, 0, RAND_MAX, 0, ...`. -/
def sorteios_alternados : Gerador := fun i => if i % 2 = 0 then RAND_MAX else 0

/-- One vertex of weight 5 (one cluster) and no edge. -/
def grafo_um_vertice : Grafo := ⟨1, false, fun i => if i = 1 then some 5 else none, fun _ => []⟩

/-- The `double` nearest to `0.7`. -/
def alpha_sete_decimos : ℚ := 3152519739159347 / 4503599627370496

/-! # Theorems -/

/-! ## Rounding to `double` and the product `contador * alpha` -/

theorem pot2_eq (e : Int) : pot2 e = (2 : ℚ) ^ e := by
  unfold pot2
  split_ifs with h
  · obtain ⟨n, rfl⟩ := Int.eq_ofNat_of_zero_le h
    simp
  · obtain ⟨n, hn⟩ := Int.eq_ofNat_of_zero_le (show 0 ≤ -e by omega)
    have he : e = -(n : Int) := by omega
    subst he
    simp

theorem pot2_pos (e : Int) : 0 < pot2 e := by
  rw [pot2_eq]; positivity

theorem log2_laco_eq : ∀ (fuel n : Nat), n ≤ fuel → log2_laco fuel n = Nat.log 2 n := by
  intro fuel
  induction fuel with
  | zero =>
    intro n hn
    have : n = 0 := by omega
    subst this
    simp [log2_laco]
  | succ fuel ih =>
    intro n hn
    unfold log2_laco
    split_ifs with h
    · rw [ih (n / 2) (by omega), Nat.log_of_one_lt_of_le (by norm_num) h]
    · exact (Nat.log_of_lt (by omega)).symm

theorem log2_nat_eq (n : Nat) : log2_nat n = Nat.log 2 n := log2_laco_eq n n le_rfl

theorem log2_nat_spec (n : Nat) (hn : n ≠ 0) :
    2 ^ log2_nat n ≤ n ∧ n < 2 ^ (log2_nat n + 1) := by
  rw [log2_nat_eq]
  exact ⟨Nat.pow_log_le_self 2 hn, Nat.lt_pow_succ_log_self (by norm_num) n⟩

theorem expoente_spec (a : ℚ) (ha : 0 < a) :
    (2 : ℚ) ^ expoente a ≤ a ∧ a < (2 : ℚ) ^ (expoente a + 1) := by
  have hnum : 0 < a.num := Rat.num_pos.2 ha
  have hp0 : a.num.natAbs ≠ 0 := by omega
  have hq0 : a.den ≠ 0 := a.den_nz
  obtain ⟨hp1, hp2⟩ := log2_nat_spec _ hp0
  obtain ⟨hq1, hq2⟩ := log2_nat_spec _ hq0
  have hqpos : (0 : ℚ) < (a.den : ℚ) := by exact_mod_cast Nat.pos_of_ne_zero hq0
  have hnumq : (a.num : ℚ) = (a.num.natAbs : ℚ) := by
    have : (a.num.natAbs : Int) = a.num := Int.natAbs_of_nonneg hnum.le
    calc (a.num : ℚ) = ((a.num.natAbs : Int) : ℚ) := by rw [this]
      _ = (a.num.natAbs : ℚ) := Int.cast_natCast _
  have haeq : a = (a.num.natAbs : ℚ) / (a.den : ℚ) := by
    rw [← hnumq]; exact (Rat.num_div_den a).symm
  set p := a.num.natAbs
  set q := a.den
  set lp := log2_nat p
  set lq := log2_nat q
  have hlow : (2 : ℚ) ^ ((lp : Int) - (lq : Int) - 1) ≤ a := by
    rw [show (lp : Int) - (lq : Int) - 1 = ((lp : Nat) : Int) - ((lq + 1 : Nat) : Int) by
      push_cast; ring, zpow_sub₀ (two_ne_zero), zpow_natCast, zpow_natCast, haeq,
      div_le_div_iff₀ (by positivity) hqpos]
    have h : 2 ^ lp * q ≤ p * 2 ^ (lq + 1) := Nat.mul_le_mul hp1 hq2.le
    exact_mod_cast h
  have hhigh : a < (2 : ℚ) ^ ((lp : Int) - (lq : Int) + 1) := by
    rw [show (lp : Int) - (lq : Int) + 1 = ((lp + 1 : Nat) : Int) - ((lq : Nat) : Int) by
      push_cast; ring, zpow_sub₀ (two_ne_zero), zpow_natCast, zpow_natCast, haeq,
      div_lt_div_iff₀ hqpos (by positivity)]
    have h : p * 2 ^ lq < 2 ^ (lp + 1) * q :=
      Nat.mul_lt_mul_of_lt_of_le hp2 hq1 (by positivity)
    exact_mod_cast h
  unfold expoente
  split_ifs with h
  · rw [pot2_eq] at h
    exact ⟨h, hhigh⟩
  · rw [pot2_eq] at h
    refine ⟨hlow, ?_⟩
    rw [sub_add_cancel]
    exact not_le.1 h

theorem arredonda_par_int (z : Int) : arredonda_par (z : ℚ) = z := by
  unfold arredonda_par
  simp

theorem arredonda_par_le (x : ℚ) (N : Int) (h : x ≤ (N : ℚ)) : arredonda_par x ≤ N := by
  have hf : ⌊x⌋ ≤ N := by
    have := Int.floor_le_floor h
    simpa using this
  have hstep : (⌊x⌋ : ℚ) < x → ⌊x⌋ + 1 ≤ N := by
    intro hlt
    have : (⌊x⌋ : ℚ) < (N : ℚ) := lt_of_lt_of_le hlt h
    have : ⌊x⌋ < N := by exact_mod_cast this
    omega
  unfold arredonda_par
  split_ifs with h1 h2 h3
  · exact hf
  · exact hstep (by linarith)
  · exact hf
  · exact hstep (by linarith)

theorem arredonda_par_ge (x : ℚ) (N : Int) (h : (N : ℚ) ≤ x) : N ≤ arredonda_par x := by
  have hf : N ≤ ⌊x⌋ := Int.le_floor.2 h
  unfold arredonda_par
  split_ifs <;> omega

theorem arredonda_par_perto (x : ℚ) : |(arredonda_par x : ℚ) - x| ≤ 1 / 2 := by
  have h1 := Int.floor_le x
  have h2 := Int.lt_floor_add_one x
  unfold arredonda_par
  rw [abs_le]
  split_ifs with ha hb hc
  · constructor <;> linarith
  · push_cast; constructor <;> linarith
  · constructor <;> linarith
  · push_cast; constructor <;> linarith

theorem expoente_ulp_le (x : ℚ) (hx : x ≠ 0) (E : Int) (hE : -1074 ≤ E)
    (h : |x| < (2 : ℚ) ^ (E + 53)) : expoente_ulp x ≤ E := by
  have habs : (if x < 0 then -x else x) = |x| := by
    split_ifs with hneg
    · exact (abs_of_neg hneg).symm
    · exact (abs_of_nonneg (not_lt.1 hneg)).symm
  unfold expoente_ulp
  rw [habs]
  have hpos : 0 < |x| := abs_pos.2 hx
  obtain ⟨h1, -⟩ := expoente_spec |x| hpos
  have hlt : (2 : ℚ) ^ expoente |x| < (2 : ℚ) ^ (E + 53) := lt_of_le_of_lt h1 h
  have := (zpow_lt_zpow_iff_right₀ (show (1 : ℚ) < 2 by norm_num)).1 hlt
  omega

theorem arredonda_double_exato (M E : Int) (hM : |M| < 2 ^ 53) (hE : -1074 ≤ E) :
    arredonda_double ((M : ℚ) * (2 : ℚ) ^ E) = (M : ℚ) * (2 : ℚ) ^ E := by
  by_cases hx : (M : ℚ) * (2 : ℚ) ^ E = 0
  · rw [hx]; simp [arredonda_double]
  · unfold arredonda_double
    rw [if_neg hx]
    have hM0 : (M : ℚ) ≠ 0 := fun h => hx (by rw [h, zero_mul])
    have hle : expoente_ulp ((M : ℚ) * (2 : ℚ) ^ E) ≤ E := by
      apply expoente_ulp_le _ hx E hE
      rw [abs_mul, abs_of_pos (show (0 : ℚ) < 2 ^ E by positivity), zpow_add₀ two_ne_zero,
        mul_comm ((2 : ℚ) ^ E)]
      apply mul_lt_mul_of_pos_right _ (by positivity)
      have h53 : (2 : ℚ) ^ (53 : Int) = ((2 ^ 53 : Int) : ℚ) := by norm_num
      rw [h53]
      exact_mod_cast hM
    set e := expoente_ulp ((M : ℚ) * (2 : ℚ) ^ E)
    obtain ⟨n, hn⟩ := Int.eq_ofNat_of_zero_le (show 0 ≤ E - e by omega)
    have hdiv : (M : ℚ) * (2 : ℚ) ^ E / pot2 e = ((M * 2 ^ n : Int) : ℚ) := by
      rw [pot2_eq, mul_div_assoc, ← zpow_sub₀ two_ne_zero, hn]
      push_cast
      rw [zpow_natCast]
    rw [hdiv, arredonda_par_int, pot2_eq]
    push_cast
    rw [mul_assoc, ← zpow_natCast, ← zpow_add₀ two_ne_zero, ← hn]
    congr 2
    ring

theorem arredonda_double_le (x : ℚ) (N : Int) (hx : |x| < (2 : ℚ) ^ (53 : Int))
    (h : x ≤ (N : ℚ)) : arredonda_double x ≤ (N : ℚ) := by
  by_cases h0 : x = 0
  · rw [h0] at h ⊢; simpa [arredonda_double] using h
  · unfold arredonda_double
    rw [if_neg h0]
    have hle : expoente_ulp x ≤ 0 := expoente_ulp_le x h0 0 (by norm_num) (by simpa using hx)
    set e := expoente_ulp x
    obtain ⟨n, hn⟩ := Int.eq_ofNat_of_zero_le (show 0 ≤ -e by omega)
    have hpe : pot2 e = 1 / (2 : ℚ) ^ n := by
      rw [pot2_eq, show e = -(n : Int) by omega, zpow_neg, zpow_natCast, one_div]
    have hpos := pot2_pos e
    have h1 : x / pot2 e ≤ ((N * 2 ^ n : Int) : ℚ) := by
      rw [div_le_iff₀ hpos, hpe]
      push_cast
      rw [mul_assoc, mul_one_div_cancel (by positivity), mul_one]
      exact h
    have h2 := arredonda_par_le _ _ h1
    have h3 : ((arredonda_par (x / pot2 e) : Int) : ℚ) ≤ ((N * 2 ^ n : Int) : ℚ) := by
      exact_mod_cast h2
    calc (arredonda_par (x / pot2 e) : ℚ) * pot2 e
        ≤ ((N * 2 ^ n : Int) : ℚ) * pot2 e := mul_le_mul_of_nonneg_right h3 hpos.le
      _ = (N : ℚ) := by
        rw [hpe]; push_cast
        rw [mul_assoc, mul_one_div_cancel (by positivity), mul_one]

theorem arredonda_double_ge (x : ℚ) (N : Int) (hx : |x| < (2 : ℚ) ^ (53 : Int))
    (h : (N : ℚ) ≤ x) : (N : ℚ) ≤ arredonda_double x := by
  by_cases h0 : x = 0
  · rw [h0] at h ⊢; simpa [arredonda_double] using h
  · unfold arredonda_double
    rw [if_neg h0]
    have hle : expoente_ulp x ≤ 0 := expoente_ulp_le x h0 0 (by norm_num) (by simpa using hx)
    set e := expoente_ulp x
    obtain ⟨n, hn⟩ := Int.eq_ofNat_of_zero_le (show 0 ≤ -e by omega)
    have hpe : pot2 e = 1 / (2 : ℚ) ^ n := by
      rw [pot2_eq, show e = -(n : Int) by omega, zpow_neg, zpow_natCast, one_div]
    have hpos := pot2_pos e
    have h1 : ((N * 2 ^ n : Int) : ℚ) ≤ x / pot2 e := by
      rw [le_div_iff₀ hpos, hpe]
      push_cast
      rw [mul_assoc, mul_one_div_cancel (by positivity), mul_one]
      exact h
    have h2 := arredonda_par_ge _ _ h1
    have h3 : ((N * 2 ^ n : Int) : ℚ) ≤ ((arredonda_par (x / pot2 e) : Int) : ℚ) := by
      exact_mod_cast h2
    calc (N : ℚ) = ((N * 2 ^ n : Int) : ℚ) * pot2 e := by
          rw [hpe]; push_cast
          rw [mul_assoc, mul_one_div_cancel (by positivity), mul_one]
      _ ≤ (arredonda_par (x / pot2 e) : ℚ) * pot2 e := mul_le_mul_of_nonneg_right h3 hpos.le

theorem arredonda_double_perto (x : ℚ) (hx : x ≠ 0) :
    |arredonda_double x - x| ≤ (2 : ℚ) ^ expoente_ulp x / 2 := by
  unfold arredonda_double
  rw [if_neg hx, ← pot2_eq]
  have hpos := pot2_pos (expoente_ulp x)
  have h := arredonda_par_perto (x / pot2 (expoente_ulp x))
  have heq : (arredonda_par (x / pot2 (expoente_ulp x)) : ℚ) * pot2 (expoente_ulp x) - x
      = ((arredonda_par (x / pot2 (expoente_ulp x)) : ℚ) - x / pot2 (expoente_ulp x))
        * pot2 (expoente_ulp x) := by
    field_simp
  rw [heq, abs_mul, abs_of_pos hpos]
  calc |(arredonda_par (x / pot2 (expoente_ulp x)) : ℚ) - x / pot2 (expoente_ulp x)|
        * pot2 (expoente_ulp x)
      ≤ 1 / 2 * pot2 (expoente_ulp x) := mul_le_mul_of_nonneg_right h hpos.le
    _ = pot2 (expoente_ulp x) / 2 := by ring

theorem trunca_zero : trunca 0 = 0 := by
  simp [trunca]

theorem produto_double_conta_zero (alpha : ℚ) : produto_double 0 alpha = 0 := by
  simp [produto_double, arredonda_double, INT_MAX]

theorem nao_fora_do_int_zero : ¬ fora_do_int 0 := by
  unfold fora_do_int
  rw [trunca_zero]
  decide

/-- For `alpha` in `[0, 1]` the product, also after rounding, lies between 0 and
`contador`. -/
theorem produto_double_lim (n : Nat) (alpha : ℚ) (h0 : 0 ≤ alpha) (h1 : alpha ≤ 1) :
    0 ≤ produto_double n alpha ∧ produto_double n alpha ≤ (n : ℚ) := by
  have hn : (0 : ℚ) ≤ (n : ℚ) := by positivity
  have hx0 : (0 : ℚ) ≤ (n : ℚ) * alpha := by positivity
  have hx1 : (n : ℚ) * alpha ≤ (n : ℚ) := by nlinarith
  unfold produto_double
  split_ifs with hi
  · have hlt : |(n : ℚ) * alpha| < (2 : ℚ) ^ (53 : Int) := by
      rw [abs_of_nonneg hx0]
      have h2 : (n : ℚ) ≤ 2147483647 := by
        simp only [INT_MAX] at hi
        exact_mod_cast hi
      have h3 : (2147483647 : ℚ) < (2 : ℚ) ^ (53 : Int) := by norm_num
      linarith
    constructor
    · have := arredonda_double_ge _ 0 hlt (by simpa using hx0)
      simpa using this
    · have := arredonda_double_le _ (n : Int) hlt (by simpa using hx1)
      simpa using this
  · exact ⟨hx0, hx1⟩

theorem nao_fora_do_int (n : Nat) (alpha : ℚ) (h0 : 0 ≤ alpha) (h1 : alpha ≤ 1) :
    ¬ ((n : Int) ≤ INT_MAX ∧ fora_do_int (produto_double n alpha)) := by
  rintro ⟨hn, hf⟩
  obtain ⟨hp0, hp1⟩ := produto_double_lim n alpha h0 h1
  unfold fora_do_int trunca at hf
  rw [if_pos hp0] at hf
  have hfl0 : 0 ≤ ⌊produto_double n alpha⌋ := Int.floor_nonneg.2 hp0
  have hfl1 : ⌊produto_double n alpha⌋ ≤ (n : Int) := by
    have := Int.floor_le_floor hp1
    simpa using this
  simp only [INT_MAX, INT_MIN] at hf hn
  omega

/-- A shuffle that returns has run the loop with `k` rounds. -/
theorem embaralha_ok (alpha : ℚ) (l : List ArestaInfo) (s : Gerador)
    (p : List ArestaInfo × Gerador) (h : embaralha alpha l s = .ok p) :
    embaralha_laco l.length (k_embaralha l.length alpha).toNat 0 l s = .ok p := by
  unfold embaralha at h
  split_ifs at h
  exact h

theorem embaralha_lim (alpha : ℚ) (l : List ArestaInfo) (s : Gerador)
    (h0 : 0 ≤ alpha) (h1 : alpha ≤ 1) :
    embaralha alpha l s =
      embaralha_laco l.length (k_embaralha l.length alpha).toNat 0 l s := by
  unfold embaralha
  rw [if_neg (nao_fora_do_int l.length alpha h0 h1)]

/-! ## Degenerate inputs -/

theorem le_pesos_none (g : Grafo) (l : List Nat) (i : Nat) (hi : i ∈ l) (h : g.get_no i = none) :
    le_pesos g l = none := by
  induction l with
  | nil => simp at hi
  | cons a l ih =>
    simp only [le_pesos]
    rcases List.mem_cons.1 hi with rfl | hi
    · simp [h]
    · rw [ih hi]; cases g.get_no a <;> rfl

theorem coleta_de_sem_vizinhos (g : Grafo) (h : ∀ u, g.get_vizinhos u = []) (l : List Nat) :
    coleta_de g l = [] := by
  induction l with
  | nil => rfl
  | cons a l ih => simp [coleta_de, h, ih, coleta_vizinhos]

theorem embaralha_vazio (alpha : ℚ) (s : Gerador) :
    embaralha alpha [] s = .error .divisao_por_zero := by
  have hk : (k_embaralha 0 alpha).toNat = 1 := by
    simp [k_embaralha, produto_double_conta_zero, trunca_zero]
  have hg : ¬ (((([] : List ArestaInfo).length : Nat) : Int) ≤ INT_MAX ∧
      fora_do_int (produto_double ([] : List ArestaInfo).length alpha)) := by
    rintro ⟨-, hf⟩
    rw [List.length_nil, produto_double_conta_zero] at hf
    exact nao_fora_do_int_zero hf
  unfold embaralha
  rw [if_neg hg]
  simp only [List.length_nil, hk]
  simp [embaralha_laco]

theorem conecta_sem_arestas (pesos : List Int) (hk : 1 ≤ (particiona pesos).2) :
    conecta_clusters pesos [] = .ok ⟨some [], 0⟩ := by
  have : ¬ ((3 : Int) * (((particiona pesos).2 : Int) - 1) < 0) := by omega
  simp [conecta_clusters, this, varredura]

/-- C7 (as the code behaves): on a graph of order 0 `agmg_gulosa` does not return;
sizing `resultado` as `3 * (0 - 1)` throws `std::bad_array_new_length`. -/
theorem gulosa_ordem_zero (g : Grafo) (h : g.ordem = 0) :
    agmg_gulosa g = .error .bad_array_new_length := by
  simp [agmg_gulosa, pesos_vertices, h, le_pesos, conecta_clusters, particiona]

theorem gulosa_ordem_zero_witness :
    grafo_vazio.ordem = 0 ∧ agmg_gulosa grafo_vazio = .error .bad_array_new_length :=
  ⟨rfl, gulosa_ordem_zero grafo_vazio rfl⟩

/-- C8 (as the code behaves): when the lookup of some vertex `i` in `1..ordem`
yields no node, `agmg_gulosa` returns `nullptr` with edge count 0, while
`agmg_randomizada` reads `peso` through the null pointer. -/
theorem no_ausente (g : Grafo) (i : Nat) (h1 : 1 ≤ i) (h2 : i ≤ g.ordem)
    (h : g.get_no i = none) :
    agmg_gulosa g = .ok ⟨none, 0⟩ ∧
    ∀ alpha s, agmg_randomizada g alpha s = .error .ponteiro_nulo := by
  have : pesos_vertices g = none := by
    apply le_pesos_none g _ i _ h
    rw [List.mem_range'_1]
    omega
  simp [agmg_gulosa, agmg_randomizada, this]

theorem no_ausente_witness :
    agmg_gulosa grafo_sem_no = .ok ⟨none, 0⟩ ∧
    ∀ alpha s, agmg_randomizada grafo_sem_no alpha s = .error .ponteiro_nulo :=
  no_ausente grafo_sem_no 1 (by decide) (by decide) rfl

/-! ## The shuffle with `alpha = 0` -/

theorem atualiza_melhora (st : Reativa) (r : Rodada) (st1 : Reativa)
    (h : atualiza st r = .ok st1) (hc : r.custo < st.menor_custo) :
    st1.menor_custo = r.custo ∧ Retida st1 r := by
  unfold atualiza at h
  rw [if_pos hc] at h
  cases ht : triplas r.solucao with
  | error e => rw [ht] at h; cases h
  | ok ts =>
    rw [ht] at h
    simp only [Except.ok.injEq] at h
    subst h
    exact ⟨rfl, ts, ht, rfl, rfl, rfl⟩

theorem atualiza_falha (st : Reativa) (r : Rodada) (st1 : Reativa)
    (h : atualiza st r = .ok st1) (hc : ¬ r.custo < st.menor_custo) :
    st1.menor_custo = st.menor_custo ∧ st1.melhor = st.melhor ∧
      st1.num_arestas = st.num_arestas := by
  unfold atualiza at h
  rw [if_neg hc] at h
  cases h
  exact ⟨rfl, rfl, rfl⟩

theorem laco_historico (g : Grafo) (n : Nat) :
    ∀ (st fin : Reativa), laco_reativa g n st = .ok fin →
    ∃ rs, historico g n st = .ok rs ∧ rs.length = n ∧
      (((∀ r ∈ rs, st.menor_custo ≤ r.custo) ∧ fin.melhor = st.melhor ∧
          fin.menor_custo = st.menor_custo ∧ fin.num_arestas = st.num_arestas) ∨
       (∃ i r, rs[i]? = some r ∧ r.custo < st.menor_custo ∧
          (∀ r1 ∈ rs, r.custo ≤ r1.custo) ∧
          (∀ (j : Nat) (r1 : Rodada), j < i → rs[j]? = some r1 → r.custo < r1.custo) ∧ Retida fin r)) := by
  induction n with
  | zero =>
    intro st fin h
    simp only [laco_reativa] at h
    cases h
    exact ⟨[], rfl, rfl, Or.inl ⟨by simp, rfl, rfl, rfl⟩⟩
  | succ n ih =>
    intro st fin h
    simp only [laco_reativa, rodada] at h
    cases he : executa_rodada g st with
    | error e => rw [he] at h; cases h
    | ok r0 =>
      rw [he] at h
      simp only at h
      cases ha : atualiza st r0 with
      | error e => rw [ha] at h; cases h
      | ok st1 =>
        rw [ha] at h
        simp only at h
        obtain ⟨rs, hrs, hlen, hcase⟩ := ih st1 fin h
        refine ⟨r0 :: rs, ?_, by simp [hlen], ?_⟩
        · simp [historico, he, ha, hrs]
        · by_cases hc : r0.custo < st.menor_custo
          · obtain ⟨hm, hret⟩ := atualiza_melhora st r0 st1 ha hc
            right
            rcases hcase with ⟨hall, h1, h2, h3⟩ | ⟨i, r, hi, hlt, hmin, hfirst, hret1⟩
            · refine ⟨0, r0, by simp, hc, ?_, ?_, ?_⟩
              · intro r1 hr1
                rcases List.mem_cons.1 hr1 with rfl | hr1
                · exact le_refl _
                · rw [← hm]; exact hall r1 hr1
              · intro j r1 hj; omega
              · obtain ⟨ts, ht1, ht2, ht3, ht4⟩ := hret
                exact ⟨ts, ht1, by rw [h1, ht2], by rw [h3, ht3], by rw [h2, ht4]⟩
            · refine ⟨i + 1, r, by simpa using hi, ?_, ?_, ?_, hret1⟩
              · rw [hm] at hlt; exact lt_trans hlt hc
              · intro r1 hr1
                rcases List.mem_cons.1 hr1 with rfl | hr1
                · rw [hm] at hlt; exact le_of_lt hlt
                · exact hmin r1 hr1
              · intro j r1 hj hj1
                cases j with
                | zero =>
                  simp at hj1
                  rw [← hj1, ← hm]; exact hlt
                | succ j =>
                  simp at hj1
                  exact hfirst j r1 (by omega) hj1
          · obtain ⟨hm, hb, hn⟩ := atualiza_falha st r0 st1 ha hc
            rcases hcase with ⟨hall, h1, h2, h3⟩ | ⟨i, r, hi, hlt, hmin, hfirst, hret1⟩
            · left
              refine ⟨?_, by rw [h1, hb], by rw [h2, hm], by rw [h3, hn]⟩
              intro r1 hr1
              rcases List.mem_cons.1 hr1 with rfl | hr1
              · exact not_lt.1 hc
              · rw [← hm]; exact hall r1 hr1
            · right
              rw [hm] at hlt
              refine ⟨i + 1, r, by simpa using hi, hlt, ?_, ?_, hret1⟩
              · intro r1 hr1
                rcases List.mem_cons.1 hr1 with rfl | hr1
                · exact le_of_lt (lt_of_lt_of_le hlt (not_lt.1 hc))
                · exact hmin r1 hr1
              · intro j r1 hj hj1
                cases j with
                | zero =>
                  simp at hj1
                  rw [← hj1]; exact lt_of_lt_of_le hlt (not_lt.1 hc)
                | succ j =>
                  simp at hj1
                  exact hfirst j r1 (by omega) hj1

theorem ok_of_toBool {α : Type} {x : Except Falha α} (h : x.toBool = true) : ∃ a, x = .ok a := by
  cases x with
  | error e => simp [Except.toBool] at h
  | ok a => exact ⟨a, rfl⟩

theorem historico_mem (g : Grafo) (n : Nat) :
    ∀ (st : Reativa) (rs : List Rodada), historico g n st = .ok rs →
      ∀ r ∈ rs, ∃ st1, executa_rodada g st1 = .ok r := by
  induction n with
  | zero =>
    intro st rs h
    simp only [historico, Except.ok.injEq] at h
    subst h
    simp
  | succ n ih =>
    intro st rs h r hr
    simp only [historico] at h
    cases he : executa_rodada g st with
    | error e => rw [he] at h; cases h
    | ok r0 =>
      rw [he] at h
      simp only at h
      cases ha : atualiza st r0 with
      | error e => rw [ha] at h; cases h
      | ok st1 =>
        rw [ha] at h
        simp only at h
        cases hh : historico g n st1 with
        | error e => rw [hh] at h; cases h
        | ok rs1 =>
          rw [hh] at h
          simp only [Except.ok.injEq] at h
          subst h
          rcases List.mem_cons.1 hr with rfl | hr
          · exact ⟨st, he⟩
          · exact ih st1 rs1 hh r hr

theorem executa_rodada_spec (g : Grafo) (st : Reativa) (r : Rodada)
    (h : executa_rodada g st = .ok r) :
    (r.usar_guloso = true → agmg_gulosa g = .ok r.solucao) ∧
    (r.usar_guloso = false →
      agmg_randomizada g alpha_padrao (rand st.semente).2 = .ok (r.solucao, r.semente)) ∧
    ∃ ts, triplas r.solucao = .ok ts ∧ soma_custo ts 0 = .ok r.custo := by
  unfold executa_rodada at h
  by_cases hu : ((rand st.semente).1 : ℚ) / (RAND_MAX : ℚ) < st.prob_guloso
  · simp only [hu, decide_True, if_true] at h
    cases hg : agmg_gulosa g with
    | error e => simp [hg] at h
    | ok sol =>
      simp only [hg] at h
      cases ht : triplas sol with
      | error e => simp [ht] at h
      | ok ts =>
        simp only [ht] at h
        cases hs : soma_custo ts 0 with
        | error e => simp [hs] at h
        | ok c =>
          simp only [hs, Except.ok.injEq] at h
          subst h
          exact ⟨fun _ => rfl, fun h => by simp at h, ts, ht, hs⟩
  · simp only [hu, decide_False, Bool.false_eq_true, if_false] at h
    cases hg : agmg_randomizada g alpha_padrao (rand st.semente).2 with
    | error e => simp [hg] at h
    | ok p =>
      obtain ⟨sol, s1⟩ := p
      simp only [hg] at h
      cases ht : triplas sol with
      | error e => simp [ht] at h
      | ok ts =>
        simp only [ht] at h
        cases hs : soma_custo ts 0 with
        | error e => simp [hs] at h
        | ok c =>
          simp only [hs, Except.ok.injEq] at h
          subst h
          exact ⟨fun h => by simp at h, fun _ => rfl, ts, ht, hs⟩

/-- C4: when `agmg_reativa` returns and every round's cost is below `INT_MAX`, the
loop ran 50 rounds and the retained solution is the one of the earliest round
whose cost is the minimum over all rounds: same triples, same edge count, same
cost, no round is cheaper and every earlier round is strictly dearer. -/
theorem reativa_primeira_minima (g : Grafo) (s : Gerador) (fin : Reativa) (rs : List Rodada)
    (h : agmg_reativa g s = .ok fin)
    (hrs : historico g MAX_ITER (Reativa.inicial s) = .ok rs)
    (hc : ∀ r ∈ rs, r.custo < INT_MAX) :
    rs.length = MAX_ITER ∧
    ∃ i r, rs[i]? = some r ∧ Retida fin r ∧ (∀ r1 ∈ rs, r.custo ≤ r1.custo) ∧
      (∀ (j : Nat) (r1 : Rodada), j < i → rs[j]? = some r1 → r.custo < r1.custo) := by
  obtain ⟨rs1, hrs1, hlen, hcase⟩ := laco_historico g MAX_ITER _ fin h
  rw [hrs] at hrs1
  simp only [Except.ok.injEq] at hrs1
  subst hrs1
  refine ⟨hlen, ?_⟩
  rcases hcase with ⟨hall, -⟩ | ⟨i, r, hi, -, hmin, hfirst, hret⟩
  · exfalso
    cases rs with
    | nil => simp [MAX_ITER] at hlen
    | cons r0 rs =>
      have h1 := hall r0 (List.mem_cons_self _ _)
      have h2 := hc r0 (List.mem_cons_self _ _)
      simp only [Reativa.inicial] at h1
      exact absurd h2 (not_lt.2 h1)
  · exact ⟨i, r, hi, hret, hmin, hfirst⟩

theorem reativa_primeira_minima_witness :
    ∃ fin rs, agmg_reativa triangulo sorteios = .ok fin ∧
      historico triangulo MAX_ITER (Reativa.inicial sorteios) = .ok rs ∧
      (∀ r ∈ rs, r.custo < INT_MAX) ∧
      rs.length = MAX_ITER ∧
      ∃ i r, rs[i]? = some r ∧ Retida fin r ∧ (∀ r1 ∈ rs, r.custo ≤ r1.custo) ∧
        (∀ (j : Nat) (r1 : Rodada), j < i → rs[j]? = some r1 → r.custo < r1.custo) := by
  obtain ⟨fin, hfin⟩ := ok_of_toBool (x := agmg_reativa triangulo sorteios) (by decide!)
  obtain ⟨rs, hrs, -⟩ := laco_historico triangulo MAX_ITER _ fin hfin
  have hb : (historico triangulo MAX_ITER (Reativa.inicial sorteios)).map
      (fun l => l.all (fun r => decide (r.custo < INT_MAX))) = .ok true := by decide!
  have hc : ∀ r ∈ rs, r.custo < INT_MAX := by
    rw [hrs] at hb
    simpa [Except.map] using hb
  exact ⟨fin, rs, hfin, hrs, hc, reativa_primeira_minima triangulo sorteios fin rs hfin hrs hc⟩

/-- C5 (amended): when `agmg_reativa` returns, the cost of the retained solution
is never greater than the cost of the solution of any of its 50 rounds; a round
that used the greedy solver holds the solution of `agmg_gulosa`, and every other
round holds the solution of one run of `agmg_randomizada`. -/
theorem reativa_nunca_pior_que_rodadas (g : Grafo) (s : Gerador) (fin : Reativa)
    (h : agmg_reativa g s = .ok fin) :
    ∃ rs, historico g MAX_ITER (Reativa.inicial s) = .ok rs ∧ rs.length = MAX_ITER ∧
      (∀ r ∈ rs, fin.menor_custo ≤ r.custo) ∧
      (∀ r ∈ rs, ∃ ts, triplas r.solucao = .ok ts ∧ soma_custo ts 0 = .ok r.custo) ∧
      (∀ r ∈ rs, r.usar_guloso = true → agmg_gulosa g = .ok r.solucao) ∧
      (∀ r ∈ rs, r.usar_guloso = false →
        ∃ s0, agmg_randomizada g alpha_padrao s0 = .ok (r.solucao, r.semente)) ∧
      (∀ ts, fin.melhor = some ts → soma_custo ts 0 = .ok fin.menor_custo) := by
  obtain ⟨rs, hrs, hlen, hcase⟩ := laco_historico g MAX_ITER _ fin h
  have hex := historico_mem g MAX_ITER _ rs hrs
  refine ⟨rs, hrs, hlen, ?_, ?_, ?_, ?_, ?_⟩
  · rcases hcase with ⟨hall, -, h2, -⟩ | ⟨i, r, -, -, hmin, -, ts, -, -, -, h4⟩
    · intro r hr; rw [h2]; exact hall r hr
    · intro r1 hr1; rw [h4]; exact hmin r1 hr1
  · intro r hr
    obtain ⟨st1, h1⟩ := hex r hr
    exact (executa_rodada_spec g st1 r h1).2.2
  · intro r hr hu
    obtain ⟨st1, h1⟩ := hex r hr
    exact (executa_rodada_spec g st1 r h1).1 hu
  · intro r hr hu
    obtain ⟨st1, h1⟩ := hex r hr
    exact ⟨_, (executa_rodada_spec g st1 r h1).2.1 hu⟩
  · intro ts hts
    rcases hcase with ⟨-, h1, -, -⟩ | ⟨i, r, hi, -, -, -, ts1, ht1, ht2, -, h4⟩
    · rw [h1] at hts; simp [Reativa.inicial] at hts
    · rw [ht2] at hts
      simp only [Option.some.injEq] at hts
      subst hts
      obtain ⟨st1, h1⟩ := hex r (List.getElem?_mem hi)
      obtain ⟨ts2, ht3, ht4⟩ := (executa_rodada_spec g st1 r h1).2.2
      rw [ht1] at ht3
      simp only [Except.ok.injEq] at ht3
      subst ht3
      rw [h4]; exact ht4

theorem reativa_nunca_pior_que_rodadas_witness :
    ∃ fin, agmg_reativa triangulo sorteios = .ok fin ∧
    ∃ rs, historico triangulo MAX_ITER (Reativa.inicial sorteios) = .ok rs ∧
      rs.length = MAX_ITER ∧
      (∀ r ∈ rs, fin.menor_custo ≤ r.custo) ∧
      (∀ r ∈ rs, ∃ ts, triplas r.solucao = .ok ts ∧ soma_custo ts 0 = .ok r.custo) ∧
      (∀ r ∈ rs, r.usar_guloso = true → agmg_gulosa triangulo = .ok r.solucao) ∧
      (∀ r ∈ rs, r.usar_guloso = false →
        ∃ s0, agmg_randomizada triangulo alpha_padrao s0 = .ok (r.solucao, r.semente)) ∧
      (∀ ts, fin.melhor = some ts → soma_custo ts 0 = .ok fin.menor_custo) := by
  obtain ⟨fin, hfin⟩ := ok_of_toBool (x := agmg_reativa triangulo sorteios) (by decide!)
  exact ⟨fin, hfin, reativa_nunca_pior_que_rodadas triangulo sorteios fin hfin⟩

/-- C5 (counterexample): on two parallel edges of weights 5 and 1 and the draws
`RAND_MAX, 0, RAND_MAX, 0, ...` every round of `agmg_reativa` runs the randomized
solver and keeps the edge of weight 5, while `agmg_gulosa` returns cost 1 and so
does the first run of `agmg_randomizada` from the same draws. -/
theorem reativa_pior_que_gulosa :
    (agmg_reativa grafo_paralelo sorteios_alternados).map (fun fin => (fin.melhor, fin.menor_custo))
      = .ok (some [⟨1, 2, 5⟩], 5) ∧
    agmg_gulosa grafo_paralelo = .ok ⟨some [⟨1, 2, 1⟩], 1⟩ ∧
    (agmg_randomizada grafo_paralelo alpha_padrao sorteios_alternados).map Prod.fst
      = .ok ⟨some [⟨1, 2, 1⟩], 1⟩ := by
  decide!

theorem triplas_vazia (sol : Solucao) (h : sol.num_arestas = 0) : triplas sol = .ok [] := by
  simp [triplas, h]

/-- C9 (amended): when `agmg_reativa` returns and the solver of every round
returned zero edges, the best cost ends at 0 (the cost of the first round, which
replaced `INT_MAX`) and the retained solution has zero edges. -/
theorem reativa_rodadas_vazias (g : Grafo) (s : Gerador) (fin : Reativa) (rs : List Rodada)
    (h : agmg_reativa g s = .ok fin)
    (hrs : historico g MAX_ITER (Reativa.inicial s) = .ok rs)
    (he : ∀ r ∈ rs, r.solucao.num_arestas = 0) :
    fin.menor_custo = 0 ∧ fin.melhor = some [] ∧ fin.num_arestas = some 0 := by
  obtain ⟨rs1, hrs1, hlen, hcase⟩ := laco_historico g MAX_ITER _ fin h
  rw [hrs] at hrs1
  simp only [Except.ok.injEq] at hrs1
  subst hrs1
  have hex := historico_mem g MAX_ITER _ rs hrs
  have hzero : ∀ r ∈ rs, r.custo = 0 := by
    intro r hr
    obtain ⟨st1, h1⟩ := hex r hr
    obtain ⟨ts, ht, hs⟩ := (executa_rodada_spec g st1 r h1).2.2
    rw [triplas_vazia _ (he r hr)] at ht
    simp only [Except.ok.injEq] at ht
    subst ht
    simpa [soma_custo] using hs.symm
  rcases hcase with ⟨hall, -⟩ | ⟨i, r, hi, -, -, -, ts, ht1, ht2, ht3, ht4⟩
  · exfalso
    cases rs with
    | nil => simp [MAX_ITER] at hlen
    | cons r0 rs =>
      have h1 := hall r0 (List.mem_cons_self _ _)
      rw [hzero r0 (List.mem_cons_self _ _)] at h1
      simp [Reativa.inicial, INT_MAX] at h1
  · have hr := List.getElem?_mem hi
    rw [triplas_vazia _ (he r hr)] at ht1
    simp only [Except.ok.injEq] at ht1
    subst ht1
    exact ⟨by rw [ht4, hzero r hr], ht2, by rw [ht3, he r hr]⟩

theorem reativa_rodadas_vazias_witness :
    ∃ fin rs, agmg_reativa grafo_um_cluster sorteios = .ok fin ∧
      historico grafo_um_cluster MAX_ITER (Reativa.inicial sorteios) = .ok rs ∧
      (∀ r ∈ rs, r.solucao.num_arestas = 0) ∧
      fin.menor_custo = 0 ∧ fin.melhor = some [] ∧ fin.num_arestas = some 0 := by
  obtain ⟨fin, hfin⟩ := ok_of_toBool (x := agmg_reativa grafo_um_cluster sorteios) (by decide!)
  obtain ⟨rs, hrs, -⟩ := laco_historico grafo_um_cluster MAX_ITER _ fin hfin
  have hb : (historico grafo_um_cluster MAX_ITER (Reativa.inicial sorteios)).map
      (fun l => l.all (fun r => decide (r.solucao.num_arestas = 0))) = .ok true := by decide!
  have he : ∀ r ∈ rs, r.solucao.num_arestas = 0 := by
    rw [hrs] at hb
    simpa [Except.map] using hb
  exact ⟨fin, rs, hfin, hrs, he,
    reativa_rodadas_vazias grafo_um_cluster sorteios fin rs hfin hrs he⟩

/-- C9 (counterexample): on two vertices of one cluster joined by an edge every
round returns zero edges, and `agmg_reativa` ends with best cost 0, not `INT_MAX`. -/
theorem reativa_vazia_custo_zero :
    (agmg_reativa grafo_um_cluster sorteios).map
      (fun fin => (fin.menor_custo, fin.melhor, fin.num_arestas)) = .ok (0, some [], some 0) ∧
    (historico grafo_um_cluster MAX_ITER (Reativa.inicial sorteios)).map
      (fun l => l.all (fun r => decide (r.solucao.num_arestas = 0))) = .ok true ∧
    agmg_gulosa grafo_um_cluster = .ok ⟨some [], 0⟩ ∧
    (0 : Int) ≠ INT_MAX := by
  decide!

/-! ## Cluster partition -/

theorem busca_cluster_mem (p : Int) : ∀ (ps : List Int) (cs : List Nat) (c : Nat),
    busca_cluster ps cs p = some c → c ∈ cs := by
  intro ps
  induction ps with
  | nil => intro cs c h; simp [busca_cluster] at h
  | cons pj ps ih =>
    intro cs c h
    cases cs with
    | nil => simp [busca_cluster] at h
    | cons cj cs =>
      simp only [busca_cluster] at h
      split_ifs at h with hp
      · simp only [Option.some.injEq] at h
        subst h
        exact List.mem_cons_self _ _
      · exact List.mem_cons_of_mem _ (ih cs c h)

theorem busca_cluster_none (p : Int) : ∀ (ps : List Int) (cs : List Nat),
    busca_cluster ps cs p = none ↔ p ∉ ps.take cs.length := by
  intro ps
  induction ps with
  | nil => intro cs; simp [busca_cluster]
  | cons pj ps ih =>
    intro cs
    cases cs with
    | nil => simp [busca_cluster]
    | cons cj cs =>
      simp only [busca_cluster, List.length_cons, List.take_succ_cons, List.mem_cons, not_or]
      split_ifs with hp
      · simp [hp]
      · rw [ih cs]
        simp [hp]

theorem particiona_laco (pesos : List Int) : ∀ (suf pre : List Int) (st : List Nat × Nat),
    pesos = pre ++ suf → st.1.length = pre.length → (∀ c ∈ st.1, c < st.2) →
    st.2 = pre.toFinset.card →
    (suf.foldl (passo_particao pesos) st).1.length = pesos.length ∧
    (∀ c ∈ (suf.foldl (passo_particao pesos) st).1, c < (suf.foldl (passo_particao pesos) st).2) ∧
    (suf.foldl (passo_particao pesos) st).2 = pesos.toFinset.card := by
  intro suf
  induction suf with
  | nil =>
    intro pre st hp hl hc hk
    simp only [List.append_nil] at hp
    subst hp
    exact ⟨hl, hc, hk⟩
  | cons p suf ih =>
    intro pre st hp hl hc hk
    simp only [List.foldl_cons]
    have htake : pesos.take st.1.length = pre := by
      rw [hp, hl]; simp
    apply ih (pre ++ [p]) _ (by rw [hp]; simp)
    · unfold passo_particao
      cases hb : busca_cluster pesos st.1 p <;> simp [hl]
    · unfold passo_particao
      cases hb : busca_cluster pesos st.1 p with
      | none =>
        intro c hc1
        simp only [List.mem_append, List.mem_singleton] at hc1
        rcases hc1 with h1 | h1
        · exact Nat.lt_succ_of_lt (hc c h1)
        · rw [h1]; exact Nat.lt_succ_self _
      | some c0 =>
        intro c hc1
        simp only [List.mem_append, List.mem_singleton] at hc1
        rcases hc1 with h1 | h1
        · exact hc c h1
        · rw [h1]; exact hc c0 (busca_cluster_mem p _ _ _ hb)
    · unfold passo_particao
      cases hb : busca_cluster pesos st.1 p with
      | none =>
        have hnot : p ∉ pre := by
          have := (busca_cluster_none p pesos st.1).1 hb
          rwa [htake] at this
        have h1 : (pre ++ [p]).toFinset = insert p pre.toFinset := by
          ext x; simp [or_comm]
        show st.2 + 1 = (pre ++ [p]).toFinset.card
        rw [h1, Finset.card_insert_of_not_mem (by simpa using hnot), hk]
      | some c0 =>
        have hin : p ∈ pre := by
          by_contra hnot
          have := (busca_cluster_none p pesos st.1).2 (by rw [htake]; exact hnot)
          rw [this] at hb
          cases hb
        have h1 : (pre ++ [p]).toFinset = pre.toFinset := by
          ext x
          simp only [List.toFinset_append, Finset.mem_union, List.mem_toFinset,
            List.mem_singleton]
          constructor
          · rintro (h | h)
            · exact h
            · rw [h]; exact hin
          · intro h; exact Or.inl h
        show st.2 = (pre ++ [p]).toFinset.card
        rw [h1, hk]

theorem particiona_spec (pesos : List Int) :
    (particiona pesos).1.length = pesos.length ∧
    (∀ c ∈ (particiona pesos).1, c < (particiona pesos).2) ∧
    (particiona pesos).2 = pesos.toFinset.card :=
  particiona_laco pesos pesos [] ([], 0) rfl rfl (by simp) (by simp)

theorem le_pesos_length (g : Grafo) : ∀ (l : List Nat) (ps : List Int),
    le_pesos g l = some ps → ps.length = l.length := by
  intro l
  induction l with
  | nil => intro ps h; simp only [le_pesos, Option.some.injEq] at h; subst h; rfl
  | cons i l ih =>
    intro ps h
    simp only [le_pesos] at h
    cases hn : g.get_no i with
    | none => simp [hn] at h
    | some p =>
      cases hr : le_pesos g l with
      | none => simp [hn, hr] at h
      | some ps1 =>
        simp only [hn, hr, Option.some.injEq] at h
        subst h
        simp [ih ps1 hr]

theorem pesos_vertices_length (g : Grafo) (pesos : List Int) (h : pesos_vertices g = some pesos) :
    pesos.length = g.ordem := by
  have := le_pesos_length g _ _ h
  simpa using this

/-! ## Connectivity and number of components -/

theorem liga_refl (es : List (Nat × Nat)) (x : Nat) : Liga es x x := Relation.EqvGen.refl x

theorem liga_symm {es : List (Nat × Nat)} {x y : Nat} (h : Liga es x y) : Liga es y x :=
  Relation.EqvGen.symm x y h

theorem liga_trans {es : List (Nat × Nat)} {x y z : Nat} (h1 : Liga es x y) (h2 : Liga es y z) :
    Liga es x z := Relation.EqvGen.trans x y z h1 h2

theorem liga_of_mem {es : List (Nat × Nat)} {a b : Nat} (h : (a, b) ∈ es) : Liga es a b :=
  Relation.EqvGen.rel a b h

theorem liga_mono {es es1 : List (Nat × Nat)} (h : ∀ e ∈ es, Liga es1 e.1 e.2) {x y : Nat}
    (hxy : Liga es x y) : Liga es1 x y := by
  induction hxy with
  | rel a b hab => exact h (a, b) hab
  | refl a => exact liga_refl _ _
  | symm a b _ ih => exact liga_symm ih
  | trans a b c _ _ ih1 ih2 => exact liga_trans ih1 ih2

theorem liga_of_subset {es es1 : List (Nat × Nat)} (h : ∀ e ∈ es, e ∈ es1) {x y : Nat}
    (hxy : Liga es x y) : Liga es1 x y :=
  liga_mono (fun e he => liga_of_mem (h e he)) hxy

theorem liga_nil {x y : Nat} : Liga [] x y ↔ x = y := by
  constructor
  · intro h
    induction h with
    | rel a b hab => simp at hab
    | refl a => rfl
    | symm a b _ ih => exact ih.symm
    | trans a b c _ _ ih1 ih2 => exact ih1.trans ih2
  · rintro rfl; exact liga_refl _ _

theorem liga_snoc (es : List (Nat × Nat)) (e : Nat × Nat) (x y : Nat) :
    Liga (es ++ [e]) x y ↔
      Liga es x y ∨ ((Liga es x e.1 ∨ Liga es x e.2) ∧ (Liga es y e.1 ∨ Liga es y e.2)) := by
  have hsub : ∀ {u v}, Liga es u v → Liga (es ++ [e]) u v :=
    fun h => liga_of_subset (fun p hp => List.mem_append_left _ hp) h
  have hab : Liga (es ++ [e]) e.1 e.2 := liga_of_mem (by simp)
  have hmove : ∀ {u v}, Liga es u v → (Liga es v e.1 ∨ Liga es v e.2) →
      (Liga es u e.1 ∨ Liga es u e.2) := by
    intro u v huv h
    rcases h with h | h
    · exact Or.inl (liga_trans huv h)
    · exact Or.inr (liga_trans huv h)
  constructor
  · intro h
    induction h with
    | rel a b hab1 =>
      rcases List.mem_append.1 hab1 with h1 | h1
      · exact Or.inl (liga_of_mem h1)
      · simp only [List.mem_singleton] at h1
        subst h1
        exact Or.inr ⟨Or.inl (liga_refl _ _), Or.inr (liga_refl _ _)⟩
    | refl a => exact Or.inl (liga_refl _ _)
    | symm a b _ ih =>
      rcases ih with h1 | ⟨h1, h2⟩
      · exact Or.inl (liga_symm h1)
      · exact Or.inr ⟨h2, h1⟩
    | trans a b c _ _ ih1 ih2 =>
      rcases ih1 with h1 | ⟨h1, h2⟩
      · rcases ih2 with h3 | ⟨h3, h4⟩
        · exact Or.inl (liga_trans h1 h3)
        · exact Or.inr ⟨hmove h1 h3, h4⟩
      · rcases ih2 with h3 | ⟨h3, h4⟩
        · exact Or.inr ⟨h1, hmove (liga_symm h3) h2⟩
        · exact Or.inr ⟨h1, h4⟩
  · rintro (h | ⟨h1, h2⟩)
    · exact hsub h
    · rcases h1 with h1 | h1 <;> rcases h2 with h2 | h2
      · exact liga_trans (hsub h1) (liga_symm (hsub h2))
      · exact liga_trans (liga_trans (hsub h1) hab) (liga_symm (hsub h2))
      · exact liga_trans (liga_trans (hsub h1) (liga_symm hab)) (liga_symm (hsub h2))
      · exact liga_trans (hsub h1) (liga_symm (hsub h2))

theorem une_eq_iff (rep : Nat → Nat) (e : Nat × Nat) (x y : Nat) :
    une rep e x = une rep e y ↔
      rep x = rep y ∨ ((rep x = rep e.1 ∨ rep x = rep e.2) ∧ (rep y = rep e.1 ∨ rep y = rep e.2)) := by
  simp only [une]
  split_ifs with hx hy hy
  · exact ⟨fun _ => Or.inl (hx.trans hy.symm), fun _ => rfl⟩
  · constructor
    · intro h; exact Or.inr ⟨Or.inr hx, Or.inl h.symm⟩
    · rintro (h | ⟨-, h | h⟩)
      · exact absurd (h.symm.trans hx) hy
      · exact h.symm
      · exact absurd h hy
  · constructor
    · intro h; exact Or.inr ⟨Or.inl h, Or.inr hy⟩
    · rintro (h | ⟨h | h, -⟩)
      · exact absurd (h.trans hy) hx
      · exact h
      · exact absurd h hx
  · constructor
    · intro h; exact Or.inl h
    · rintro (h | ⟨h1 | h1, h2 | h2⟩)
      · exact h
      · rw [h1, h2]
      · exact absurd h2 hy
      · exact absurd h1 hx
      · exact absurd h1 hx

theorem rotulos_snoc (es : List (Nat × Nat)) (e : Nat × Nat) :
    rotulos (es ++ [e]) = une (rotulos es) e := by
  simp [rotulos, List.foldl_append]

theorem rotulos_eq_iff (es : List (Nat × Nat)) :
    ∀ x y, rotulos es x = rotulos es y ↔ Liga es x y := by
  induction es using List.reverseRecOn with
  | nil => intro x y; simp [rotulos, liga_nil]
  | append_singleton es e ih =>
    intro x y
    rw [rotulos_snoc, une_eq_iff, liga_snoc]
    simp only [ih]

theorem ncomp_nil (k : Nat) : ncomp k [] = k := by
  simp [ncomp, rotulos]

theorem ncomp_pos (k : Nat) (es : List (Nat × Nat)) (hk : 0 < k) : 0 < ncomp k es := by
  unfold ncomp
  apply Finset.card_pos.2
  exact ⟨rotulos es 0, Finset.mem_image.2 ⟨0, Finset.mem_range.2 hk, rfl⟩⟩

theorem ncomp_snoc_ge (k : Nat) (es : List (Nat × Nat)) (e : Nat × Nat) :
    ncomp k es ≤ ncomp k (es ++ [e]) + 1 := by
  unfold ncomp
  rw [rotulos_snoc]
  have hsub : (Finset.range k).image (rotulos es) ⊆
      insert (rotulos es e.2) ((Finset.range k).image (une (rotulos es) e)) := by
    intro l hl
    obtain ⟨x, hx, rfl⟩ := Finset.mem_image.1 hl
    by_cases h : rotulos es x = rotulos es e.2
    · rw [h]; exact Finset.mem_insert_self _ _
    · apply Finset.mem_insert_of_mem
      exact Finset.mem_image.2 ⟨x, hx, by simp [une, h]⟩
  exact le_trans (Finset.card_le_card hsub) (Finset.card_insert_le _ _)

theorem ncomp_snoc_lt (k : Nat) (es : List (Nat × Nat)) (a b : Nat) (ha : a < k) (hb : b < k)
    (hab : ¬ Liga es a b) : ncomp k (es ++ [(a, b)]) + 1 = ncomp k es := by
  have hne : rotulos es a ≠ rotulos es b := fun h => hab ((rotulos_eq_iff es a b).1 h)
  have hle := ncomp_snoc_ge k es (a, b)
  suffices h : ncomp k (es ++ [(a, b)]) + 1 ≤ ncomp k es by omega
  unfold ncomp
  rw [rotulos_snoc]
  have hmem : rotulos es b ∈ (Finset.range k).image (rotulos es) :=
    Finset.mem_image.2 ⟨b, Finset.mem_range.2 hb, rfl⟩
  have hsub : (Finset.range k).image (une (rotulos es) (a, b)) ⊆
      ((Finset.range k).image (rotulos es)).erase (rotulos es b) := by
    intro l hl
    obtain ⟨x, hx, rfl⟩ := Finset.mem_image.1 hl
    by_cases h : rotulos es x = rotulos es b
    · simp only [une, h, if_true]
      exact Finset.mem_erase.2 ⟨hne, Finset.mem_image.2 ⟨a, Finset.mem_range.2 ha, rfl⟩⟩
    · simp only [une, h, if_false]
      exact Finset.mem_erase.2 ⟨h, Finset.mem_image.2 ⟨x, hx, rfl⟩⟩
  have h1 := Finset.card_le_card hsub
  rw [Finset.card_erase_of_mem hmem] at h1
  have h2 : 0 < ((Finset.range k).image (rotulos es)).card := Finset.card_pos.2 ⟨_, hmem⟩
  omega

theorem ncomp_append_ge (k : Nat) (es bs : List (Nat × Nat)) :
    ncomp k es ≤ ncomp k (es ++ bs) + bs.length := by
  induction bs using List.reverseRecOn with
  | nil => simp
  | append_singleton bs e ih =>
    have h := ncomp_snoc_ge k (es ++ bs) e
    rw [← List.append_assoc, List.length_append, List.length_singleton]
    omega

theorem ncomp_add_length_ge (k : Nat) (es : List (Nat × Nat)) : k ≤ ncomp k es + es.length := by
  have h := ncomp_append_ge k [] es
  rw [ncomp_nil] at h
  simpa using h

theorem card_image_le_of_refina {s : Finset Nat} {f g : Nat → Nat}
    (h : ∀ x ∈ s, ∀ y ∈ s, f x = f y → g x = g y) : (s.image g).card ≤ (s.image f).card := by
  classical
  let c : Nat → Nat := fun l => if hl : ∃ x ∈ s, f x = l then g (Classical.choose hl) else 0
  have hsub : s.image g ⊆ (s.image f).image c := by
    intro l hl
    obtain ⟨x, hx, rfl⟩ := Finset.mem_image.1 hl
    refine Finset.mem_image.2 ⟨f x, Finset.mem_image.2 ⟨x, hx, rfl⟩, ?_⟩
    have hex : ∃ y ∈ s, f y = f x := ⟨x, hx, rfl⟩
    have hc := Classical.choose_spec hex
    simp only [c, dif_pos hex]
    exact h _ hc.1 _ hx hc.2
  exact le_trans (Finset.card_le_card hsub) Finset.card_image_le

theorem ncomp_le_of_refina (k : Nat) (es es1 : List (Nat × Nat))
    (h : ∀ x < k, ∀ y < k, Liga es x y → Liga es1 x y) : ncomp k es1 ≤ ncomp k es := by
  unfold ncomp
  apply card_image_le_of_refina
  intro x hx y hy hxy
  rw [rotulos_eq_iff] at hxy ⊢
  exact h x (Finset.mem_range.1 hx) y (Finset.mem_range.1 hy) hxy

theorem ncomp_le_one_of_conexo (k : Nat) (es : List (Nat × Nat))
    (h : ∀ x < k, ∀ y < k, Liga es x y) : ncomp k es ≤ 1 := by
  unfold ncomp
  rw [Finset.card_le_one]
  intro a ha b hb
  obtain ⟨x, hx, rfl⟩ := Finset.mem_image.1 ha
  obtain ⟨y, hy, rfl⟩ := Finset.mem_image.1 hb
  exact (rotulos_eq_iff es x y).2 (h x (Finset.mem_range.1 hx) y (Finset.mem_range.1 hy))

theorem conexo_of_ncomp_le_one (k : Nat) (es : List (Nat × Nat)) (h : ncomp k es ≤ 1) :
    ∀ x < k, ∀ y < k, Liga es x y := by
  intro x hx y hy
  unfold ncomp at h
  rw [Finset.card_le_one] at h
  exact (rotulos_eq_iff es x y).1
    (h _ (Finset.mem_image.2 ⟨x, Finset.mem_range.2 hx, rfl⟩) _
      (Finset.mem_image.2 ⟨y, Finset.mem_range.2 hy, rfl⟩))

/-! ## Disjoint sets: `find` -/

theorem ler_em {xs : List Nat} {i : Nat} (h : i < xs.length) : ler xs i = .ok (em xs i) := by
  simp [ler, em, List.getElem?_eq_getElem h]

theorem em_set {xs : List Nat} {i : Nat} (a j : Nat) (h : i < xs.length) :
    em (xs.set i a) j = if j = i then a else em xs j := by
  unfold em
  by_cases hj : j = i
  · subst hj
    simp [h]
  · simp [hj, List.getElem?_set_ne (Ne.symm hj)]

theorem em_range {k i : Nat} (h : i < k) : em (List.range k) i = i := by
  simp [em, h]

theorem em_replicate (k i : Nat) : em (List.replicate k 0) i = 0 := by
  unfold em
  by_cases h : i < k
  · simp [h]
  · simp [h]

theorem uf_inicial (k : Nat) : UF (List.range k) (List.replicate k 0) k 0 id where
  len_pai := by simp
  len_rank := by simp
  pai_lt := fun i hi => by rw [em_range hi]; exact hi
  rep_lt := fun i hi => hi
  rep_pai := fun i hi => by rw [em_range hi]
  rep_raiz := fun i _ _ => rfl
  raiz_rep := fun i hi => em_range hi
  rank_pai := fun i hi h => absurd (em_range hi) h
  rank_le := fun i _ => by rw [em_replicate]

theorem uf_mono {pai rank : List Nat} {k m m1 : Nat} {rep : Nat → Nat}
    (h : UF pai rank k m rep) (hm : m ≤ m1) : UF pai rank k m1 rep :=
  { h with rank_le := fun i hi => le_trans (h.rank_le i hi) hm }

theorem find_laco_spec (rank : List Nat) (k m : Nat) (rep : Nat → Nat) (fuel : Nat) :
    ∀ (pai : List Nat) (u : Nat), UF pai rank k m rep → u < k → m < fuel + em rank u →
      ∃ pai1, find_laco fuel pai u = .ok (pai1, rep u) ∧ UF pai1 rank k m rep := by
  induction fuel with
  | zero =>
    intro pai u h hu hm
    have := h.rank_le u hu
    omega
  | succ fuel ih =>
    intro pai u h hu hm
    have hlu : u < pai.length := by rw [h.len_pai]; exact hu
    simp only [find_laco, ler_em hlu]
    by_cases hr : em pai u = u
    · simp only [hr, if_true]
      exact ⟨pai, by rw [h.rep_raiz u hu hr], h⟩
    · simp only [hr, if_false]
      have hpu : em pai u < k := h.pai_lt u hu
      have hlpu : em pai u < pai.length := by rw [h.len_pai]; exact hpu
      simp only [ler_em hlpu]
      have hppu : em pai (em pai u) < k := h.pai_lt _ hpu
      have hrk1 : em rank u < em rank (em pai u) := h.rank_pai u hu hr
      have hrk2 : em rank (em pai u) ≤ em rank (em pai (em pai u)) := by
        by_cases hr2 : em pai (em pai u) = em pai u
        · rw [hr2]
        · exact le_of_lt (h.rank_pai _ hpu hr2)
      have hne : em pai (em pai u) ≠ u := by
        intro heq
        rw [heq] at hrk2
        omega
      have h1 : UF (pai.set u (em pai (em pai u))) rank k m rep := by
        refine ⟨by simp [h.len_pai], h.len_rank, ?_, h.rep_lt, ?_, ?_, ?_, ?_, h.rank_le⟩
        · intro i hi
          rw [em_set _ _ hlu]
          split_ifs
          · exact hppu
          · exact h.pai_lt i hi
        · intro i hi
          rw [em_set _ _ hlu]
          split_ifs with hiu
          · rw [hiu, h.rep_pai _ hpu, h.rep_pai u hu]
          · exact h.rep_pai i hi
        · intro i hi
          rw [em_set _ _ hlu]
          split_ifs with hiu
          · intro heq
            rw [hiu] at heq
            exact absurd heq hne
          · exact h.rep_raiz i hi
        · intro i hi
          rw [em_set _ _ hlu]
          split_ifs with hiu
          · have := h.raiz_rep i hi
            rw [hiu] at this
            exact absurd this hr
          · exact h.raiz_rep i hi
        · intro i hi
          rw [em_set _ _ hlu]
          split_ifs with hiu
          · intro _
            rw [hiu]
            omega
          · exact h.rank_pai i hi
      obtain ⟨pai1, hf, h2⟩ := ih _ _ h1 hppu (by omega)
      refine ⟨pai1, ?_, h2⟩
      rw [hf, h.rep_pai _ hpu, h.rep_pai u hu]

theorem find_spec {pai rank : List Nat} {k m : Nat} {rep : Nat → Nat} (h : UF pai rank k m rep)
    {u : Nat} (hu : u < k) (hm : m < k) :
    ∃ pai1, find pai u = .ok (pai1, rep u) ∧ UF pai1 rank k m rep := by
  unfold find
  apply find_laco_spec rank k m rep pai.length pai u h hu
  rw [h.len_pai]
  omega

/-! ## Disjoint sets: `unite` -/

/-- Hang the root `b` under the root `a`. -/
theorem uf_liga {pai rank rank1 : List Nat} {k m : Nat} {rep : Nat → Nat}
    (h : UF pai rank k m rep) {a b : Nat} (ha : a < k) (hb : b < k)
    (hra : rep a = a) (hrb : rep b = b) (hab : a ≠ b)
    (hlen : rank1.length = k)
    (hsame : ∀ i, i ≠ a → em rank1 i = em rank i)
    (hge : em rank a ≤ em rank1 a) (hle : em rank1 a ≤ m + 1)
    (hlt : em rank1 b < em rank1 a) :
    UF (pai.set b a) rank1 k (m + 1) (fun x => if rep x = b then a else rep x) := by
  have hlb : b < pai.length := by rw [h.len_pai]; exact hb
  have hpa : em pai a = a := by have := h.raiz_rep a ha; rwa [hra] at this
  have hpb : em pai b = b := by have := h.raiz_rep b hb; rwa [hrb] at this
  refine ⟨by simp [h.len_pai], hlen, ?_, ?_, ?_, ?_, ?_, ?_, ?_⟩
  · intro i hi
    rw [em_set _ _ hlb]
    split_ifs
    · exact ha
    · exact h.pai_lt i hi
  · intro i hi
    show (if rep i = b then a else rep i) < k
    split_ifs
    · exact ha
    · exact h.rep_lt i hi
  · intro i hi
    rw [em_set _ _ hlb]
    by_cases hib : i = b
    · subst hib
      simp [hra, hrb, hab]
    · simp only [hib, if_false]
      rw [h.rep_pai i hi]
  · intro i hi
    rw [em_set _ _ hlb]
    by_cases hib : i = b
    · subst hib
      simp only [if_true]
      intro heq
      exact absurd heq hab
    · simp only [hib, if_false]
      intro hroot
      have := h.rep_raiz i hi hroot
      rw [this]
      simp [hib]
  · intro i hi
    show em (pai.set b a) (if rep i = b then a else rep i) = (if rep i = b then a else rep i)
    by_cases hib : rep i = b
    · simp only [hib, if_true]
      rw [em_set _ _ hlb]
      simp [hab, hpa]
    · simp only [hib, if_false]
      rw [em_set _ _ hlb]
      simp only [hib, if_false]
      exact h.raiz_rep i hi
  · intro i hi
    rw [em_set _ _ hlb]
    by_cases hib : i = b
    · subst hib
      simp only [if_true]
      intro _
      exact hlt
    · simp only [hib, if_false]
      intro hroot
      have hia : i ≠ a := by
        intro hia
        rw [hia] at hroot
        exact hroot hpa
      rw [hsame i hia]
      have h1 := h.rank_pai i hi hroot
      by_cases hpia : em pai i = a
      · rw [hpia] at h1 ⊢
        omega
      · rw [hsame _ hpia]
        exact h1
  · intro i hi
    by_cases hia : i = a
    · rw [hia]; exact hle
    · rw [hsame i hia]
      exact le_trans (h.rank_le i hi) (Nat.le_succ m)

/-- The body of `unite` after its two calls of `find`, for arguments in different
sets. -/
theorem unite_corpo {pai pai1 pai2 rank : List Nat} {k m : Nat} {rep : Nat → Nat}
    (h : UF pai rank k m rep) {u v : Nat} (hu : u < k) (hv : v < k)
    (hf1 : find pai u = .ok (pai1, rep u)) (hf2 : find pai1 v = .ok (pai2, rep v))
    (h2 : UF pai2 rank k m rep) (hne : rep u ≠ rep v) :
    ∃ pai3 rank1 rep1, unite pai rank u v = .ok (pai3, rank1) ∧ UF pai3 rank1 k (m + 1) rep1 ∧
      ∀ x y, rep1 x = rep1 y ↔
        rep x = rep y ∨ ((rep x = rep u ∨ rep x = rep v) ∧ (rep y = rep u ∨ rep y = rep v)) := by
  have hru : rep u < k := h.rep_lt u hu
  have hrv : rep v < k := h.rep_lt v hv
  have hrru : rep (rep u) = rep u := by
    apply h.rep_raiz _ hru
    exact h.raiz_rep u hu
  have hrrv : rep (rep v) = rep v := by
    apply h.rep_raiz _ hrv
    exact h.raiz_rep v hv
  have hlu : rep u < rank.length := by rw [h.len_rank]; exact hru
  have hlv : rep v < rank.length := by rw [h.len_rank]; exact hrv
  unfold unite
  simp only [hf1, hf2, hne, if_false, ler_em hlu, ler_em hlv]
  by_cases hlt : em rank (rep u) < em rank (rep v)
  · simp only [hlt, if_true]
    have hkk : ¬ em rank (rep v) = em rank (rep u) := by omega
    simp only [hkk, if_false]
    refine ⟨_, _, (fun x => if rep x = rep u then rep v else rep x), rfl, ?_, ?_⟩
    · apply uf_liga h2 hrv hru hrrv hrru (Ne.symm hne) h.len_rank (fun _ _ => rfl) (le_refl _)
      · exact le_trans (h.rank_le _ hrv) (Nat.le_succ m)
      · exact hlt
    · intro x y
      have := une_eq_iff rep (rep v, rep u) x y
      simp only [une, hrru, hrrv] at this
      rw [this]
      tauto
  · simp only [hlt, if_false]
    by_cases heq : em rank (rep u) = em rank (rep v)
    · simp only [heq, if_true]
      refine ⟨_, _, (fun x => if rep x = rep v then rep u else rep x), rfl, ?_, ?_⟩
      · apply uf_liga h2 hru hrv hrru hrrv hne (by simp [h.len_rank])
        · intro i hi
          rw [em_set _ _ hlu]
          simp [hi]
        · rw [em_set _ _ hlu]; simp [heq]
        · rw [em_set _ _ hlu]
          simp only [if_true]
          have := h.rank_le _ hrv
          omega
        · rw [em_set _ _ hlu, em_set _ _ hlu]
          simp [Ne.symm hne]
      · intro x y
        have := une_eq_iff rep (rep u, rep v) x y
        simp only [une, hrru, hrrv] at this
        rw [this]
    · simp only [heq, if_false]
      refine ⟨_, _, (fun x => if rep x = rep v then rep u else rep x), rfl, ?_, ?_⟩
      · apply uf_liga h2 hru hrv hrru hrrv hne h.len_rank (fun _ _ => rfl) (le_refl _)
        · exact le_trans (h.rank_le _ hru) (Nat.le_succ m)
        · omega
      · intro x y
        have := une_eq_iff rep (rep u, rep v) x y
        simp only [une, hrru, hrrv] at this
        rw [this]

theorem unite_spec {pai rank : List Nat} {k m : Nat} {rep : Nat → Nat}
    (h : UF pai rank k m rep) {u v : Nat} (hu : u < k) (hv : v < k) (hm : m < k)
    (hne : rep u ≠ rep v) :
    ∃ pai1 rank1 rep1, unite pai rank u v = .ok (pai1, rank1) ∧ UF pai1 rank1 k (m + 1) rep1 ∧
      ∀ x y, rep1 x = rep1 y ↔
        rep x = rep y ∨ ((rep x = rep u ∨ rep x = rep v) ∧ (rep y = rep u ∨ rep y = rep v)) := by
  obtain ⟨pai1, hf1, h1⟩ := find_spec h hu hm
  obtain ⟨pai2, hf2, h2⟩ := find_spec h1 hv hm
  exact unite_corpo h hu hv hf1 hf2 h2 hne

/-! ## Invariant of the sweep -/

theorem ler_vertice_ok {cid : List Nat} {u : Nat} (h1 : 1 ≤ u) (h2 : u ≤ cid.length) :
    ler_vertice cid u = .ok (em cid (u - 1)) := by
  unfold ler_vertice
  rw [if_neg (by omega)]
  exact ler_em (by omega)

theorem ler_vertice_erro {α : Type} (cid : List α) (u : Nat) (h : ¬ (1 ≤ u ∧ u ≤ cid.length)) :
    ler_vertice cid u = .error .fora_dos_limites := by
  unfold ler_vertice
  by_cases h0 : u = 0
  · simp [h0]
  · rw [if_neg h0]
    have : cid.length ≤ u - 1 := by omega
    simp [ler, List.getElem?_eq_none this]

theorem em_lt_of_forall {cid : List Nat} {k : Nat} (h : ∀ c ∈ cid, c < k) {i : Nat}
    (hi : i < cid.length) : em cid i < k := by
  apply h
  unfold em
  rw [List.getD_eq_getElem _ _ hi]
  exact List.getElem_mem _

theorem par_lt {cid : List Nat} {k : Nat} (h : ∀ c ∈ cid, c < k) {a : ArestaInfo}
    (ha : BemFormada cid.length a) : (par cid a).1 < k ∧ (par cid a).2 < k := by
  obtain ⟨h1, h2, h3, h4⟩ := ha
  exact ⟨em_lt_of_forall h (by omega), em_lt_of_forall h (by omega)⟩

theorem inv_inicial (cid : List Nat) (k : Nat) :
    Inv cid k [] ⟨List.range k, List.replicate k 0, [], 0⟩ where
  uf := ⟨id, uf_inicial k, fun x y _ _ => by simp [liga_nil]⟩
  num := rfl
  conta := by simp [ncomp_nil]
  bem := by simp
  sub := List.Sublist.refl _
  proc := by simp
  guloso := by simp

theorem inv_num_lt {cid : List Nat} {k : Nat} {P : List ArestaInfo} {st : Varredura}
    (h : Inv cid k P st) (hk : 0 < k) : st.num_arestas < k := by
  have h1 := h.conta
  have h2 := ncomp_pos k (st.resultado.map (par cid)) hk
  rw [h.num]
  omega

theorem inv_salta {cid : List Nat} {k : Nat} {P : List ArestaInfo} {st : Varredura}
    (h : Inv cid k P st) (a : ArestaInfo) (pai2 : List Nat) (rep : Nat → Nat)
    (huf : UF pai2 st.rank k st.num_arestas rep)
    (hrep : ∀ x y, x < k → y < k → (rep x = rep y ↔ Liga (st.resultado.map (par cid)) x y))
    (hcid : ∀ c ∈ cid, c < k)
    (heq : rep (par cid a).1 = rep (par cid a).2) :
    Inv cid k (P ++ [a]) { st with pai := pai2 } where
  uf := ⟨rep, huf, hrep⟩
  num := h.num
  conta := h.conta
  bem := h.bem
  sub := h.sub.trans (List.sublist_append_left _ _)
  proc := by
    intro e he hbf
    rcases List.mem_append.1 he with h1 | h1
    · exact h.proc e h1 hbf
    · simp only [List.mem_singleton] at h1
      subst h1
      obtain ⟨hl1, hl2⟩ := par_lt hcid hbf
      exact (hrep _ _ hl1 hl2).1 heq
  guloso := by
    intro i t hit
    obtain ⟨P1, P2, hP, hn, hl⟩ := h.guloso i t hit
    exact ⟨P1, P2 ++ [a], by rw [hP]; simp, hn, hl⟩

theorem inv_estende {cid : List Nat} {k : Nat} {P : List ArestaInfo} {st : Varredura}
    (h : Inv cid k P st) (resto : List ArestaInfo) (hcid : ∀ c ∈ cid, c < k)
    (h1 : ncomp k (st.resultado.map (par cid)) ≤ 1) :
    Inv cid k (P ++ resto) st where
  uf := h.uf
  num := h.num
  conta := h.conta
  bem := h.bem
  sub := h.sub.trans (List.sublist_append_left _ _)
  proc := by
    intro e _ hbf
    obtain ⟨hl1, hl2⟩ := par_lt hcid hbf
    exact conexo_of_ncomp_le_one k _ h1 _ hl1 _ hl2
  guloso := by
    intro i t hit
    obtain ⟨P1, P2, hP, hn, hl⟩ := h.guloso i t hit
    exact ⟨P1, P2 ++ resto, by rw [hP]; simp, hn, hl⟩

theorem inv_escolhe {cid : List Nat} {k : Nat} {P : List ArestaInfo} {st : Varredura}
    (h : Inv cid k P st) (a : ArestaInfo) (hbf : BemFormada cid.length a)
    (pai3 rank3 : List Nat) (rep rep1 : Nat → Nat)
    (hrep : ∀ x y, x < k → y < k → (rep x = rep y ↔ Liga (st.resultado.map (par cid)) x y))
    (huf : UF pai3 rank3 k (st.num_arestas + 1) rep1)
    (hrep1 : ∀ x y, rep1 x = rep1 y ↔
        rep x = rep y ∨ ((rep x = rep (par cid a).1 ∨ rep x = rep (par cid a).2) ∧
          (rep y = rep (par cid a).1 ∨ rep y = rep (par cid a).2)))
    (hcid : ∀ c ∈ cid, c < k)
    (hne : rep (par cid a).1 ≠ rep (par cid a).2) :
    Inv cid k (P ++ [a]) ⟨pai3, rank3, st.resultado ++ [a], st.num_arestas + 1⟩ := by
  obtain ⟨hl1, hl2⟩ := par_lt hcid hbf
  have hnl : ¬ Liga (st.resultado.map (par cid)) (par cid a).1 (par cid a).2 :=
    fun hl => hne ((hrep _ _ hl1 hl2).2 hl)
  have hmap : (st.resultado ++ [a]).map (par cid) = st.resultado.map (par cid) ++ [par cid a] := by
    simp
  refine ⟨⟨rep1, huf, ?_⟩, ?_, ?_, ?_, ?_, ?_, ?_⟩
  · intro x y hx hy
    show rep1 x = rep1 y ↔ Liga ((st.resultado ++ [a]).map (par cid)) x y
    rw [hmap, liga_snoc, hrep1, hrep x y hx hy, hrep x _ hx hl1, hrep x _ hx hl2,
      hrep y _ hy hl1, hrep y _ hy hl2]
  · show st.num_arestas + 1 = (st.resultado ++ [a]).length
    simp [h.num]
  · show (st.resultado ++ [a]).length + ncomp k ((st.resultado ++ [a]).map (par cid)) = k
    have h1 := ncomp_snoc_lt k (st.resultado.map (par cid)) _ _ hl1 hl2 hnl
    have h2 := h.conta
    rw [hmap]
    simp only [List.length_append, List.length_singleton]
    have : par cid a = ((par cid a).1, (par cid a).2) := rfl
    rw [this]
    omega
  · intro e he
    rcases List.mem_append.1 he with h1 | h1
    · exact h.bem e h1
    · simp only [List.mem_singleton] at h1
      rw [h1]; exact hbf
  · exact List.Sublist.append h.sub (List.Sublist.refl _)
  · intro e he hbfe
    show Liga ((st.resultado ++ [a]).map (par cid)) _ _
    rw [hmap]
    rcases List.mem_append.1 he with h1 | h1
    · exact liga_of_subset (fun p hp => List.mem_append_left _ hp) (h.proc e h1 hbfe)
    · simp only [List.mem_singleton] at h1
      subst h1
      exact liga_of_mem (by simp)
  · intro i t hit
    show ∃ P1 P2, P ++ [a] = P1 ++ t :: P2 ∧
      ¬ Liga (((st.resultado ++ [a]).take i).map (par cid)) (par cid t).1 (par cid t).2 ∧
      ∀ e ∈ P1, BemFormada cid.length e →
        Liga (((st.resultado ++ [a]).take i).map (par cid)) (par cid e).1 (par cid e).2
    have hit1 : (st.resultado ++ [a])[i]? = some t := hit
    by_cases hi : i < st.resultado.length
    · rw [List.getElem?_append_left hi] at hit1
      obtain ⟨P1, P2, hP, hn, hl⟩ := h.guloso i t hit1
      rw [List.take_append_of_le_length (le_of_lt hi)]
      exact ⟨P1, P2 ++ [a], by rw [hP]; simp, hn, hl⟩
    · have hi2 : st.resultado.length ≤ i := not_lt.1 hi
      rw [List.getElem?_append_right hi2] at hit1
      have hi3 : i - st.resultado.length = 0 := by
        by_contra hne0
        have : 1 ≤ i - st.resultado.length := by omega
        rw [List.getElem?_eq_none (by simpa using this)] at hit1
        cases hit1
      rw [hi3] at hit1
      simp only [List.getElem?_cons_zero, Option.some.injEq] at hit1
      subst hit1
      have hi4 : i = st.resultado.length := by omega
      subst hi4
      rw [List.take_append_of_le_length (le_refl _), List.take_length]
      exact ⟨P, [], rfl, hnl, h.proc⟩

/-! ## The sweep -/

theorem varredura_spec (cid : List Nat) (k : Nat) (hk : 0 < k) (hcid : ∀ c ∈ cid, c < k) :
    ∀ (resto P : List ArestaInfo) (st : Varredura), Inv cid k P st →
      (∃ st1, varredura cid k resto st = .ok st1 ∧ Inv cid k (P ++ resto) st1) ∨
      (varredura cid k resto st = .error .fora_dos_limites ∧
        ∃ a ∈ resto, ¬ BemFormada cid.length a) := by
  intro resto
  induction resto with
  | nil =>
    intro P st h
    left
    exact ⟨st, rfl, by simpa using h⟩
  | cons a resto ih =>
    intro P st h
    by_cases hbf : BemFormada cid.length a
    · obtain ⟨hb1, hb2, hb3, hb4⟩ := hbf
      have hbf : BemFormada cid.length a := ⟨hb1, hb2, hb3, hb4⟩
      obtain ⟨hl1, hl2⟩ := par_lt hcid hbf
      obtain ⟨rep, huf, hrep⟩ := h.uf
      have hm := inv_num_lt h hk
      obtain ⟨pai1, hf1, huf1⟩ := find_spec huf hl1 hm
      obtain ⟨pai2, hf2, huf2⟩ := find_spec huf1 hl2 hm
      have hf1a : find st.pai (em cid (a.origem - 1)) = .ok (pai1, rep (par cid a).1) := hf1
      have hf2a : find pai1 (em cid (a.destino - 1)) = .ok (pai2, rep (par cid a).2) := hf2
      simp only [varredura, ler_vertice_ok hb1 hb2, ler_vertice_ok hb3 hb4, hf1a, hf2a]
      by_cases heq : rep (par cid a).1 = rep (par cid a).2
      · simp only [heq, if_true]
        have hinv := inv_salta h a pai2 rep huf2 hrep hcid heq
        rcases ih (P ++ [a]) _ hinv with ⟨st1, hst1, hinv1⟩ | ⟨herr, e, he, hebf⟩
        · left
          exact ⟨st1, hst1, by simpa using hinv1⟩
        · right
          exact ⟨herr, e, List.mem_cons_of_mem _ he, hebf⟩
      · simp only [heq, if_false]
        have hnl : ¬ Liga (st.resultado.map (par cid)) (par cid a).1 (par cid a).2 :=
          fun hl => heq ((hrep _ _ hl1 hl2).2 hl)
        have hc1 := ncomp_snoc_lt k (st.resultado.map (par cid)) _ _ hl1 hl2 hnl
        have hc2 := ncomp_pos k (st.resultado.map (par cid) ++ [((par cid a).1, (par cid a).2)]) hk
        have hc3 := h.conta
        have hnum := h.num
        have hcap : ¬ (3 * ((k : Int) - 1) < 3 * (st.num_arestas : Int) + 3) := by
          omega
        simp only [hcap, if_false]
        obtain ⟨pai3, rank3, rep1, hun, huf3, hrep1⟩ := unite_spec huf2 hl1 hl2 hm heq
        have huna : unite pai2 st.rank (em cid (a.origem - 1)) (em cid (a.destino - 1))
            = .ok (pai3, rank3) := hun
        simp only [huna]
        have hinv := inv_escolhe h a hbf pai3 rank3 rep rep1 hrep huf3 hrep1 hcid heq
        by_cases hbrk : ((st.num_arestas + 1 : Nat) : Int) = (k : Int) - 1
        · simp only [hbrk, if_true]
          left
          refine ⟨_, rfl, ?_⟩
          have hone : ncomp k ((st.resultado ++ [a]).map (par cid)) ≤ 1 := by
            have := hinv.conta
            simp only [List.length_append, List.length_singleton] at this
            omega
          have := inv_estende hinv resto hcid hone
          simpa using this
        · simp only [hbrk, if_false]
          rcases ih (P ++ [a]) _ hinv with ⟨st1, hst1, hinv1⟩ | ⟨herr, e, he, hebf⟩
          · left
            exact ⟨st1, hst1, by simpa using hinv1⟩
          · right
            exact ⟨herr, e, List.mem_cons_of_mem _ he, hebf⟩
    · right
      refine ⟨?_, a, List.mem_cons_self _ _, hbf⟩
      simp only [varredura]
      by_cases ho : 1 ≤ a.origem ∧ a.origem ≤ cid.length
      · have hd : ¬ (1 ≤ a.destino ∧ a.destino ≤ cid.length) := by
          intro hd
          exact hbf ⟨ho.1, ho.2, hd.1, hd.2⟩
        rw [ler_vertice_ok ho.1 ho.2, ler_vertice_erro cid _ hd]
      · rw [ler_vertice_erro cid _ ho]
        cases ler_vertice cid a.destino <;> rfl

/-! ## Optimality of the greedy sweep -/

theorem soma_pontual : ∀ (A B : List Int), A.length = B.length →
    (∀ (i : Nat) (a b : Int), A[i]? = some a → B[i]? = some b → a ≤ b) → A.sum ≤ B.sum := by
  intro A
  induction A with
  | nil =>
    intro B hl _
    cases B with
    | nil => simp
    | cons b B => simp at hl
  | cons a A ih =>
    intro B hl h
    cases B with
    | nil => simp at hl
    | cons b B =>
      simp only [List.sum_cons]
      have h0 := h 0 a b (by simp) (by simp)
      have h1 := ih B (by simpa using hl) (fun i a1 b1 ha hb => h (i + 1) a1 b1 (by simpa using ha) (by simpa using hb))
      omega

theorem liga_map_mono {cid : List Nat} {S : List ArestaInfo} {es : List (Nat × Nat)}
    (h : ∀ e ∈ S, Liga es (par cid e).1 (par cid e).2) {x y : Nat}
    (hxy : Liga (S.map (par cid)) x y) : Liga es x y := by
  apply liga_mono _ hxy
  intro p hp
  obtain ⟨e, he, rfl⟩ := List.mem_map.1 hp
  exact h e he

theorem guloso_pontual {cid : List Nat} {k : Nat} {L : List ArestaInfo} {st : Varredura}
    (h : Inv cid k L st)
    (hL : L.Pairwise (fun a b => a.peso ≤ b.peso))
    (S : List ArestaInfo) (hS : S.Pairwise (fun a b => a.peso ≤ b.peso))
    (hmem : ∀ e ∈ S, e ∈ L) (hbf : ∀ e ∈ S, BemFormada cid.length e)
    (hlen : S.length + 1 = k)
    (hcon : ∀ x < k, ∀ y < k, Liga (S.map (par cid)) x y) :
    ∀ (i : Nat) (t s : ArestaInfo), st.resultado[i]? = some t → S[i]? = some s →
      t.peso ≤ s.peso := by
  intro i t s hti hsi
  by_contra hlt
  have hlt : s.peso < t.peso := not_le.1 hlt
  obtain ⟨P1, P2, hP, -, hl⟩ := h.guloso i t hti
  have hiT : i < st.resultado.length := by
    by_contra hc
    rw [List.getElem?_eq_none (not_lt.1 hc)] at hti
    cases hti
  have hiS : i < S.length := by
    by_contra hc
    rw [List.getElem?_eq_none (not_lt.1 hc)] at hsi
    cases hsi
  have hsplit : S = S.take i ++ s :: S.drop (i + 1) := by
    have h1 : S[i] = s := by
      rw [List.getElem?_eq_getElem hiS] at hsi
      exact Option.some.inj hsi
    rw [← h1]
    simp
  have hS1 : ∀ e ∈ S.take (i + 1), e.peso ≤ s.peso := by
    intro e he
    have hpw := hS
    rw [hsplit] at hpw
    have hpw2 := (List.pairwise_append.1 hpw).2.2
    have htk : S.take (i + 1) = S.take i ++ [s] := by
      rw [List.take_succ, hsi]
      rfl
    rw [htk] at he
    rcases List.mem_append.1 he with h1 | h1
    · exact hpw2 e h1 s (List.mem_cons_self _ _)
    · simp only [List.mem_singleton] at h1
      rw [h1]
  have hP2 : ∀ x ∈ t :: P2, t.peso ≤ x.peso := by
    intro x hx
    have hpw := hL
    rw [hP] at hpw
    have hpw2 := (List.pairwise_append.1 hpw).2.1
    rcases List.mem_cons.1 hx with h1 | h1
    · rw [h1]
    · exact (List.pairwise_cons.1 hpw2).1 x h1
  have hin : ∀ e ∈ S.take (i + 1), Liga ((st.resultado.take i).map (par cid))
      (par cid e).1 (par cid e).2 := by
    intro e he
    have heS : e ∈ S := List.mem_of_mem_take he
    have heL := hmem e heS
    rw [hP] at heL
    rcases List.mem_append.1 heL with h1 | h1
    · exact hl e h1 (hbf e heS)
    · have := hP2 e h1
      have := hS1 e he
      omega
  have hc1 : ncomp k ((st.resultado.take i).map (par cid)) ≤ ncomp k ((S.take (i + 1)).map (par cid)) :=
    ncomp_le_of_refina k _ _ (fun x _ y _ hxy => liga_map_mono hin hxy)
  have hc2 := ncomp_add_length_ge k ((st.resultado.take i).map (par cid))
  have hc3 := ncomp_append_ge k ((S.take (i + 1)).map (par cid)) ((S.drop (i + 1)).map (par cid))
  rw [← List.map_append, List.take_append_drop] at hc3
  have hc4 := ncomp_le_one_of_conexo k _ hcon
  simp only [List.length_map, List.length_take, List.length_drop] at hc2 hc3
  have : min i st.resultado.length = i := Nat.min_eq_left (le_of_lt hiT)
  omega

theorem custo_perm {A B : List ArestaInfo} (h : A.Perm B) : custo A = custo B := by
  unfold custo
  exact List.Perm.sum_eq (h.map _)

theorem guloso_completo {cid : List Nat} {k : Nat} {L : List ArestaInfo} {st : Varredura}
    (h : Inv cid k L st) (hk : 0 < k) (hbf : ∀ e ∈ L, BemFormada cid.length e)
    (hcon : ∀ x < k, ∀ y < k, Liga (L.map (par cid)) x y) :
    st.resultado.length + 1 = k ∧
    ∀ x < k, ∀ y < k, Liga (st.resultado.map (par cid)) x y := by
  have hall : ∀ x < k, ∀ y < k, Liga (st.resultado.map (par cid)) x y := by
    intro x hx y hy
    exact liga_map_mono (fun e he => h.proc e he (hbf e he)) (hcon x hx y hy)
  have h1 := ncomp_le_one_of_conexo k _ hall
  have h2 := ncomp_pos k (st.resultado.map (par cid)) hk
  have h3 := h.conta
  exact ⟨by omega, hall⟩

theorem guloso_minimo {cid : List Nat} {k : Nat} {L : List ArestaInfo} {st : Varredura}
    (h : Inv cid k L st) (hk : 0 < k)
    (hL : L.Pairwise (fun a b => a.peso ≤ b.peso))
    (S : List ArestaInfo)
    (hmem : ∀ e ∈ S, e ∈ L) (hbf : ∀ e ∈ S, BemFormada cid.length e)
    (hlen : S.length + 1 = k)
    (hcon : ∀ x < k, ∀ y < k, Liga (S.map (par cid)) x y) :
    custo st.resultado ≤ custo S := by
  haveI : IsTotal ArestaInfo (fun a b => a.peso ≤ b.peso) := ⟨fun a b => le_total _ _⟩
  haveI : IsTrans ArestaInfo (fun a b => a.peso ≤ b.peso) := ⟨fun a b c => le_trans⟩
  have hperm := List.perm_insertionSort (fun a b : ArestaInfo => a.peso ≤ b.peso) S
  have hsort := List.sorted_insertionSort (fun a b : ArestaInfo => a.peso ≤ b.peso) S
  set S1 := S.insertionSort (fun a b => a.peso ≤ b.peso) with hS1
  have hmem1 : ∀ e ∈ S1, e ∈ S := fun e he => hperm.mem_iff.1 he
  have hcon1 : ∀ x < k, ∀ y < k, Liga (S1.map (par cid)) x y := by
    intro x hx y hy
    apply liga_of_subset _ (hcon x hx y hy)
    intro p hp
    obtain ⟨e, he, rfl⟩ := List.mem_map.1 hp
    exact List.mem_map.2 ⟨e, hperm.mem_iff.2 he, rfl⟩
  have hlen1 : S1.length + 1 = k := by rw [hperm.length_eq]; exact hlen
  have hpt := guloso_pontual h hL S1 hsort (fun e he => hmem e (hmem1 e he))
    (fun e he => hbf e (hmem1 e he)) hlen1 hcon1
  have hall : ∀ x < k, ∀ y < k, Liga (st.resultado.map (par cid)) x y := by
    intro x hx y hy
    exact liga_map_mono (fun e he => h.proc e (hmem e he) (hbf e he)) (hcon x hx y hy)
  have h1 := ncomp_le_one_of_conexo k _ hall
  have h2 := ncomp_pos k (st.resultado.map (par cid)) hk
  have h3 := h.conta
  rw [← custo_perm hperm]
  unfold custo
  apply soma_pontual
  · simp only [List.length_map]
    omega
  · intro i a b ha hb
    rw [List.getElem?_map] at ha hb
    cases hti : st.resultado[i]? with
    | none => rw [hti] at ha; cases ha
    | some t =>
      cases hsi : S1[i]? with
      | none => rw [hsi] at hb; cases hb
      | some s =>
        rw [hti] at ha
        rw [hsi] at hb
        simp only [Option.map_some', Option.some.injEq] at ha hb
        rw [← ha, ← hb]
        exact hpt i t s hti hsi

/-! ## The clusters are the classes of equal weight -/

theorem busca_cluster_some (p : Int) : ∀ (ps : List Int) (cs : List Nat) (c : Nat),
    busca_cluster ps cs p = some c → ∃ j, j < cs.length ∧ ps[j]? = some p ∧ em cs j = c := by
  intro ps
  induction ps with
  | nil => intro cs c h; simp [busca_cluster] at h
  | cons pj ps ih =>
    intro cs c h
    cases cs with
    | nil => simp [busca_cluster] at h
    | cons cj cs =>
      simp only [busca_cluster] at h
      split_ifs at h with hp
      · simp only [Option.some.injEq] at h
        exact ⟨0, by simp, by simp [hp], by simp [em, h]⟩
      · obtain ⟨j, hj, h1, h2⟩ := ih cs c h
        exact ⟨j + 1, by simpa using hj, by simpa using h1, by simpa [em] using h2⟩

theorem em_append_left {xs : List Nat} (ys : List Nat) {i : Nat} (h : i < xs.length) :
    em (xs ++ ys) i = em xs i := by
  unfold em
  exact List.getD_append _ _ _ _ h

theorem em_append_length (xs : List Nat) (c : Nat) : em (xs ++ [c]) xs.length = c := by
  unfold em
  rw [List.getD_append_right _ _ _ _ (le_refl _)]
  simp

theorem particao_passo (pesos pre suf : List Int) (p : Int) (st : List Nat × Nat)
    (hp : pesos = pre ++ p :: suf) (h : Particao pre st) :
    Particao (pre ++ [p]) (passo_particao pesos st p) := by
  have hlen := h.len
  have hpre : ∀ i, i < pre.length → (pre ++ [p])[i]? = pre[i]? :=
    fun i hi => List.getElem?_append_left hi
  have hlast : (pre ++ [p])[pre.length]? = some p := by
    rw [List.getElem?_append_right (le_refl _)]; simp
  have htake : pesos.take st.1.length = pre := by rw [hp, hlen]; simp
  unfold passo_particao
  cases hb : busca_cluster pesos st.1 p with
  | some c =>
    obtain ⟨j0, hj0, hj1, hj2⟩ := busca_cluster_some p pesos st.1 c hb
    rw [hlen] at hj0
    have hj3 : pre[j0]? = some p := by
      rw [hp, List.getElem?_append_left hj0] at hj1; exact hj1
    have hnew : em (st.1 ++ [c]) pre.length = em st.1 j0 := by
      rw [← hlen, em_append_length, hj2]
    refine ⟨by simp [hlen], ?_, ?_, ?_⟩
    · intro i hi
      simp only [List.length_append, List.length_singleton] at hi
      show em (st.1 ++ [c]) i < st.2
      by_cases hi1 : i < pre.length
      · rw [em_append_left _ (by omega)]; exact h.lt i hi1
      · have : i = pre.length := by omega
        rw [this, hnew]; exact h.lt j0 hj0
    · intro i j hi hj
      simp only [List.length_append, List.length_singleton] at hi hj
      show em (st.1 ++ [c]) i = em (st.1 ++ [c]) j ↔ _
      by_cases hi1 : i < pre.length <;> by_cases hj1' : j < pre.length
      · rw [em_append_left _ (by omega), em_append_left _ (by omega), hpre i hi1, hpre j hj1']
        exact h.iff i j hi1 hj1'
      · have hjl : j = pre.length := by omega
        rw [hjl, hnew, em_append_left _ (by omega), hpre i hi1, hlast, ← hj3]
        exact h.iff i j0 hi1 hj0
      · have hil : i = pre.length := by omega
        rw [hil, hnew, em_append_left _ (by omega), hpre j hj1', hlast, ← hj3]
        exact h.iff j0 j hj0 hj1'
      · have hil : i = pre.length := by omega
        have hjl : j = pre.length := by omega
        rw [hil, hjl]
        simp
    · intro c1 hc1
      obtain ⟨i, hi, hic⟩ := h.sobre c1 hc1
      refine ⟨i, by simp; omega, ?_⟩
      show em (st.1 ++ [c]) i = c1
      rw [em_append_left _ (by omega)]; exact hic
  | none =>
    have hnot : p ∉ pre := by
      have := (busca_cluster_none p pesos st.1).1 hb
      rwa [htake] at this
    have hnew : em (st.1 ++ [st.2]) pre.length = st.2 := by
      rw [← hlen, em_append_length]
    have hdif : ∀ i, i < pre.length → pre[i]? ≠ some p := by
      intro i hi heq
      exact hnot (List.getElem?_mem heq)
    refine ⟨by simp [hlen], ?_, ?_, ?_⟩
    · intro i hi
      simp only [List.length_append, List.length_singleton] at hi
      show em (st.1 ++ [st.2]) i < st.2 + 1
      by_cases hi1 : i < pre.length
      · rw [em_append_left _ (by omega)]; exact Nat.lt_succ_of_lt (h.lt i hi1)
      · have : i = pre.length := by omega
        rw [this, hnew]; exact Nat.lt_succ_self _
    · intro i j hi hj
      simp only [List.length_append, List.length_singleton] at hi hj
      show em (st.1 ++ [st.2]) i = em (st.1 ++ [st.2]) j ↔ _
      by_cases hi1 : i < pre.length <;> by_cases hj1' : j < pre.length
      · rw [em_append_left _ (by omega), em_append_left _ (by omega), hpre i hi1, hpre j hj1']
        exact h.iff i j hi1 hj1'
      · have hjl : j = pre.length := by omega
        rw [hjl, hnew, em_append_left _ (by omega), hpre i hi1, hlast]
        constructor
        · intro heq
          have := h.lt i hi1
          omega
        · intro heq
          exact absurd heq (hdif i hi1)
      · have hil : i = pre.length := by omega
        rw [hil, hnew, em_append_left _ (by omega), hpre j hj1', hlast]
        constructor
        · intro heq
          have := h.lt j hj1'
          omega
        · intro heq
          exact absurd heq.symm (hdif j hj1')
      · have hil : i = pre.length := by omega
        have hjl : j = pre.length := by omega
        rw [hil, hjl]
        simp
    · intro c1 hc1
      show ∃ i < (pre ++ [p]).length, em (st.1 ++ [st.2]) i = c1
      by_cases hc2 : c1 < st.2
      · obtain ⟨i, hi, hic⟩ := h.sobre c1 hc2
        refine ⟨i, by simp; omega, ?_⟩
        rw [em_append_left _ (by omega)]; exact hic
      · have : c1 = st.2 := by
          have : c1 < st.2 + 1 := hc1
          omega
        exact ⟨pre.length, by simp, by rw [hnew, this]⟩

theorem particao_laco (pesos : List Int) : ∀ (suf pre : List Int) (st : List Nat × Nat),
    pesos = pre ++ suf → Particao pre st →
    Particao pesos (suf.foldl (passo_particao pesos) st) := by
  intro suf
  induction suf with
  | nil =>
    intro pre st hp h
    simp only [List.append_nil] at hp
    subst hp
    exact h
  | cons p suf ih =>
    intro pre st hp h
    simp only [List.foldl_cons]
    exact ih (pre ++ [p]) _ (by rw [hp]; simp) (particao_passo pesos pre suf p st hp h)

theorem particao_particiona (pesos : List Int) : Particao pesos (particiona pesos) :=
  particao_laco pesos pesos [] ([], 0) rfl
    ⟨rfl, by simp, by simp, by simp⟩

/-! ## Connectivity between vertices and between cluster ids -/

theorem ligaV_liga (pesos : List Int) (S : List ArestaInfo)
    (hS : ∀ e ∈ S, BemFormada pesos.length e) {u v : Nat} (h : LigaV pesos S u v) :
    ((1 ≤ u ∧ u ≤ pesos.length) ↔ (1 ≤ v ∧ v ≤ pesos.length)) ∧
    ((1 ≤ u ∧ u ≤ pesos.length) →
      Liga (S.map (par (particiona pesos).1))
        (em (particiona pesos).1 (u - 1)) (em (particiona pesos).1 (v - 1))) := by
  have hpart := particao_particiona pesos
  induction h with
  | rel a b hab =>
    rcases hab with ⟨h1, h2, h3, h4, h5⟩ | ⟨e, he, h1, h2⟩
    · refine ⟨⟨fun _ => ⟨h3, h4⟩, fun _ => ⟨h1, h2⟩⟩, fun _ => ?_⟩
      have := (hpart.iff (a - 1) (b - 1) (by omega) (by omega)).2 h5
      rw [this]
      exact liga_refl _ _
    · obtain ⟨hb1, hb2, hb3, hb4⟩ := hS e he
      subst h1; subst h2
      refine ⟨⟨fun _ => ⟨hb3, hb4⟩, fun _ => ⟨hb1, hb2⟩⟩, fun _ => ?_⟩
      exact liga_of_mem (List.mem_map.2 ⟨e, he, rfl⟩)
  | refl a => exact ⟨Iff.rfl, fun _ => liga_refl _ _⟩
  | symm a b _ ih => exact ⟨ih.1.symm, fun hb => liga_symm (ih.2 (ih.1.2 hb))⟩
  | trans a b c _ _ ih1 ih2 =>
    exact ⟨ih1.1.trans ih2.1, fun ha => liga_trans (ih1.2 ha) (ih2.2 (ih1.1.1 ha))⟩

theorem liga_ligaV (pesos : List Int) (S : List ArestaInfo)
    (hS : ∀ e ∈ S, BemFormada pesos.length e) {x y : Nat}
    (h : Liga (S.map (par (particiona pesos).1)) x y) :
    ((∃ u, 1 ≤ u ∧ u ≤ pesos.length ∧ em (particiona pesos).1 (u - 1) = x) ↔
      (∃ v, 1 ≤ v ∧ v ≤ pesos.length ∧ em (particiona pesos).1 (v - 1) = y)) ∧
    ∀ u v, 1 ≤ u → u ≤ pesos.length → 1 ≤ v → v ≤ pesos.length →
      em (particiona pesos).1 (u - 1) = x → em (particiona pesos).1 (v - 1) = y →
      LigaV pesos S u v := by
  have hpart := particao_particiona pesos
  have hmesmo : ∀ u v, 1 ≤ u → u ≤ pesos.length → 1 ≤ v → v ≤ pesos.length →
      em (particiona pesos).1 (u - 1) = em (particiona pesos).1 (v - 1) → LigaV pesos S u v := by
    intro u v h1 h2 h3 h4 h5
    apply Relation.EqvGen.rel
    left
    exact ⟨h1, h2, h3, h4, (hpart.iff (u - 1) (v - 1) (by omega) (by omega)).1 h5⟩
  induction h with
  | rel a b hab =>
    obtain ⟨e, he, hpar⟩ := List.mem_map.1 hab
    obtain ⟨hb1, hb2, hb3, hb4⟩ := hS e he
    have ha : em (particiona pesos).1 (e.origem - 1) = a := congrArg Prod.fst hpar
    have hb : em (particiona pesos).1 (e.destino - 1) = b := congrArg Prod.snd hpar
    refine ⟨⟨fun _ => ⟨e.destino, hb3, hb4, hb⟩, fun _ => ⟨e.origem, hb1, hb2, ha⟩⟩, ?_⟩
    intro u v h1 h2 h3 h4 h5 h6
    have s1 : LigaV pesos S u e.origem := hmesmo u e.origem h1 h2 hb1 hb2 (by rw [h5, ha])
    have s2 : LigaV pesos S e.origem e.destino :=
      Relation.EqvGen.rel _ _ (Or.inr ⟨e, he, rfl, rfl⟩)
    have s3 : LigaV pesos S e.destino v := hmesmo e.destino v hb3 hb4 h3 h4 (by rw [h6, hb])
    exact Relation.EqvGen.trans _ _ _ (Relation.EqvGen.trans _ _ _ s1 s2) s3
  | refl a =>
    exact ⟨Iff.rfl, fun u v h1 h2 h3 h4 h5 h6 => hmesmo u v h1 h2 h3 h4 (by rw [h5, h6])⟩
  | symm a b _ ih =>
    exact ⟨ih.1.symm, fun u v h1 h2 h3 h4 h5 h6 =>
      Relation.EqvGen.symm _ _ (ih.2 v u h3 h4 h1 h2 h6 h5)⟩
  | trans a b c _ _ ih1 ih2 =>
    refine ⟨ih1.1.trans ih2.1, ?_⟩
    intro u v h1 h2 h3 h4 h5 h6
    obtain ⟨w, hw1, hw2, hw3⟩ := ih1.1.1 ⟨u, h1, h2, h5⟩
    exact Relation.EqvGen.trans _ _ _ (ih1.2 u w h1 h2 hw1 hw2 h5 hw3)
      (ih2.2 w v hw1 hw2 h3 h4 hw3 h6)

theorem conexo_iff (pesos : List Int) (S : List ArestaInfo)
    (hS : ∀ e ∈ S, BemFormada pesos.length e) :
    Conexo pesos S ↔
      ∀ x < (particiona pesos).2, ∀ y < (particiona pesos).2,
        Liga (S.map (par (particiona pesos).1)) x y := by
  have hpart := particao_particiona pesos
  constructor
  · intro h x hx y hy
    obtain ⟨i, hi, hix⟩ := hpart.sobre x hx
    obtain ⟨j, hj, hjy⟩ := hpart.sobre y hy
    have h1 := (ligaV_liga pesos S hS (h (i + 1) (j + 1) (by omega) (by omega) (by omega)
      (by omega))).2 ⟨by omega, by omega⟩
    simpa [hix, hjy] using h1
  · intro h u v h1 h2 h3 h4
    have hx := hpart.lt (u - 1) (by omega)
    have hy := hpart.lt (v - 1) (by omega)
    exact (liga_ligaV pesos S hS (h _ hx _ hy)).2 u v h1 h2 h3 h4 rfl rfl

/-! ## Greedy solver -/

theorem particiona_pos (pesos : List Int) (h : pesos ≠ []) : 0 < (particiona pesos).2 := by
  rw [(particiona_spec pesos).2.2]
  cases pesos with
  | nil => exact absurd rfl h
  | cons p ps =>
    apply Finset.card_pos.2
    exact ⟨p, by simp⟩

theorem conecta_nil (arestas : List ArestaInfo) :
    conecta_clusters [] arestas = .error .bad_array_new_length := by
  simp [conecta_clusters, particiona]

theorem conecta_spec (pesos : List Int) (arestas : List ArestaInfo) (hp : pesos ≠ []) :
    (∃ st1, conecta_clusters pesos arestas = .ok ⟨some st1.resultado, st1.num_arestas⟩ ∧
      Inv (particiona pesos).1 (particiona pesos).2 arestas st1) ∨
    (conecta_clusters pesos arestas = .error .fora_dos_limites ∧
      ∃ a ∈ arestas, ¬ BemFormada pesos.length a) := by
  have hk := particiona_pos pesos hp
  obtain ⟨hlen, hcid, -⟩ := particiona_spec pesos
  have hcap : ¬ ((3 : Int) * (((particiona pesos).2 : Int) - 1) < 0) := by omega
  unfold conecta_clusters
  simp only [hcap, if_false]
  rcases varredura_spec _ _ hk hcid arestas [] _ (inv_inicial _ _) with
    ⟨st1, hst1, hinv⟩ | ⟨herr, a, ha, hbf⟩
  · left
    refine ⟨st1, ?_, by simpa using hinv⟩
    rw [hst1]
  · right
    rw [hlen] at hbf
    refine ⟨?_, a, ha, hbf⟩
    rw [herr]

theorem coleta_vizinhos_origem (d : Bool) (u : Nat) : ∀ (l : List (Nat × Int)) (a : ArestaInfo),
    a ∈ coleta_vizinhos d u l → a.origem = u := by
  intro l
  induction l with
  | nil => intro a h; simp [coleta_vizinhos] at h
  | cons p l ih =>
    intro a h
    obtain ⟨v, w⟩ := p
    simp only [coleta_vizinhos] at h
    split_ifs at h
    · exact ih a h
    · rcases List.mem_cons.1 h with h1 | h1
      · rw [h1]
      · exact ih a h1

theorem coleta_de_origem (g : Grafo) : ∀ (l : List Nat) (a : ArestaInfo),
    a ∈ coleta_de g l → a.origem ∈ l := by
  intro l
  induction l with
  | nil => intro a h; simp [coleta_de] at h
  | cons u l ih =>
    intro a h
    simp only [coleta_de] at h
    rcases List.mem_append.1 h with h1 | h1
    · rw [coleta_vizinhos_origem _ _ _ a h1]
      exact List.mem_cons_self _ _
    · exact List.mem_cons_of_mem _ (ih a h1)

theorem coleta_origem (g : Grafo) (a : ArestaInfo) (h : a ∈ coleta_arestas g) :
    1 ≤ a.origem ∧ a.origem ≤ g.ordem := by
  have := coleta_de_origem g _ a h
  rw [List.mem_range'_1] at this
  omega

theorem std_sort_perm (l : List ArestaInfo) : (std_sort l).Perm l :=
  List.perm_insertionSort _ l

theorem std_sort_ordenada (l : List ArestaInfo) :
    (std_sort l).Pairwise (fun a b => a.peso ≤ b.peso) := by
  haveI : IsTotal ArestaInfo (fun a b => compararArestas b a = false) :=
    ⟨fun a b => by simp only [compararArestas, decide_eq_false_iff_not, not_lt]; exact le_total _ _⟩
  haveI : IsTrans ArestaInfo (fun a b => compararArestas b a = false) :=
    ⟨fun a b c => by
      simp only [compararArestas, decide_eq_false_iff_not, not_lt]; exact le_trans⟩
  have h := List.sorted_insertionSort (fun a b : ArestaInfo => compararArestas b a = false) l
  apply List.Pairwise.imp _ h
  intro a b hab
  simpa [compararArestas] using hab

theorem liga_of_rotulos {es : List (Nat × Nat)} {k : Nat}
    (h : ∀ x < k, ∀ y < k, rotulos es x = rotulos es y) :
    ∀ x < k, ∀ y < k, Liga es x y :=
  fun x hx y hy => (rotulos_eq_iff es x y).1 (h x hx y hy)

/-- The greedy solver on a graph whose vertices all exist and whose edges end at
vertices: it returns when there is a vertex, and what it returns satisfies the
sweep invariant for the sorted edge array. -/
theorem gulosa_spec (g : Grafo) (pesos : List Int) (hp : pesos_vertices g = some pesos)
    (hn : 0 < g.ordem)
    (hd : ∀ a ∈ coleta_arestas g, 1 ≤ a.destino ∧ a.destino ≤ g.ordem) :
    ∃ st1, agmg_gulosa g = .ok ⟨some st1.resultado, st1.num_arestas⟩ ∧
      Inv (particiona pesos).1 (particiona pesos).2 (std_sort (coleta_arestas g)) st1 := by
  have hlen := pesos_vertices_length g pesos hp
  have hne : pesos ≠ [] := by
    intro h
    rw [h] at hlen
    simp at hlen
    omega
  unfold agmg_gulosa
  rw [hp]
  rcases conecta_spec pesos (std_sort (coleta_arestas g)) hne with h | ⟨-, a, ha, hbf⟩
  · exact h
  · exfalso
    apply hbf
    have ha1 : a ∈ coleta_arestas g := (std_sort_perm _).mem_iff.1 ha
    have h1 := coleta_origem g a ha1
    have h2 := hd a ha1
    rw [hlen]
    exact ⟨h1.1, h1.2, h2.1, h2.2⟩

/-- A selection whose labelling, computed by merging along its edges, is constant
on the cluster ids connects all clusters. -/
theorem conexo_of_rotulos (pesos : List Int) (S : List ArestaInfo)
    (hS : ∀ e ∈ S, BemFormada pesos.length e)
    (h : ∀ x < (particiona pesos).2, ∀ y < (particiona pesos).2,
      rotulos (S.map (par (particiona pesos).1)) x = rotulos (S.map (par (particiona pesos).1)) y) :
    Conexo pesos S :=
  (conexo_iff pesos S hS).2 (liga_of_rotulos h)

/-- The greedy solver on a graph with at least one vertex, whose vertices all
exist, whose edges end at vertices and whose cluster-level graph is connected:
it returns exactly `k - 1` of the collected edges, and they connect all clusters. -/
theorem gulosa_conecta (g : Grafo) (pesos : List Int) (hp : pesos_vertices g = some pesos)
    (hn : 0 < g.ordem)
    (hd : ∀ a ∈ coleta_arestas g, 1 ≤ a.destino ∧ a.destino ≤ g.ordem)
    (hcon : Conexo pesos (coleta_arestas g)) :
    ∃ T, agmg_gulosa g = .ok ⟨some T, T.length⟩ ∧ (∀ e ∈ T, e ∈ coleta_arestas g) ∧
      T.length + 1 = pesos.toFinset.card ∧ Conexo pesos T := by
  obtain ⟨st1, hst1, hinv⟩ := gulosa_spec g pesos hp hn hd
  have hlen := pesos_vertices_length g pesos hp
  have hk := (particiona_spec pesos).2.2
  have hcl := (particiona_spec pesos).1
  have hkpos : 0 < (particiona pesos).2 := by
    apply particiona_pos
    intro h
    rw [h] at hlen
    simp at hlen
    omega
  have hbf0 : ∀ e ∈ coleta_arestas g, BemFormada pesos.length e := by
    intro e he
    have h1 := coleta_origem g e he
    have h2 := hd e he
    rw [hlen]
    exact ⟨h1.1, h1.2, h2.1, h2.2⟩
  have hbf : ∀ e ∈ std_sort (coleta_arestas g), BemFormada (particiona pesos).1.length e := by
    intro e he
    rw [hcl]
    exact hbf0 e ((std_sort_perm _).mem_iff.1 he)
  have hcon0 := (conexo_iff pesos _ hbf0).1 hcon
  have hcon1 : ∀ x < (particiona pesos).2, ∀ y < (particiona pesos).2,
      Liga ((std_sort (coleta_arestas g)).map (par (particiona pesos).1)) x y := by
    intro x hx y hy
    apply liga_of_subset _ (hcon0 x hx y hy)
    intro p hp1
    obtain ⟨e, he, rfl⟩ := List.mem_map.1 hp1
    exact List.mem_map.2 ⟨e, (std_sort_perm _).mem_iff.2 he, rfl⟩
  obtain ⟨h1, h2⟩ := guloso_completo hinv hkpos hbf hcon1
  have hsub : ∀ e ∈ st1.resultado, e ∈ coleta_arestas g :=
    fun e he => (std_sort_perm _).mem_iff.1 (hinv.sub.subset he)
  refine ⟨st1.resultado, by rw [hst1, hinv.num], hsub, by rw [← hk]; exact h1, ?_⟩
  exact (conexo_iff pesos _ (fun e he => hbf0 e (hsub e he))).2 h2

/-- C1: on a graph whose vertices `1..n` all exist, whose edges end at vertices and
whose cluster-level graph is connected, `agmg_gulosa` returns (when there is a
vertex) `k - 1` collected edges that connect all `k` clusters (`k` the number of
distinct vertex weights), and the total weight of the edges it returns is at most
the total weight of every selection of `k - 1` collected edges that connects all
clusters: the result is a minimum spanning tree of the cluster graph. -/
theorem gulosa_minima (g : Grafo) (pesos : List Int) (hp : pesos_vertices g = some pesos)
    (hd : ∀ a ∈ coleta_arestas g, 1 ≤ a.destino ∧ a.destino ≤ g.ordem)
    (hcon : Conexo pesos (coleta_arestas g)) :
    (0 < g.ordem → ∃ T, agmg_gulosa g = .ok ⟨some T, T.length⟩ ∧
      (∀ e ∈ T, e ∈ coleta_arestas g) ∧ T.length + 1 = pesos.toFinset.card ∧
      Conexo pesos T) ∧
    ∀ (T : List ArestaInfo) (n : Nat), agmg_gulosa g = .ok ⟨some T, n⟩ →
      ∀ S : List ArestaInfo, (∀ e ∈ S, e ∈ coleta_arestas g) →
        S.length + 1 = pesos.toFinset.card → Conexo pesos S →
        custo T ≤ custo S := by
  have hlen := pesos_vertices_length g pesos hp
  have hk := (particiona_spec pesos).2.2
  have hcl := (particiona_spec pesos).1
  constructor
  · intro hn
    exact gulosa_conecta g pesos hp hn hd hcon
  · intro T n hT S hmem hSlen hconS
    by_cases hn : 0 < g.ordem
    · obtain ⟨st1, hst1, hinv⟩ := gulosa_spec g pesos hp hn hd
      rw [hT] at hst1
      simp only [Except.ok.injEq, Solucao.mk.injEq, Option.some.injEq] at hst1
      rw [hst1.1]
      have hbfS : ∀ e ∈ S, BemFormada pesos.length e := by
        intro e he
        have h1 := coleta_origem g e (hmem e he)
        have h2 := hd e (hmem e he)
        rw [hlen]
        exact ⟨h1.1, h1.2, h2.1, h2.2⟩
      have hconS1 := (conexo_iff pesos S hbfS).1 hconS
      rw [← hk] at hSlen
      have hkpos : 0 < (particiona pesos).2 := by omega
      apply guloso_minimo hinv hkpos (std_sort_ordenada _) S
      · intro e he
        exact (std_sort_perm _).mem_iff.2 (hmem e he)
      · intro e he
        rw [hcl]
        exact hbfS e he
      · exact hSlen
      · exact hconS1
    · exfalso
      have h0 : g.ordem = 0 := by omega
      have : pesos = [] := by
        rw [h0] at hlen
        exact List.length_eq_zero.1 hlen
      subst this
      simp [agmg_gulosa, hp, conecta_nil] at hT

theorem gulosa_minima_witness :
    agmg_gulosa triangulo = .ok ⟨some [⟨1, 3, 1⟩, ⟨2, 3, 2⟩], 2⟩ ∧
    custo [⟨1, 3, 1⟩, ⟨2, 3, 2⟩] = 3 ∧
    Conexo [10, 20, 30] (coleta_arestas triangulo) ∧
    Conexo [10, 20, 30] [⟨1, 2, 3⟩, ⟨2, 3, 2⟩] ∧
    custo [⟨1, 3, 1⟩, ⟨2, 3, 2⟩] ≤ custo [⟨1, 2, 3⟩, ⟨2, 3, 2⟩] :=
  ⟨by decide, by decide,
    conexo_of_rotulos _ _ (by decide) (by decide),
    conexo_of_rotulos _ _ (by decide) (by decide),
    (gulosa_minima triangulo [10, 20, 30] (by decide) (by decide)
        (conexo_of_rotulos _ _ (by decide) (by decide))).2
      [⟨1, 3, 1⟩, ⟨2, 3, 2⟩] 2 (by decide) [⟨1, 2, 3⟩, ⟨2, 3, 2⟩] (by decide) (by decide)
      (conexo_of_rotulos _ _ (by decide) (by decide))⟩

/-! ## Edge count of the solvers -/

/-- C3: `agmg_gulosa` never writes past the end of `resultado`, and on every graph
whose vertices all exist the number of edges it returns is at most `k - 1`, `k`
the number of distinct vertex weights; the triples written are as many as the
edge count. -/
theorem gulosa_no_maximo (g : Grafo) :
    agmg_gulosa g ≠ .error .estouro_resultado ∧
    ∀ (pesos : List Int) (sol : Solucao), pesos_vertices g = some pesos →
      agmg_gulosa g = .ok sol →
      (sol.num_arestas : Int) ≤ (pesos.toFinset.card : Int) - 1 ∧
      ∃ T, sol.resultado = some T ∧ T.length = sol.num_arestas := by
  constructor
  · unfold agmg_gulosa
    cases hp : pesos_vertices g with
    | none => simp
    | some pesos =>
      simp only
      by_cases hne : pesos = []
      · rw [hne, conecta_nil]; simp
      · rcases conecta_spec pesos (std_sort (coleta_arestas g)) hne with
          ⟨st1, h1, -⟩ | ⟨h1, -⟩ <;> rw [h1] <;> simp
  · intro pesos sol hp hsol
    unfold agmg_gulosa at hsol
    rw [hp] at hsol
    simp only at hsol
    by_cases hne : pesos = []
    · rw [hne, conecta_nil] at hsol; cases hsol
    · rcases conecta_spec pesos (std_sort (coleta_arestas g)) hne with
        ⟨st1, h1, hinv⟩ | ⟨h1, -⟩
      · rw [h1] at hsol
        simp only [Except.ok.injEq] at hsol
        subst hsol
        have hk := (particiona_spec pesos).2.2
        have h2 := hinv.conta
        have h3 := ncomp_pos _ (st1.resultado.map (par (particiona pesos).1))
          (particiona_pos pesos hne)
        have h4 := hinv.num
        refine ⟨?_, st1.resultado, rfl, h4.symm⟩
        show (st1.num_arestas : Int) ≤ (pesos.toFinset.card : Int) - 1
        rw [← hk]
        omega
      · rw [h1] at hsol; cases hsol

theorem gulosa_no_maximo_witness :
    agmg_gulosa triangulo ≠ .error .estouro_resultado ∧
    ((2 : Nat) : Int) ≤ (([10, 20, 30] : List Int).toFinset.card : Int) - 1 ∧
    ∃ T, some [(⟨1, 3, 1⟩ : ArestaInfo), ⟨2, 3, 2⟩] = some T ∧ T.length = 2 :=
  ⟨(gulosa_no_maximo triangulo).1,
   (gulosa_no_maximo triangulo).2 [10, 20, 30] ⟨some [⟨1, 3, 1⟩, ⟨2, 3, 2⟩], 2⟩
     (by decide) (by decide)⟩

/-- C2 (as the code behaves): one vertex and no edge is one cluster, trivially
connected; `agmg_gulosa` returns `k - 1 = 0` edges, but `agmg_randomizada`
computes `rand() % 0` for every `alpha` and every draw. -/
theorem um_vertice_randomizada_falha :
    pesos_vertices grafo_um_vertice = some [5] ∧ coleta_arestas grafo_um_vertice = [] ∧
    agmg_gulosa grafo_um_vertice = .ok ⟨some [], 0⟩ ∧
    ∀ alpha s, agmg_randomizada grafo_um_vertice alpha s = .error .divisao_por_zero := by
  have h1 : pesos_vertices grafo_um_vertice = some [5] := by decide
  have h2 : coleta_arestas grafo_um_vertice = [] := by decide
  refine ⟨h1, h2, by decide, ?_⟩
  intro alpha s
  simp [agmg_randomizada, h1, h2, embaralha_vazio]

/-! ## Randomized solver -/

theorem troca_spec (l : List ArestaInfo) (i r : Nat) (hi : i < l.length) (hr : r < l.length) :
    ∃ l1, troca l i r = .ok l1 ∧ l1.Perm l ∧ l1.length = l.length := by
  have h1 : l[i]? = some l[i] := List.getElem?_eq_getElem hi
  have h2 : l[r]? = some l[r] := List.getElem?_eq_getElem hr
  refine ⟨(l.set i l[r]).set r l[i], by simp [troca, ler, h1, h2], ?_, by simp⟩
  rw [List.perm_iff_count]
  intro b
  have hr1 : r < (l.set i l[r]).length := by simpa using hr
  rw [List.count_set _ _ _ _ hr1, List.count_set _ _ _ _ hi]
  have hget : (l.set i l[r])[r] = l[r] := by
    by_cases hir : i = r
    · subst hir; simp
    · simp [List.getElem_set_ne hir]
  rw [hget]
  have hA : (if l[i] == b then 1 else 0) ≤ List.count b l := by
    split_ifs with hb
    · have : l[i] = b := by simpa using hb
      rw [← this]
      exact List.count_pos_iff.2 (List.getElem_mem _)
    · exact Nat.zero_le _
  omega

theorem k_embaralha_le (n : Nat) (alpha : ℚ) (hn : 1 ≤ n) (h0 : 0 ≤ alpha) (h1 : alpha ≤ 1) :
    (k_embaralha n alpha).toNat ≤ n := by
  obtain ⟨hpos, hle⟩ := produto_double_lim n alpha h0 h1
  have hfl : ⌊produto_double n alpha⌋ ≤ (n : Int) := by
    have := Int.floor_le_floor hle
    simpa using this
  unfold k_embaralha trunca
  rw [if_pos hpos]
  have : max 1 ⌊produto_double n alpha⌋ ≤ (n : Int) := max_le (by omega) hfl
  omega

theorem embaralha_laco_spec (contador : Nat) : ∀ (passos i : Nat) (l : List ArestaInfo)
    (s : Gerador), l.length = contador → i + passos ≤ contador →
    ∃ l1 s1, embaralha_laco contador passos i l s = .ok (l1, s1) ∧ l1.Perm l := by
  intro passos
  induction passos with
  | zero =>
    intro i l s _ _
    exact ⟨l, s, rfl, List.Perm.refl _⟩
  | succ passos ih =>
    intro i l s hl hi
    have hne : ¬ ((contador : Int) - (i : Int) = 0) := by omega
    have hr : i + (rand s).1 % (contador - i) < l.length := by
      have := Nat.mod_lt (rand s).1 (show 0 < contador - i by omega)
      omega
    obtain ⟨l1, ht, hp, hlen⟩ := troca_spec l i _ (by omega) hr
    obtain ⟨l2, s2, h2, hp2⟩ := ih (i + 1) l1 (rand s).2 (by omega) (by omega)
    refine ⟨l2, s2, ?_, hp2.trans hp⟩
    simp only [embaralha_laco, hne, if_false, ht, h2]

theorem embaralha_spec (alpha : ℚ) (l : List ArestaInfo) (s : Gerador) (hne : l ≠ [])
    (h0 : 0 ≤ alpha) (h1 : alpha ≤ 1) :
    ∃ l1 s1, embaralha alpha l s = .ok (l1, s1) ∧ l1.Perm l := by
  have hlen : 1 ≤ l.length := List.length_pos.2 hne
  rw [embaralha_lim alpha l s h0 h1]
  exact embaralha_laco_spec l.length _ 0 l s rfl
    (by have := k_embaralha_le l.length alpha hlen h0 h1; omega)

/-- The randomized solver on a graph whose vertices all exist, whose edges end at
vertices, whose cluster-level graph is connected and which has at least one
collected edge, with `alpha` in `[0, 1]`: for every stream of draws it returns
exactly `k - 1` of the collected edges, and they connect all clusters. -/
theorem randomizada_conecta (g : Grafo) (pesos : List Int) (hp : pesos_vertices g = some pesos)
    (hd : ∀ a ∈ coleta_arestas g, 1 ≤ a.destino ∧ a.destino ≤ g.ordem)
    (hcon : Conexo pesos (coleta_arestas g)) (hne : coleta_arestas g ≠ [])
    (alpha : ℚ) (h0 : 0 ≤ alpha) (h1 : alpha ≤ 1) (s : Gerador) :
    ∃ T s1, agmg_randomizada g alpha s = .ok (⟨some T, T.length⟩, s1) ∧
      (∀ e ∈ T, e ∈ coleta_arestas g) ∧ T.length + 1 = pesos.toFinset.card ∧
      Conexo pesos T := by
  have hlen := pesos_vertices_length g pesos hp
  have hk := (particiona_spec pesos).2.2
  have hcl := (particiona_spec pesos).1
  have hbf0 : ∀ e ∈ coleta_arestas g, BemFormada pesos.length e := by
    intro e he
    have h1 := coleta_origem g e he
    have h2 := hd e he
    rw [hlen]
    exact ⟨h1.1, h1.2, h2.1, h2.2⟩
  have hpne : pesos ≠ [] := by
    intro h
    obtain ⟨e, he⟩ := List.exists_mem_of_ne_nil _ hne
    have := hbf0 e he
    rw [h] at this
    obtain ⟨h1, h2, -⟩ := this
    simp at h2
    omega
  have hkpos := particiona_pos pesos hpne
  obtain ⟨emb, s1, hemb, hperm⟩ := embaralha_spec alpha _ s hne h0 h1
  have hbf : ∀ e ∈ emb, BemFormada pesos.length e :=
    fun e he => hbf0 e (hperm.mem_iff.1 he)
  rcases conecta_spec pesos emb hpne with ⟨st1, hst1, hinv⟩ | ⟨-, a, ha, hbad⟩
  · have hcon0 := (conexo_iff pesos _ hbf0).1 hcon
    have hcon1 : ∀ x < (particiona pesos).2, ∀ y < (particiona pesos).2,
        Liga (emb.map (par (particiona pesos).1)) x y := by
      intro x hx y hy
      apply liga_of_subset _ (hcon0 x hx y hy)
      intro p hp1
      obtain ⟨e, he, rfl⟩ := List.mem_map.1 hp1
      exact List.mem_map.2 ⟨e, hperm.mem_iff.2 he, rfl⟩
    obtain ⟨h1, h2⟩ := guloso_completo hinv hkpos (by rw [hcl]; exact hbf) hcon1
    have hsub : ∀ e ∈ st1.resultado, e ∈ coleta_arestas g :=
      fun e he => hperm.mem_iff.1 (hinv.sub.subset he)
    refine ⟨st1.resultado, s1, ?_, hsub, by rw [← hk]; exact h1, ?_⟩
    · unfold agmg_randomizada
      simp only [hp, hemb, hst1, hinv.num]
    · exact (conexo_iff pesos _ (fun e he => hbf0 e (hsub e he))).2 h2
  · exact absurd (hbf a ha) hbad

/-! ## A graph without edges -/

theorem rodada_sem_arestas (g : Grafo) (pesos : List Int) (hp : pesos_vertices g = some pesos)
    (hk : 1 ≤ (particiona pesos).2) (hv : ∀ u, g.get_vizinhos u = []) (st : Reativa) :
    rodada g st =
      if ((rand st.semente).1 : ℚ) / (RAND_MAX : ℚ) < st.prob_guloso then
        atualiza st ⟨true, ⟨some [], 0⟩, 0, (rand st.semente).2⟩
      else .error .divisao_por_zero := by
  have hc : coleta_arestas g = [] := coleta_de_sem_vizinhos g hv _
  have hg : agmg_gulosa g = .ok ⟨some [], 0⟩ := by
    simp [agmg_gulosa, hp, hc, std_sort, conecta_sem_arestas pesos hk]
  have hr : ∀ alpha s, agmg_randomizada g alpha s = .error .divisao_por_zero := by
    intro alpha s
    simp [agmg_randomizada, hp, hc, embaralha_vazio]
  unfold rodada executa_rodada
  by_cases hu : ((rand st.semente).1 : ℚ) / (RAND_MAX : ℚ) < st.prob_guloso
  · simp [hu, hg, triplas, soma_custo]
  · simp [hu, hr]

/-- C6 (as the code behaves): on a graph whose vertices all exist, with at least
two clusters and no edge at all, `agmg_gulosa` returns the empty solution, but
`agmg_randomizada` computes `rand() % 0` for every `alpha` and every draw, and so
does `agmg_reativa` (by its third round at the latest) for every stream of draws. -/
theorem sem_arestas_falha (g : Grafo) (pesos : List Int) (hp : pesos_vertices g = some pesos)
    (hk : 2 ≤ pesos.toFinset.card) (hv : ∀ u, g.get_vizinhos u = []) :
    agmg_gulosa g = .ok ⟨some [], 0⟩ ∧
    (∀ alpha s, agmg_randomizada g alpha s = .error .divisao_por_zero) ∧
    (∀ s, agmg_reativa g s = .error .divisao_por_zero) := by
  have hk1 : 1 ≤ (particiona pesos).2 := by
    rw [(particiona_spec pesos).2.2]; omega
  have hc : coleta_arestas g = [] := coleta_de_sem_vizinhos g hv _
  refine ⟨?_, ?_, ?_⟩
  · simp [agmg_gulosa, hp, hc, std_sort, conecta_sem_arestas pesos hk1]
  · intro alpha s
    simp [agmg_randomizada, hp, hc, embaralha_vazio]
  · intro s
    have hrod := rodada_sem_arestas g pesos hp hk1 hv
    have hneg : ∀ x : Nat, ¬ ((x : ℚ) / (RAND_MAX : ℚ) < 0) := by
      intro x
      have : (0 : ℚ) ≤ (x : ℚ) / (RAND_MAX : ℚ) := by positivity
      exact not_lt.2 this
    unfold agmg_reativa MAX_ITER
    simp only [laco_reativa]
    rw [hrod]
    split_ifs with h1
    · simp only [atualiza, Reativa.inicial, triplas]
      simp only [show (0 : Int) < INT_MAX from by decide, if_true]
      simp only [hrod]
      split_ifs with h2
      · simp only [atualiza, lt_irrefl, if_false, if_true]
        simp only [hrod, nova_prob]
        norm_num [hneg]
      · rfl
    · rfl

theorem sem_arestas_falha_witness :
    agmg_gulosa grafo_sem_arestas = .ok ⟨some [], 0⟩ ∧
    (∀ alpha s, agmg_randomizada grafo_sem_arestas alpha s = .error .divisao_por_zero) ∧
    (∀ s, agmg_reativa grafo_sem_arestas s = .error .divisao_por_zero) :=
  sem_arestas_falha grafo_sem_arestas [1, 2] rfl (by decide) (fun _ => rfl)

/-! ## The reactive controller returns -/

theorem soma_abs_nonneg (l : List ArestaInfo) : 0 ≤ soma_abs l := by
  unfold soma_abs
  apply List.sum_nonneg
  intro x hx
  obtain ⟨a, -, rfl⟩ := List.mem_map.1 hx
  exact abs_nonneg _

theorem soma_abs_subperm {T L : List ArestaInfo} (h : T.Subperm L) : soma_abs T ≤ soma_abs L := by
  obtain ⟨l, hp, hs⟩ := h
  unfold soma_abs
  rw [← List.Perm.sum_eq (hp.map _)]
  apply List.Sublist.sum_le_sum (hs.map _)
  intro x hx
  obtain ⟨a, -, rfl⟩ := List.mem_map.1 hx
  exact abs_nonneg _

theorem soma_custo_ok : ∀ (ts : List ArestaInfo) (c : Int), |c| + soma_abs ts ≤ INT_MAX →
    soma_custo ts c = .ok (c + custo ts) := by
  intro ts
  induction ts with
  | nil => intro c _; simp [soma_custo, custo]
  | cons a ts ih =>
    intro c h
    have hnn := soma_abs_nonneg ts
    have hcons : soma_abs (a :: ts) = |a.peso| + soma_abs ts := by simp [soma_abs]
    rw [hcons] at h
    have h1 : |c + a.peso| ≤ |c| + |a.peso| := abs_add c a.peso
    have h2 : |c + a.peso| + soma_abs ts ≤ INT_MAX := by omega
    have h3 := abs_le.1 (show |c + a.peso| ≤ INT_MAX by omega)
    have hno : ¬ (c + a.peso < INT_MIN ∨ INT_MAX < c + a.peso) := by
      simp only [INT_MIN, INT_MAX] at h3 ⊢
      omega
    simp only [soma_custo, hno, if_false]
    rw [ih _ h2]
    simp [custo, add_assoc]

theorem triplas_ok (T : List ArestaInfo) : triplas ⟨some T, T.length⟩ = .ok T := by
  unfold triplas
  by_cases h : T.length = 0
  · simp [h, List.length_eq_zero.1 h]
  · simp [h]

theorem gulosa_retorna (g : Grafo) (pesos : List Int) (hp : pesos_vertices g = some pesos)
    (hn : 0 < g.ordem)
    (hd : ∀ a ∈ coleta_arestas g, 1 ≤ a.destino ∧ a.destino ≤ g.ordem) :
    ∃ T, agmg_gulosa g = .ok ⟨some T, T.length⟩ ∧ T.Subperm (coleta_arestas g) := by
  obtain ⟨st1, hst1, hinv⟩ := gulosa_spec g pesos hp hn hd
  refine ⟨st1.resultado, by rw [hst1, hinv.num], ?_⟩
  exact hinv.sub.subperm.trans (std_sort_perm _).subperm

theorem randomizada_retorna (g : Grafo) (pesos : List Int) (hp : pesos_vertices g = some pesos)
    (hd : ∀ a ∈ coleta_arestas g, 1 ≤ a.destino ∧ a.destino ≤ g.ordem)
    (hne : coleta_arestas g ≠ [])
    (alpha : ℚ) (h0 : 0 ≤ alpha) (h1 : alpha ≤ 1) (s : Gerador) :
    ∃ T s1, agmg_randomizada g alpha s = .ok (⟨some T, T.length⟩, s1) ∧
      T.Subperm (coleta_arestas g) := by
  have hlen := pesos_vertices_length g pesos hp
  have hbf0 : ∀ e ∈ coleta_arestas g, BemFormada pesos.length e := by
    intro e he
    have h1 := coleta_origem g e he
    have h2 := hd e he
    rw [hlen]
    exact ⟨h1.1, h1.2, h2.1, h2.2⟩
  have hpne : pesos ≠ [] := by
    intro h
    obtain ⟨e, he⟩ := List.exists_mem_of_ne_nil _ hne
    have := hbf0 e he
    rw [h] at this
    obtain ⟨h1, h2, -⟩ := this
    simp at h2
    omega
  obtain ⟨emb, s1, hemb, hperm⟩ := embaralha_spec alpha _ s hne h0 h1
  rcases conecta_spec pesos emb hpne with ⟨st1, hst1, hinv⟩ | ⟨-, a, ha, hbad⟩
  · refine ⟨st1.resultado, s1, ?_, hinv.sub.subperm.trans hperm.subperm⟩
    unfold agmg_randomizada
    simp only [hp, hemb, hst1, hinv.num]
  · exact absurd (hbf0 a (hperm.mem_iff.1 ha)) hbad

/-- The reactive controller returns on every graph whose vertices all exist,
whose edges end at vertices, which has at least one collected edge and whose
weights are small enough for the cost sums to stay within `int`. -/
theorem reativa_retorna (g : Grafo) (pesos : List Int) (hp : pesos_vertices g = some pesos)
    (hd : ∀ a ∈ coleta_arestas g, 1 ≤ a.destino ∧ a.destino ≤ g.ordem)
    (hne : coleta_arestas g ≠ []) (hsoma : soma_abs (coleta_arestas g) ≤ INT_MAX)
    (s : Gerador) : ∃ fin, agmg_reativa g s = .ok fin := by
  have hn : 0 < g.ordem := by
    obtain ⟨e, he⟩ := List.exists_mem_of_ne_nil _ hne
    have := coleta_origem g e he
    omega
  have hexec : ∀ st : Reativa, ∃ r T, executa_rodada g st = .ok r ∧
      r.solucao = ⟨some T, T.length⟩ := by
    intro st
    unfold executa_rodada
    by_cases hu : ((rand st.semente).1 : ℚ) / (RAND_MAX : ℚ) < st.prob_guloso
    · obtain ⟨T, hT, hsub⟩ := gulosa_retorna g pesos hp hn hd
      have hs := soma_custo_ok T 0 (by
        have := soma_abs_subperm hsub
        simp only [abs_zero, zero_add]
        omega)
      simp only [hu, decide_True, if_true, hT, triplas_ok, hs]
      exact ⟨_, T, rfl, rfl⟩
    · obtain ⟨T, s1, hT, hsub⟩ := randomizada_retorna g pesos hp hd hne alpha_padrao
        (by unfold alpha_padrao; norm_num) (by unfold alpha_padrao; norm_num) (rand st.semente).2
      have hs := soma_custo_ok T 0 (by
        have := soma_abs_subperm hsub
        simp only [abs_zero, zero_add]
        omega)
      simp only [hu, decide_False, Bool.false_eq_true, if_false, hT, triplas_ok, hs]
      exact ⟨_, T, rfl, rfl⟩
  have hrod : ∀ st : Reativa, ∃ st1, rodada g st = .ok st1 := by
    intro st
    obtain ⟨r, T, hr, hsol⟩ := hexec st
    unfold rodada
    simp only [hr]
    unfold atualiza
    rw [hsol, triplas_ok]
    split_ifs <;> exact ⟨_, rfl⟩
  have hlaco : ∀ (n : Nat) (st : Reativa), ∃ fin, laco_reativa g n st = .ok fin := by
    intro n
    induction n with
    | zero => intro st; exact ⟨st, rfl⟩
    | succ n ih =>
      intro st
      obtain ⟨st1, h1⟩ := hrod st
      obtain ⟨fin, h2⟩ := ih st1
      exact ⟨fin, by simp only [laco_reativa, h1, h2]⟩
  exact hlaco _ _

/-! ## Order of the cluster ids -/

theorem ordem_passo (pesos pre suf : List Int) (p : Int) (st : List Nat × Nat)
    (hp : pesos = pre ++ p :: suf) (hpa : Particao pre st) (h : Ordem pre st) :
    Ordem (pre ++ [p]) (passo_particao pesos st p) := by
  have hlen := hpa.len
  have hpre : ∀ i, i < pre.length → (pre ++ [p])[i]? = pre[i]? :=
    fun i hi => List.getElem?_append_left hi
  have hlast : (pre ++ [p])[pre.length]? = some p := by
    rw [List.getElem?_append_right (le_refl _)]; simp
  have htake : pesos.take st.1.length = pre := by rw [hp, hlen]; simp
  have hlt : ∀ (i : Nat) (q : Int), (pre ++ [p])[i]? = some q → i < pre.length + 1 := by
    intro i q hq
    by_contra hc
    rw [List.getElem?_eq_none (by simp; omega)] at hq
    cases hq
  -- the old vertices
  have hold : ∀ (cs : List Nat) (i f : Nat) (q : Int), i < pre.length →
      (pre ++ [p])[i]? = some q → (pre ++ [p])[f]? = some q →
      (∀ j < f, (pre ++ [p])[j]? ≠ some q) →
      em (st.1 ++ cs) i = ((pre ++ [p]).take f).toFinset.card := by
    intro cs i f q hi hiq hfq hfirst
    have hfi : f ≤ i := by
      by_contra hc
      exact hfirst i (by omega) hiq
    have hf : f < pre.length := by omega
    rw [em_append_left _ (by omega), List.take_append_of_le_length (by omega)]
    rw [hpre i hi] at hiq
    rw [hpre f hf] at hfq
    apply h.prim i f q hiq hfq
    intro j hj
    rw [← hpre j (by omega)]
    exact hfirst j hj
  unfold passo_particao
  cases hb : busca_cluster pesos st.1 p with
  | some c =>
    obtain ⟨j0, hj0, hj1, hj2⟩ := busca_cluster_some p pesos st.1 c hb
    rw [hlen] at hj0
    have hj3 : pre[j0]? = some p := by
      rw [hp, List.getElem?_append_left hj0] at hj1; exact hj1
    have hin : p ∈ pre := List.getElem?_mem hj3
    constructor
    · show st.2 = (pre ++ [p]).toFinset.card
      have h1 : (pre ++ [p]).toFinset = pre.toFinset := by
        ext x
        simp only [List.toFinset_append, Finset.mem_union, List.mem_toFinset,
          List.mem_singleton]
        constructor
        · rintro (hx | hx)
          · exact hx
          · rw [hx]; exact hin
        · intro hx; exact Or.inl hx
      rw [h1, h.conta]
    · intro i f q hiq hfq hfirst
      show em (st.1 ++ [c]) i = _
      have hi := hlt i q hiq
      by_cases hi1 : i < pre.length
      · exact hold [c] i f q hi1 hiq hfq hfirst
      · have hil : i = pre.length := by omega
        subst hil
        rw [hlast] at hiq
        simp only [Option.some.injEq] at hiq
        subst hiq
        have hfj : f ≤ j0 := by
          by_contra hc
          exact hfirst j0 (by omega) (by rw [hpre j0 hj0]; exact hj3)
        have hf : f < pre.length := by omega
        rw [← hlen, em_append_length, List.take_append_of_le_length (by omega), ← hj2]
        rw [hpre f hf] at hfq
        apply h.prim j0 f p hj3 hfq
        intro j hj
        rw [← hpre j (by omega)]
        exact hfirst j hj
  | none =>
    have hnot : p ∉ pre := by
      have := (busca_cluster_none p pesos st.1).1 hb
      rwa [htake] at this
    constructor
    · show st.2 + 1 = (pre ++ [p]).toFinset.card
      have h1 : (pre ++ [p]).toFinset = insert p pre.toFinset := by
        ext x; simp [or_comm]
      rw [h1, Finset.card_insert_of_not_mem (by simpa using hnot), h.conta]
    · intro i f q hiq hfq hfirst
      show em (st.1 ++ [st.2]) i = _
      have hi := hlt i q hiq
      by_cases hi1 : i < pre.length
      · exact hold [st.2] i f q hi1 hiq hfq hfirst
      · have hil : i = pre.length := by omega
        subst hil
        rw [hlast] at hiq
        simp only [Option.some.injEq] at hiq
        subst hiq
        have hf := hlt f p hfq
        have hfl : f = pre.length := by
          by_contra hc
          have hf1 : f < pre.length := by omega
          rw [hpre f hf1] at hfq
          exact hnot (List.getElem?_mem hfq)
        rw [hfl, ← hlen, em_append_length, hlen, List.take_append_of_le_length (le_refl _),
          List.take_length, h.conta]

theorem ordem_laco (pesos : List Int) : ∀ (suf pre : List Int) (st : List Nat × Nat),
    pesos = pre ++ suf → Particao pre st → Ordem pre st →
    Ordem pesos (suf.foldl (passo_particao pesos) st) := by
  intro suf
  induction suf with
  | nil =>
    intro pre st hp _ h
    simp only [List.append_nil] at hp
    subst hp
    exact h
  | cons p suf ih =>
    intro pre st hp hpa h
    simp only [List.foldl_cons]
    exact ih (pre ++ [p]) _ (by rw [hp]; simp) (particao_passo pesos pre suf p st hp hpa)
      (ordem_passo pesos pre suf p st hp hpa h)

theorem ordem_particiona (pesos : List Int) : Ordem pesos (particiona pesos) :=
  ordem_laco pesos pesos [] ([], 0) rfl ⟨rfl, by simp, by simp, by simp⟩
    ⟨by simp, by intro i f p h; simp at h⟩

theorem ler_vertice_int {xs : List Int} {u : Nat} (h1 : 1 ≤ u) (h2 : u ≤ xs.length) :
    ∃ p, ler_vertice xs u = .ok p ∧ xs[u - 1]? = some p := by
  have hlt : u - 1 < xs.length := by omega
  refine ⟨xs[u - 1], ?_, List.getElem?_eq_getElem hlt⟩
  unfold ler_vertice ler
  rw [if_neg (by omega), List.getElem?_eq_getElem hlt]

/-- C11: for the weights of the vertices `1..n`, the partition pass gives two
vertices the same `cluster_id` if and only if their weights are equal. -/
theorem cluster_igual_sse_peso_igual (pesos : List Int) (u v : Nat)
    (hu1 : 1 ≤ u) (hu2 : u ≤ pesos.length) (hv1 : 1 ≤ v) (hv2 : v ≤ pesos.length) :
    ∃ cu cv pu pv, ler_vertice (particiona pesos).1 u = .ok cu ∧
      ler_vertice (particiona pesos).1 v = .ok cv ∧
      ler_vertice pesos u = .ok pu ∧ ler_vertice pesos v = .ok pv ∧
      (cu = cv ↔ pu = pv) := by
  have hpart := particao_particiona pesos
  obtain ⟨pu, hpu, hpu1⟩ := ler_vertice_int hu1 hu2
  obtain ⟨pv, hpv, hpv1⟩ := ler_vertice_int hv1 hv2
  refine ⟨_, _, pu, pv, ler_vertice_ok hu1 (by rw [hpart.len]; exact hu2),
    ler_vertice_ok hv1 (by rw [hpart.len]; exact hv2), hpu, hpv, ?_⟩
  rw [hpart.iff (u - 1) (v - 1) (by omega) (by omega), hpu1, hpv1]
  simp

theorem cluster_igual_sse_peso_igual_witness :
    ∃ cu cv pu pv, ler_vertice (particiona [10, 20, 10]).1 1 = .ok cu ∧
      ler_vertice (particiona [10, 20, 10]).1 3 = .ok cv ∧
      ler_vertice ([10, 20, 10] : List Int) 1 = .ok pu ∧
      ler_vertice ([10, 20, 10] : List Int) 3 = .ok pv ∧
      (cu = cv ↔ pu = pv) :=
  cluster_igual_sse_peso_igual [10, 20, 10] 1 3 (by decide) (by decide) (by decide) (by decide)

/-- C14: the partition pass uses exactly the ids `0..k-1`, where `k`, the final
`num_clusters`, is the number of distinct weights; and the id of a vertex whose
weight first occurs at position `f` (counted from 0) is the number of distinct
weights that occur before `f`, so ids are handed out in order of first
occurrence. -/
theorem ids_densos_primeira_ocorrencia (pesos : List Int) :
    (particiona pesos).2 = pesos.toFinset.card ∧
    (particiona pesos).1.length = pesos.length ∧
    (∀ c, c ∈ (particiona pesos).1 ↔ c < (particiona pesos).2) ∧
    ∀ (i f : Nat) (p : Int), pesos[i]? = some p → pesos[f]? = some p →
      (∀ j < f, pesos[j]? ≠ some p) →
      (particiona pesos).1[i]? = some (pesos.take f).toFinset.card := by
  have hpart := particao_particiona pesos
  have hord := ordem_particiona pesos
  refine ⟨hord.conta, hpart.len, ?_, ?_⟩
  · intro c
    constructor
    · intro hc
      obtain ⟨i, hi⟩ := List.getElem?_of_mem hc
      have hil : i < (particiona pesos).1.length := by
        by_contra hcon
        rw [List.getElem?_eq_none (not_lt.1 hcon)] at hi
        cases hi
      have := hpart.lt i (by rw [← hpart.len]; exact hil)
      have he : em (particiona pesos).1 i = c := by
        simp [em, hi]
      rw [← he]; exact this
    · intro hc
      obtain ⟨i, hi, hic⟩ := hpart.sobre c hc
      rw [← hic]
      unfold em
      rw [List.getD_eq_getElem _ _ (by rw [hpart.len]; exact hi)]
      exact List.getElem_mem _
  · intro i f p hi hf hfirst
    have hil : i < pesos.length := by
      by_contra hcon
      rw [List.getElem?_eq_none (not_lt.1 hcon)] at hi
      cases hi
    have := hord.prim i f p hi hf hfirst
    rw [← this]
    unfold em
    rw [List.getD_eq_getElem _ _ (by rw [hpart.len]; exact hil)]
    exact List.getElem?_eq_getElem _

theorem ids_densos_primeira_ocorrencia_witness :
    (particiona [10, 20, 10, 30]).2 = 3 ∧
    (particiona [10, 20, 10, 30]).1 = [0, 1, 0, 2] ∧
    (particiona [10, 20, 10, 30]).1[3]? = some (([10, 20, 10, 30] : List Int).take 3).toFinset.card :=
  ⟨by decide, by decide,
    (ids_densos_primeira_ocorrencia [10, 20, 10, 30]).2.2.2 3 3 30 (by decide) (by decide)
      (by decide)⟩

/-! ## The edge scan -/

theorem coleta_vizinhos_eq (d : Bool) (u : Nat) : ∀ l : List (Nat × Int),
    coleta_vizinhos d u l =
      (l.filter (fun p => d || decide (u ≤ p.1))).map (fun p => ⟨u, p.1, p.2⟩) := by
  intro l
  induction l with
  | nil => rfl
  | cons p l ih =>
    obtain ⟨v, w⟩ := p
    simp only [coleta_vizinhos, List.filter_cons]
    cases d <;> by_cases h : u ≤ v <;> simp [h, ih]

theorem coleta_de_eq (g : Grafo) : ∀ l : List Nat,
    coleta_de g l = l.flatMap (fun u =>
      ((g.get_vizinhos u).filter (fun p => g.direcionado || decide (u ≤ p.1))).map
        (fun p => ⟨u, p.1, p.2⟩)) := by
  intro l
  induction l with
  | nil => rfl
  | cons u l ih => simp [coleta_de, coleta_vizinhos_eq, ih]

theorem count_coleta_vizinhos (d : Bool) (u v : Nat) (w : Int) : ∀ l : List (Nat × Int),
    (coleta_vizinhos d u l).count ⟨u, v, w⟩ =
      if d || decide (u ≤ v) then l.count (v, w) else 0 := by
  intro l
  induction l with
  | nil => simp [coleta_vizinhos]
  | cons p l ih =>
    obtain ⟨v1, w1⟩ := p
    simp only [coleta_vizinhos]
    by_cases hk : (!d && decide (u > v1)) = true
    · rw [if_pos hk, ih]
      split_ifs with hc
      · have hne : ¬ ((v1, w1) = (v, w)) := by
          intro heq
          simp only [Prod.mk.injEq] at heq
          obtain ⟨rfl, rfl⟩ := heq
          cases d <;> simp at hk hc
          omega
        rw [List.count_cons_of_ne (Ne.symm hne)]
      · rfl
    · rw [if_neg hk, List.count_cons, ih, List.count_cons]
      have hkeep : (d || decide (u ≤ v1)) = true := by
        cases d <;> simp at hk ⊢
        omega
      by_cases heq : (v1, w1) = (v, w)
      · simp only [Prod.mk.injEq] at heq
        obtain ⟨rfl, rfl⟩ := heq
        simp [hkeep]
      · have hne : ¬ ((⟨u, v1, w1⟩ : ArestaInfo) = ⟨u, v, w⟩) := by
          intro h
          simp only [ArestaInfo.mk.injEq, true_and] at h
          exact heq (by simp [h.1, h.2])
        simp only [beq_iff_eq, hne, heq, if_false, add_zero]

theorem count_coleta_de (g : Grafo) (u v : Nat) (w : Int) : ∀ l : List Nat, l.Nodup →
    (coleta_de g l).count ⟨u, v, w⟩ =
      if u ∈ l then (coleta_vizinhos g.direcionado u (g.get_vizinhos u)).count ⟨u, v, w⟩
      else 0 := by
  intro l
  induction l with
  | nil => intro _; simp [coleta_de]
  | cons x l ih =>
    intro hnd
    have hnd1 := List.nodup_cons.1 hnd
    simp only [coleta_de, List.count_append, ih hnd1.2]
    by_cases hx : u = x
    · subst hx
      simp [hnd1.1]
    · have h0 : (coleta_vizinhos g.direcionado x (g.get_vizinhos x)).count ⟨u, v, w⟩ = 0 := by
        apply List.count_eq_zero.2
        intro hmem
        exact hx (coleta_vizinhos_origem _ _ _ _ hmem)
      rw [h0]
      simp [hx]

theorem count_coleta_arestas (g : Grafo) (u v : Nat) (w : Int) (h1 : 1 ≤ u) (h2 : u ≤ g.ordem) :
    (coleta_arestas g).count ⟨u, v, w⟩ =
      if g.direcionado || decide (u ≤ v) then (g.get_vizinhos u).count (v, w) else 0 := by
  unfold coleta_arestas
  rw [count_coleta_de g u v w _ (List.nodup_range' 1 g.ordem), if_pos, count_coleta_vizinhos]
  rw [List.mem_range'_1]
  omega

/-- C13: the edge scan collects exactly the arcs the specification names, in scan
order: every stored arc of the vertices `1..n` for a directed graph, and the
stored arcs with `u ≤ v` for an undirected one. Each is collected once per stored
copy (no deduplication), and when an undirected graph stores every edge in both
directions, an unordered pair `{u, v}`, `u ≠ v`, of weight `w` is collected, in
one direction only, as many times as it is stored at `u`. -/
theorem coleta_exata (g : Grafo) :
    coleta_arestas g = arcos_elegiveis g ∧
    (g.direcionado = true → ∀ (u v : Nat) (w : Int), 1 ≤ u → u ≤ g.ordem →
      (coleta_arestas g).count ⟨u, v, w⟩ = (g.get_vizinhos u).count (v, w)) ∧
    (g.direcionado = false → ∀ (u v : Nat) (w : Int), 1 ≤ u → u ≤ g.ordem →
      (u ≤ v → (coleta_arestas g).count ⟨u, v, w⟩ = (g.get_vizinhos u).count (v, w)) ∧
      (v < u → (coleta_arestas g).count ⟨u, v, w⟩ = 0)) ∧
    (g.direcionado = false →
      (∀ (u v : Nat) (w : Int), 1 ≤ u → u ≤ g.ordem → 1 ≤ v → v ≤ g.ordem →
        (g.get_vizinhos u).count (v, w) = (g.get_vizinhos v).count (u, w)) →
      ∀ (u v : Nat) (w : Int), 1 ≤ u → u ≤ g.ordem → 1 ≤ v → v ≤ g.ordem → u ≠ v →
        (coleta_arestas g).count ⟨u, v, w⟩ + (coleta_arestas g).count ⟨v, u, w⟩ =
          (g.get_vizinhos u).count (v, w)) := by
  refine ⟨coleta_de_eq g _, ?_, ?_, ?_⟩
  · intro hd u v w h1 h2
    rw [count_coleta_arestas g u v w h1 h2, hd]
    simp
  · intro hd u v w h1 h2
    rw [count_coleta_arestas g u v w h1 h2, hd]
    constructor
    · intro huv; simp [huv]
    · intro huv; simp [Nat.not_le.2 huv]
  · intro hd hsim u v w h1 h2 h3 h4 hne
    rw [count_coleta_arestas g u v w h1 h2, count_coleta_arestas g v u w h3 h4, hd]
    by_cases huv : u ≤ v
    · have hvu : ¬ v ≤ u := by omega
      simp [huv, hvu]
    · have hvu : v ≤ u := by omega
      simp [huv, hvu, hsim u v w h1 h2 h3 h4]

theorem coleta_exata_witness :
    coleta_arestas triangulo = [⟨1, 2, 3⟩, ⟨1, 3, 1⟩, ⟨2, 3, 2⟩] ∧
    (coleta_arestas triangulo).count ⟨2, 3, 2⟩ + (coleta_arestas triangulo).count ⟨3, 2, 2⟩ =
      (triangulo.get_vizinhos 2).count (3, 2) ∧
    (coleta_arestas grafo_paralelo).count ⟨1, 2, 5⟩ = 1 ∧
    coleta_arestas grafo_paralelo = [⟨1, 2, 5⟩, ⟨1, 2, 1⟩] :=
  ⟨by decide,
   (coleta_exata triangulo).2.2.2 (by decide)
     (by
       intro u v w _ _ _ _
       have hu : u = 1 ∨ u = 2 ∨ u = 3 ∨ (u ≠ 1 ∧ u ≠ 2 ∧ u ≠ 3) := by omega
       have hv : v = 1 ∨ v = 2 ∨ v = 3 ∨ (v ≠ 1 ∧ v ≠ 2 ∧ v ≠ 3) := by omega
       rcases hu with rfl | rfl | rfl | ⟨a1, a2, a3⟩ <;>
         rcases hv with rfl | rfl | rfl | ⟨b1, b2, b3⟩ <;>
         simp [triangulo, List.count_cons, Prod.mk.injEq, -Prod.mk_one_one, *])
     2 3 2 (by decide) (by decide) (by decide) (by decide) (by decide),
   by decide, by decide⟩

/-! ## The swaps of the shuffle -/

theorem trocas_laco_fst (contador : Nat) : ∀ (passos i : Nat) (s : Gerador),
    (trocas_laco contador passos i s).map Prod.fst = List.range' i passos := by
  intro passos
  induction passos with
  | zero => intro i s; rfl
  | succ passos ih =>
    intro i s
    simp [trocas_laco, ih, List.range'_succ]

theorem trocas_laco_lim (contador : Nat) : ∀ (passos i : Nat) (s : Gerador),
    i + passos ≤ contador →
    ∀ p ∈ trocas_laco contador passos i s, p.1 ≤ p.2 ∧ p.2 < contador ∧ 0 < contador - p.1 := by
  intro passos
  induction passos with
  | zero => intro i s _ p hp; simp [trocas_laco] at hp
  | succ passos ih =>
    intro i s hi p hp
    simp only [trocas_laco, List.mem_cons] at hp
    rcases hp with rfl | hp
    · have := Nat.mod_lt (rand s).1 (show 0 < contador - i by omega)
      exact ⟨by simp, by simp only; omega, by simp only; omega⟩
    · exact ih (i + 1) (rand s).2 (by omega) p hp

theorem embaralha_laco_trocas (contador : Nat) : ∀ (passos i : Nat) (l l1 : List ArestaInfo)
    (s s1 : Gerador), embaralha_laco contador passos i l s = .ok (l1, s1) →
    aplica_trocas (trocas_laco contador passos i s) l = .ok l1 ∧
    s1 = fun j => s (j + passos) := by
  intro passos
  induction passos with
  | zero =>
    intro i l l1 s s1 h
    simp only [embaralha_laco, Except.ok.injEq, Prod.mk.injEq] at h
    obtain ⟨rfl, rfl⟩ := h
    exact ⟨rfl, rfl⟩
  | succ passos ih =>
    intro i l l1 s s1 h
    simp only [embaralha_laco] at h
    split_ifs at h with hz
    cases ht : troca l i (i + (rand s).1 % (contador - i)) with
    | error e => rw [ht] at h; cases h
    | ok l2 =>
      rw [ht] at h
      obtain ⟨h1, h2⟩ := ih (i + 1) l2 l1 (rand s).2 s1 h
      refine ⟨by simp only [trocas_laco, aplica_trocas, ht, h1], ?_⟩
      rw [h2]
      funext j
      simp only [rand]
      congr 1

theorem k_embaralha_limites (n : Nat) (alpha : ℚ) (hn : (n : Int) ≤ INT_MAX)
    (h0 : 0 ≤ alpha) (h1 : alpha ≤ 1) :
    k_embaralha n alpha = max 1 ⌊arredonda_double ((n : ℚ) * alpha)⌋ ∧
    ⌊(n : ℚ) * alpha⌋ ≤ ⌊arredonda_double ((n : ℚ) * alpha)⌋ ∧
    ⌊arredonda_double ((n : ℚ) * alpha)⌋ ≤ ⌊(n : ℚ) * alpha⌋ + 1 := by
  have hx0 : (0 : ℚ) ≤ (n : ℚ) * alpha := by positivity
  have hx1 : (n : ℚ) * alpha ≤ (n : ℚ) := by
    have : (0 : ℚ) ≤ (n : ℚ) := by positivity
    nlinarith
  have hlt : |(n : ℚ) * alpha| < (2 : ℚ) ^ (53 : Int) := by
    rw [abs_of_nonneg hx0]
    have h2 : (n : ℚ) ≤ 2147483647 := by
      simp only [INT_MAX] at hn
      exact_mod_cast hn
    have h3 : (2147483647 : ℚ) < (2 : ℚ) ^ (53 : Int) := by norm_num
    linarith
  have hp := (produto_double_lim n alpha h0 h1).1
  have hprod : produto_double n alpha = arredonda_double ((n : ℚ) * alpha) := by
    unfold produto_double
    rw [if_pos hn]
  refine ⟨?_, ?_, ?_⟩
  · unfold k_embaralha trunca
    rw [if_pos hp, hprod]
  · apply Int.le_floor.2
    exact arredonda_double_ge _ _ hlt (Int.floor_le _)
  · have h4 := arredonda_double_le _ ⌈(n : ℚ) * alpha⌉ hlt (Int.le_ceil _)
    have h5 : ⌊arredonda_double ((n : ℚ) * alpha)⌋ ≤ ⌈(n : ℚ) * alpha⌉ := by
      have := Int.floor_le_floor h4
      simpa using this
    have h6 := Int.ceil_le_floor_add_one ((n : ℚ) * alpha)
    omega

/-! ## Rounds and indices of the shuffle -/

/-- With `alpha = 1e10` and two edges the product `2e10` is not an `int`: the
conversion is undefined and the shuffle does not return. -/
theorem embaralha_conversao_indefinida (s : Gerador) :
    embaralha 10000000000 duas_arestas s = .error .conversao_indefinida := by
  have h : ((duas_arestas.length : Nat) : Int) ≤ INT_MAX ∧
      fora_do_int (produto_double duas_arestas.length 10000000000) := by decide!
  unfold embaralha
  rw [if_pos h]

/-- The products of the doubles nearest to `0.7` and `0.29` with 10 and 100 edges:
the first rounds up to `7.0`, the second stays below `29`. -/
theorem k_embaralha_exemplos :
    k_embaralha 10 alpha_sete_decimos = 7 ∧
    k_embaralha 100 (5224175567749775 / 18014398509481984) = 28 ∧
    k_embaralha 3 (3602879701896397 / 36028797018963968) = 1 := by
  decide!

/-- C15 (counterexample): with `alpha = 1/2` and three collected edges the code
computes `k = max(1, (int)(3 * 0.5)) = 1`, so one leading position is shuffled,
while `3 * 1/2` rounded to the nearest integer is `2`. -/
theorem k_embaralha_nao_arredonda :
    k_embaralha 3 (1 / 2) = 1 ∧
    (trocas_embaralha (1 / 2) 3 sorteios).map Prod.fst = [0] ∧
    max 1 (round ((3 : ℚ) * (1 / 2))) = 2 := by
  decide!

/-- C15 (amended): for an edge count that is an `int` and every `alpha` in
`[0, 1]`, the number of rounds of the shuffle is `max(1, t)`, where `t` is the
product `alpha * |E|` as `double` arithmetic gives it (the exact product rounded to
a double, off by at most half the spacing of the doubles there) and then rounded
down. So `t` is `⌊alpha * |E|⌋` or one more, and it is `⌊alpha * |E|⌋` whenever the
exact product is itself a double. The rounds swap at the leading positions
`0, 1, .., k - 1` in this order, and a shuffle that returns has made exactly these
swaps and used one draw for each. -/
theorem k_embaralha_trunca (n : Nat) (alpha : ℚ) (s : Gerador) (hn : (n : Int) ≤ INT_MAX)
    (h0 : 0 ≤ alpha) (h1 : alpha ≤ 1) :
    k_embaralha n alpha = max 1 ⌊arredonda_double ((n : ℚ) * alpha)⌋ ∧
    ((n : ℚ) * alpha ≠ 0 → |arredonda_double ((n : ℚ) * alpha) - (n : ℚ) * alpha|
      ≤ (2 : ℚ) ^ expoente_ulp ((n : ℚ) * alpha) / 2) ∧
    max 1 ⌊(n : ℚ) * alpha⌋ ≤ k_embaralha n alpha ∧
    k_embaralha n alpha ≤ max 1 (⌊(n : ℚ) * alpha⌋ + 1) ∧
    ((∃ M E : Int, |M| < 2 ^ 53 ∧ -1074 ≤ E ∧ (n : ℚ) * alpha = (M : ℚ) * (2 : ℚ) ^ E) →
      k_embaralha n alpha = max 1 ⌊(n : ℚ) * alpha⌋) ∧
    (trocas_embaralha alpha n s).length = (k_embaralha n alpha).toNat ∧
    (trocas_embaralha alpha n s).map Prod.fst = List.range (k_embaralha n alpha).toNat ∧
    ∀ (l l1 : List ArestaInfo) (s1 : Gerador), l.length = n →
      embaralha alpha l s = .ok (l1, s1) →
      aplica_trocas (trocas_embaralha alpha n s) l = .ok l1 ∧
      s1 = fun j => s (j + (k_embaralha n alpha).toNat) := by
  have h := trocas_laco_fst n (k_embaralha n alpha).toNat 0 s
  obtain ⟨hk, hlo, hhi⟩ := k_embaralha_limites n alpha hn h0 h1
  refine ⟨hk, fun hx => arredonda_double_perto _ hx, ?_, ?_, ?_, ?_, ?_, ?_⟩
  · rw [hk]
    exact max_le_max le_rfl hlo
  · rw [hk]
    exact max_le_max le_rfl hhi
  · rintro ⟨M, E, hM, hE, hx⟩
    rw [hk, hx, arredonda_double_exato M E hM hE]
  · have := congrArg List.length h
    simpa [trocas_embaralha] using this
  · rw [List.range_eq_range']
    exact h
  · intro l l1 s1 hl hemb
    subst hl
    exact embaralha_laco_trocas l.length _ 0 l l1 s s1 (embaralha_ok _ _ _ _ hemb)

theorem k_embaralha_trunca_witness :
    k_embaralha 10 alpha_sete_decimos = 7 ∧ ⌊((10 : Nat) : ℚ) * alpha_sete_decimos⌋ = 6 ∧
    k_embaralha 10 alpha_sete_decimos
      = max 1 ⌊arredonda_double (((10 : Nat) : ℚ) * alpha_sete_decimos)⌋ ∧
    (((10 : Nat) : ℚ) * alpha_sete_decimos ≠ 0 →
      |arredonda_double (((10 : Nat) : ℚ) * alpha_sete_decimos)
          - ((10 : Nat) : ℚ) * alpha_sete_decimos|
        ≤ (2 : ℚ) ^ expoente_ulp (((10 : Nat) : ℚ) * alpha_sete_decimos) / 2) ∧
    max 1 ⌊((10 : Nat) : ℚ) * alpha_sete_decimos⌋ ≤ k_embaralha 10 alpha_sete_decimos ∧
    k_embaralha 10 alpha_sete_decimos ≤ max 1 (⌊((10 : Nat) : ℚ) * alpha_sete_decimos⌋ + 1) ∧
    ((∃ M E : Int, |M| < 2 ^ 53 ∧ -1074 ≤ E ∧
        ((10 : Nat) : ℚ) * alpha_sete_decimos = (M : ℚ) * (2 : ℚ) ^ E) →
      k_embaralha 10 alpha_sete_decimos = max 1 ⌊((10 : Nat) : ℚ) * alpha_sete_decimos⌋) ∧
    (trocas_embaralha alpha_sete_decimos 10 sorteios).length
      = (k_embaralha 10 alpha_sete_decimos).toNat ∧
    (trocas_embaralha alpha_sete_decimos 10 sorteios).map Prod.fst
      = List.range (k_embaralha 10 alpha_sete_decimos).toNat ∧
    ∀ (l l1 : List ArestaInfo) (s1 : Gerador), l.length = 10 →
      embaralha alpha_sete_decimos l sorteios = .ok (l1, s1) →
      aplica_trocas (trocas_embaralha alpha_sete_decimos 10 sorteios) l = .ok l1 ∧
      s1 = fun j => sorteios (j + (k_embaralha 10 alpha_sete_decimos).toNat) :=
  ⟨by decide!, by decide!,
    k_embaralha_trunca 10 alpha_sete_decimos sorteios (by decide) (by decide!) (by decide!)⟩

/-- C19: for at least one collected edge and `alpha` in `[0, 1]`, for every stream
of draws, the shuffle returns; each of its swaps uses indices `i ≤ r < |E|`, with a
positive modulus `|E| - i`; the returned sequence is the collected one after these
swaps, and it is a permutation of the collected edges. -/
theorem embaralha_indices_e_permutacao (alpha : ℚ) (l : List ArestaInfo) (s : Gerador)
    (hne : l ≠ []) (h0 : 0 ≤ alpha) (h1 : alpha ≤ 1) :
    ∃ l1 s1, embaralha alpha l s = .ok (l1, s1) ∧
      (∀ p ∈ trocas_embaralha alpha l.length s,
        0 ≤ p.1 ∧ p.1 ≤ p.2 ∧ p.2 < l.length ∧ 0 < l.length - p.1) ∧
      aplica_trocas (trocas_embaralha alpha l.length s) l = .ok l1 ∧
      l1.Perm l ∧ ∀ a, l1.count a = l.count a := by
  obtain ⟨l1, s1, hok, hperm⟩ := embaralha_spec alpha l s hne h0 h1
  have hlen : 1 ≤ l.length := List.length_pos.2 hne
  have hk := k_embaralha_le l.length alpha hlen h0 h1
  refine ⟨l1, s1, hok, ?_, ?_, hperm, fun a => hperm.count_eq a⟩
  · intro p hp
    have := trocas_laco_lim l.length (k_embaralha l.length alpha).toNat 0 s (by omega) p hp
    exact ⟨Nat.zero_le _, this⟩
  · exact (embaralha_laco_trocas l.length _ 0 l l1 s s1 (embaralha_ok _ _ _ _ hok)).1

theorem embaralha_indices_e_permutacao_witness :
    ∃ l1 s1, embaralha (1 / 2) (coleta_arestas triangulo) sorteios = .ok (l1, s1) ∧
      (∀ p ∈ trocas_embaralha (1 / 2) (coleta_arestas triangulo).length sorteios,
        0 ≤ p.1 ∧ p.1 ≤ p.2 ∧ p.2 < (coleta_arestas triangulo).length ∧
        0 < (coleta_arestas triangulo).length - p.1) ∧
      aplica_trocas (trocas_embaralha (1 / 2) (coleta_arestas triangulo).length sorteios)
        (coleta_arestas triangulo) = .ok l1 ∧
      l1.Perm (coleta_arestas triangulo) ∧
      ∀ a, l1.count a = (coleta_arestas triangulo).count a :=
  embaralha_indices_e_permutacao (1 / 2) (coleta_arestas triangulo) sorteios
    (by decide) (by norm_num) (by norm_num)

/-! ## Probability of the greedy strategy -/

theorem atualiza_falhas (st : Reativa) (r : Rodada) (st1 : Reativa)
    (h : atualiza st r = .ok st1) :
    st1.prob_guloso = nova_prob st.prob_guloso st1.falhas_guloso st1.falhas_random ∧
    (r.custo < st.menor_custo →
      st1.falhas_guloso = st.falhas_guloso ∧ st1.falhas_random = st.falhas_random) ∧
    (¬ r.custo < st.menor_custo → r.usar_guloso = true →
      st1.falhas_guloso = st.falhas_guloso + 1 ∧ st1.falhas_random = st.falhas_random) ∧
    (¬ r.custo < st.menor_custo → r.usar_guloso = false →
      st1.falhas_guloso = st.falhas_guloso ∧ st1.falhas_random = st.falhas_random + 1) := by
  unfold atualiza at h
  by_cases hc : r.custo < st.menor_custo
  · rw [if_pos hc] at h
    cases ht : triplas r.solucao with
    | error e => rw [ht] at h; cases h
    | ok ts =>
      rw [ht] at h
      simp only [Except.ok.injEq] at h
      subst h
      exact ⟨rfl, fun _ => ⟨rfl, rfl⟩, fun h => absurd hc h, fun h => absurd hc h⟩
  · rw [if_neg hc] at h
    simp only [Except.ok.injEq] at h
    subst h
    refine ⟨rfl, fun h => absurd h hc, fun _ hu => ?_, fun _ hu => ?_⟩
    · simp [hu]
    · simp [hu]

theorem probOk_atualiza (st : Reativa) (r : Rodada) (st1 : Reativa)
    (h : atualiza st r = .ok st1) (hp : ProbOk st) : ProbOk st1 := by
  obtain ⟨h1, h2, h3, h4⟩ := atualiza_falhas st r st1 h
  unfold ProbOk at hp ⊢
  rw [h1]
  unfold nova_prob
  by_cases hz : st1.falhas_guloso + st1.falhas_random = 0
  · rw [if_neg (by omega), if_pos hz, hp]
    by_cases hc : r.custo < st.menor_custo
    · obtain ⟨e1, e2⟩ := h2 hc
      rw [if_pos (by omega)]
    · cases hu : r.usar_guloso with
      | true => have := h3 hc hu; omega
      | false => have := h4 hc hu; omega
  · rw [if_pos (by omega), if_neg hz]
    push_cast
    rfl

theorem probOk_laco (g : Grafo) (n : Nat) : ∀ (st fin : Reativa),
    laco_reativa g n st = .ok fin → ProbOk st → ProbOk fin := by
  induction n with
  | zero =>
    intro st fin h hp
    simp only [laco_reativa, Except.ok.injEq] at h
    subst h
    exact hp
  | succ n ih =>
    intro st fin h hp
    simp only [laco_reativa] at h
    cases hr : rodada g st with
    | error e => rw [hr] at h; cases h
    | ok st1 =>
      rw [hr] at h
      refine ih st1 fin h ?_
      unfold rodada at hr
      cases he : executa_rodada g st with
      | error e => rw [he] at hr; cases hr
      | ok r =>
        rw [he] at hr
        exact probOk_atualiza st r st1 hr hp

theorem probOk_limites (st : Reativa) (hp : ProbOk st) :
    0 ≤ st.prob_guloso ∧ st.prob_guloso ≤ 1 := by
  unfold ProbOk at hp
  rw [hp]
  split_ifs with hz
  · constructor <;> norm_num
  · have hpos : (0 : ℚ) < (st.falhas_guloso : ℚ) + (st.falhas_random : ℚ) := by
      have : 0 < st.falhas_guloso + st.falhas_random := by omega
      exact_mod_cast this
    have h0 : (0 : ℚ) ≤ (st.falhas_guloso : ℚ) := by positivity
    have h1 : (st.falhas_guloso : ℚ) / ((st.falhas_guloso : ℚ) + (st.falhas_random : ℚ)) ≤ 1 := by
      rw [div_le_one hpos]
      have : (0 : ℚ) ≤ (st.falhas_random : ℚ) := by positivity
      linarith
    have h2 : 0 ≤ (st.falhas_guloso : ℚ) / ((st.falhas_guloso : ℚ) + (st.falhas_random : ℚ)) :=
      div_nonneg h0 hpos.le
    constructor <;> linarith

/-- C17: after any number of rounds of `agmg_reativa`, `prob_guloso` is `1/2` while
both failure counters are zero and `1 - fg / (fg + fr)` otherwise, so it lies in
`[0, 1]`; and the next round leaves both counters as they are when its cost is
strictly lower than the best cost so far, and otherwise adds one to the counter of
the strategy it used and leaves the other. -/
theorem prob_guloso_apos_rodadas (g : Grafo) (s : Gerador) (n : Nat) (st : Reativa)
    (h : laco_reativa g n (Reativa.inicial s) = .ok st) :
    (st.falhas_guloso + st.falhas_random = 0 → st.prob_guloso = 1 / 2) ∧
    (st.falhas_guloso + st.falhas_random ≠ 0 → st.prob_guloso =
      1 - (st.falhas_guloso : ℚ) / ((st.falhas_guloso : ℚ) + (st.falhas_random : ℚ))) ∧
    0 ≤ st.prob_guloso ∧ st.prob_guloso ≤ 1 ∧
    ∀ r st1, executa_rodada g st = .ok r → atualiza st r = .ok st1 →
      (r.custo < st.menor_custo →
        st1.falhas_guloso = st.falhas_guloso ∧ st1.falhas_random = st.falhas_random) ∧
      (¬ r.custo < st.menor_custo → r.usar_guloso = true →
        st1.falhas_guloso = st.falhas_guloso + 1 ∧ st1.falhas_random = st.falhas_random) ∧
      (¬ r.custo < st.menor_custo → r.usar_guloso = false →
        st1.falhas_guloso = st.falhas_guloso ∧ st1.falhas_random = st.falhas_random + 1) := by
  have hp : ProbOk st := probOk_laco g n _ st h (by
    unfold ProbOk Reativa.inicial INITIAL_PROB
    rfl)
  obtain ⟨hl0, hl1⟩ := probOk_limites st hp
  refine ⟨fun hz => ?_, fun hz => ?_, hl0, hl1, fun r st1 _ ha => (atualiza_falhas st r st1 ha).2⟩
  · unfold ProbOk at hp
    rw [hp, if_pos hz]
  · unfold ProbOk at hp
    rw [hp, if_neg hz]

theorem prob_guloso_apos_rodadas_witness :
    ∃ st, laco_reativa triangulo MAX_ITER (Reativa.inicial sorteios) = .ok st ∧
    (st.falhas_guloso + st.falhas_random = 0 → st.prob_guloso = 1 / 2) ∧
    (st.falhas_guloso + st.falhas_random ≠ 0 → st.prob_guloso =
      1 - (st.falhas_guloso : ℚ) / ((st.falhas_guloso : ℚ) + (st.falhas_random : ℚ))) ∧
    0 ≤ st.prob_guloso ∧ st.prob_guloso ≤ 1 ∧
    ∀ r st1, executa_rodada triangulo st = .ok r → atualiza st r = .ok st1 →
      (r.custo < st.menor_custo →
        st1.falhas_guloso = st.falhas_guloso ∧ st1.falhas_random = st.falhas_random) ∧
      (¬ r.custo < st.menor_custo → r.usar_guloso = true →
        st1.falhas_guloso = st.falhas_guloso + 1 ∧ st1.falhas_random = st.falhas_random) ∧
      (¬ r.custo < st.menor_custo → r.usar_guloso = false →
        st1.falhas_guloso = st.falhas_guloso ∧ st1.falhas_random = st.falhas_random + 1) := by
  obtain ⟨st, hst⟩ := ok_of_toBool
    (x := laco_reativa triangulo MAX_ITER (Reativa.inicial sorteios)) (by decide!)
  exact ⟨st, hst, prob_guloso_apos_rodadas triangulo sorteios MAX_ITER st hst⟩

/-! ## Selection rule, forest and edge count -/

theorem floresta_of_conta (k : Nat) (es : List (Nat × Nat))
    (h : es.length + ncomp k es = k) : Floresta es := by
  intro i e hi hliga
  have hlt : i < es.length := (List.getElem?_eq_some_iff.1 hi).1
  have hle : ncomp k (es.eraseIdx i) ≤ ncomp k es := by
    apply ncomp_le_of_refina
    intro x _ y _ hxy
    apply liga_mono _ hxy
    intro p hp
    obtain ⟨j, hj⟩ := List.getElem?_of_mem hp
    by_cases hji : j = i
    · rw [hji, hi] at hj
      cases hj
      exact hliga
    · exact liga_of_mem (List.mem_eraseIdx_iff_getElem?.2 ⟨j, hji, hj⟩)
  have hge := ncomp_add_length_ge k (es.eraseIdx i)
  rw [List.length_eraseIdx, if_pos hlt] at hge
  omega

theorem ncomp_congr (k : Nat) (es es1 : List (Nat × Nat)) (h : ∀ e, e ∈ es ↔ e ∈ es1) :
    ncomp k es = ncomp k es1 :=
  le_antisymm
    (ncomp_le_of_refina k es1 es (fun _ _ _ _ hxy => liga_of_subset (fun e he => (h e).2 he) hxy))
    (ncomp_le_of_refina k es es1 (fun _ _ _ _ hxy => liga_of_subset (fun e he => (h e).1 he) hxy))

theorem inv_ncomp {cid : List Nat} {k : Nat} {L : List ArestaInfo} {st : Varredura}
    (h : Inv cid k L st) (hbf : ∀ e ∈ L, BemFormada cid.length e) :
    ncomp k (st.resultado.map (par cid)) = ncomp k (L.map (par cid)) := by
  apply le_antisymm
  · apply ncomp_le_of_refina
    intro x _ y _ hxy
    exact liga_map_mono (fun e he => h.proc e he (hbf e he)) hxy
  · apply ncomp_le_of_refina
    intro x _ y _ hxy
    apply liga_of_subset _ hxy
    intro p hp
    obtain ⟨e, he, rfl⟩ := List.mem_map.1 hp
    exact List.mem_map.2 ⟨e, h.sub.subset he, rfl⟩

theorem inv_selecao {cid : List Nat} {k : Nat} {L : List ArestaInfo} {st : Varredura}
    (h : Inv cid k L st) :
    ∀ (i : Nat) (t : ArestaInfo), st.resultado[i]? = some t →
      t ∈ L ∧ BemFormada cid.length t ∧
      ¬ Liga ((st.resultado.take i).map (par cid)) (par cid t).1 (par cid t).2 ∧
      (par cid t).1 ≠ (par cid t).2 ∧
      ¬ Liga ((st.resultado.map (par cid)).eraseIdx i) (par cid t).1 (par cid t).2 := by
  intro i t hi
  have hmem : t ∈ st.resultado := List.getElem?_mem hi
  obtain ⟨P1, P2, -, hnl, -⟩ := h.guloso i t hi
  refine ⟨h.sub.subset hmem, h.bem t hmem, hnl, ?_, ?_⟩
  · intro heq
    apply hnl
    rw [heq]
    exact liga_refl _ _
  · have hf := floresta_of_conta k (st.resultado.map (par cid)) (by
      rw [List.length_map]; exact h.conta)
    exact hf i (par cid t) (by rw [List.getElem?_map, hi]; rfl)

theorem troca_perm (l l1 : List ArestaInfo) (i r : Nat) (h : troca l i r = .ok l1) :
    l1.Perm l := by
  have hi : i < l.length := by
    by_contra hlt
    have : l[i]? = none := List.getElem?_eq_none (by omega)
    unfold troca ler at h
    rw [this] at h
    simp only at h
    cases h
  have hr : r < l.length := by
    by_contra hlt
    have : l[r]? = none := List.getElem?_eq_none (by omega)
    unfold troca ler at h
    rw [this, List.getElem?_eq_getElem hi] at h
    simp only at h
    cases h
  obtain ⟨l2, h2, hperm, -⟩ := troca_spec l i r hi hr
  rw [h2] at h
  cases h
  exact hperm

theorem embaralha_laco_perm (contador : Nat) : ∀ (passos i : Nat) (l l1 : List ArestaInfo)
    (s s1 : Gerador), embaralha_laco contador passos i l s = .ok (l1, s1) → l1.Perm l := by
  intro passos
  induction passos with
  | zero =>
    intro i l l1 s s1 h
    simp only [embaralha_laco, Except.ok.injEq, Prod.mk.injEq] at h
    rw [h.1]
  | succ passos ih =>
    intro i l l1 s s1 h
    simp only [embaralha_laco] at h
    split_ifs at h with hz
    cases ht : troca l i (i + (rand s).1 % (contador - i)) with
    | error e => rw [ht] at h; cases h
    | ok l2 =>
      rw [ht] at h
      exact (ih (i + 1) l2 l1 (rand s).2 s1 h).trans (troca_perm _ _ _ _ ht)

theorem randomizada_spec (g : Grafo) (pesos : List Int) (hp : pesos_vertices g = some pesos)
    (alpha : ℚ) (s : Gerador) (sol : Solucao) (s1 : Gerador)
    (h : agmg_randomizada g alpha s = .ok (sol, s1)) :
    ∃ emb st1, embaralha alpha (coleta_arestas g) s = .ok (emb, s1) ∧
      emb.Perm (coleta_arestas g) ∧ sol = ⟨some st1.resultado, st1.resultado.length⟩ ∧
      Inv (particiona pesos).1 (particiona pesos).2 emb st1 := by
  unfold agmg_randomizada at h
  rw [hp] at h
  simp only at h
  cases hemb : embaralha alpha (coleta_arestas g) s with
  | error e => rw [hemb] at h; cases h
  | ok p =>
    obtain ⟨emb, s2⟩ := p
    rw [hemb] at h
    simp only at h
    cases hc : conecta_clusters pesos emb with
    | error e => rw [hc] at h; cases h
    | ok sol1 =>
      rw [hc] at h
      simp only [Except.ok.injEq, Prod.mk.injEq] at h
      obtain ⟨rfl, rfl⟩ := h
      have hperm : emb.Perm (coleta_arestas g) := by
        exact embaralha_laco_perm _ _ _ _ _ _ _ (embaralha_ok _ _ _ _ hemb)
      by_cases hne : pesos = []
      · rw [hne, conecta_nil] at hc; cases hc
      · rcases conecta_spec pesos emb hne with ⟨st1, hst1, hinv⟩ | ⟨herr, -⟩
        · rw [hst1] at hc
          cases hc
          exact ⟨emb, st1, rfl, hperm, by rw [hinv.num], hinv⟩
        · rw [herr] at hc; cases hc

theorem gulosa_inv (g : Grafo) (pesos : List Int) (hp : pesos_vertices g = some pesos)
    (sol : Solucao) (h : agmg_gulosa g = .ok sol) :
    ∃ st1, sol = ⟨some st1.resultado, st1.resultado.length⟩ ∧
      Inv (particiona pesos).1 (particiona pesos).2 (std_sort (coleta_arestas g)) st1 := by
  unfold agmg_gulosa at h
  rw [hp] at h
  simp only at h
  by_cases hne : pesos = []
  · rw [hne, conecta_nil] at h; cases h
  · rcases conecta_spec pesos (std_sort (coleta_arestas g)) hne with ⟨st1, hst1, hinv⟩ | ⟨herr, -⟩
    · rw [hst1] at h
      cases h
      exact ⟨st1, by rw [hinv.num], hinv⟩
    · rw [herr] at h; cases h

theorem selecao_pesos (pesos : List Int) (t : ArestaInfo)
    (hbf : BemFormada (particiona pesos).1.length t)
    (hne : (par (particiona pesos).1 t).1 ≠ (par (particiona pesos).1 t).2) :
    pesos[t.origem - 1]? ≠ pesos[t.destino - 1]? := by
  have hpart := particao_particiona pesos
  have hlen := (particiona_spec pesos).1
  obtain ⟨h1, h2, h3, h4⟩ := hbf
  rw [hlen] at h2 h4
  intro heq
  exact hne ((hpart.iff (t.origem - 1) (t.destino - 1) (by omega) (by omega)).2 heq)

/-- C12: for every graph, whatever `agmg_gulosa` or `agmg_randomizada` (for every
`alpha` and every stream of draws) returns obeys the selection rule: each selected
edge is a collected edge whose two clusters are not linked by the edges selected
before it; its endpoints lie in different clusters, and the selected edges form a
forest on the cluster ids. The greedy solver selects nothing when a vertex is
absent. -/
theorem selecao_e_floresta (g : Grafo) :
    (∀ sol, agmg_gulosa g = .ok sol →
      (pesos_vertices g = none ∧ sol = ⟨none, 0⟩) ∨
      ∃ pesos T, pesos_vertices g = some pesos ∧ sol = ⟨some T, T.length⟩ ∧
        Selecao g pesos T) ∧
    (∀ alpha s sol s1, agmg_randomizada g alpha s = .ok (sol, s1) →
      ∃ pesos T, pesos_vertices g = some pesos ∧ sol = ⟨some T, T.length⟩ ∧
        Selecao g pesos T) := by
  cases hp : pesos_vertices g with
  | none =>
    constructor
    · intro sol h
      left
      unfold agmg_gulosa at h
      rw [hp] at h
      simp only [Except.ok.injEq] at h
      exact ⟨rfl, h.symm⟩
    · intro alpha s sol s1 h
      unfold agmg_randomizada at h
      rw [hp] at h
      cases h
  | some pesos =>
    constructor
    · intro sol h
      right
      obtain ⟨st1, rfl, hinv⟩ := gulosa_inv g pesos hp sol h
      refine ⟨pesos, st1.resultado, rfl, rfl, fun i t hi => ?_, ?_⟩
      · obtain ⟨h1, h2, h3, h4, -⟩ := inv_selecao hinv i t hi
        exact ⟨(std_sort_perm _).mem_iff.1 h1, h3, h4, selecao_pesos pesos t h2 h4⟩
      · exact floresta_of_conta _ _ (by rw [List.length_map]; exact hinv.conta)
    · intro alpha s sol s1 h
      obtain ⟨emb, st1, -, hperm, rfl, hinv⟩ := randomizada_spec g pesos hp alpha s sol s1 h
      refine ⟨pesos, st1.resultado, rfl, rfl, fun i t hi => ?_, ?_⟩
      · obtain ⟨h1, h2, h3, h4, -⟩ := inv_selecao hinv i t hi
        exact ⟨hperm.mem_iff.1 h1, h3, h4, selecao_pesos pesos t h2 h4⟩
      · exact floresta_of_conta _ _ (by rw [List.length_map]; exact hinv.conta)

theorem selecao_e_floresta_witness :
    ((pesos_vertices triangulo = none ∧
        (⟨some [⟨1, 3, 1⟩, ⟨2, 3, 2⟩], 2⟩ : Solucao) = ⟨none, 0⟩) ∨
      ∃ pesos T, pesos_vertices triangulo = some pesos ∧
        (⟨some [⟨1, 3, 1⟩, ⟨2, 3, 2⟩], 2⟩ : Solucao) = ⟨some T, T.length⟩ ∧
        Selecao triangulo pesos T) ∧
    ∃ sol s1, agmg_randomizada triangulo alpha_padrao sorteios = .ok (sol, s1) ∧
      ∃ pesos T, pesos_vertices triangulo = some pesos ∧ sol = ⟨some T, T.length⟩ ∧
        Selecao triangulo pesos T := by
  obtain ⟨⟨sol, s1⟩, h⟩ := ok_of_toBool
    (x := agmg_randomizada triangulo alpha_padrao sorteios) (by decide!)
  exact ⟨(selecao_e_floresta triangulo).1 _ (by decide),
    sol, s1, h, (selecao_e_floresta triangulo).2 _ _ _ _ h⟩

/-- C18: on a graph whose vertices all exist and whose edges end at vertices, with
at least one collected edge and `alpha` in `[0, 1]`, for every stream of draws both
solvers return, and `agmg_randomizada` returns as many edges as `agmg_gulosa`:
the number `k` of clusters minus the number of components into which the collected
edges link the clusters. -/
theorem mesma_quantidade_de_arestas (g : Grafo) (pesos : List Int)
    (hp : pesos_vertices g = some pesos)
    (hd : ∀ a ∈ coleta_arestas g, 1 ≤ a.destino ∧ a.destino ≤ g.ordem)
    (hne : coleta_arestas g ≠ [])
    (alpha : ℚ) (h0 : 0 ≤ alpha) (h1 : alpha ≤ 1) (s : Gerador) :
    ∃ T R s1, agmg_gulosa g = .ok ⟨some T, T.length⟩ ∧
      agmg_randomizada g alpha s = .ok (⟨some R, R.length⟩, s1) ∧
      R.length = T.length ∧
      T.length + ncomp pesos.toFinset.card
        ((coleta_arestas g).map (par (particiona pesos).1)) = pesos.toFinset.card := by
  have hlen := pesos_vertices_length g pesos hp
  have hk := (particiona_spec pesos).2.2
  have hcl := (particiona_spec pesos).1
  have hbf0 : ∀ e ∈ coleta_arestas g, BemFormada (particiona pesos).1.length e := by
    intro e he
    have h1 := coleta_origem g e he
    have h2 := hd e he
    rw [hcl, hlen]
    exact ⟨h1.1, h1.2, h2.1, h2.2⟩
  have hn : 0 < g.ordem := by
    obtain ⟨e, he⟩ := List.exists_mem_of_ne_nil _ hne
    have := coleta_origem g e he
    omega
  obtain ⟨T, hT, -⟩ := gulosa_retorna g pesos hp hn hd
  obtain ⟨R, s1, hR, -⟩ := randomizada_retorna g pesos hp hd hne alpha h0 h1 s
  obtain ⟨st1, h1, hinv1⟩ := gulosa_inv g pesos hp _ hT
  obtain ⟨emb, st2, -, hperm, h2, hinv2⟩ := randomizada_spec g pesos hp alpha s _ s1 hR
  simp only [Solucao.mk.injEq, Option.some.injEq] at h1 h2
  obtain ⟨rfl, -⟩ := h1
  obtain ⟨rfl, -⟩ := h2
  have e1 := inv_ncomp hinv1 (fun e he => hbf0 e ((std_sort_perm _).mem_iff.1 he))
  have e2 := inv_ncomp hinv2 (fun e he => hbf0 e (hperm.mem_iff.1 he))
  have e3 : ncomp (particiona pesos).2 ((std_sort (coleta_arestas g)).map (par (particiona pesos).1))
      = ncomp (particiona pesos).2 ((coleta_arestas g).map (par (particiona pesos).1)) :=
    ncomp_congr _ _ _ (fun e => by
      simp only [List.mem_map]
      constructor
      · rintro ⟨a, ha, rfl⟩; exact ⟨a, (std_sort_perm _).mem_iff.1 ha, rfl⟩
      · rintro ⟨a, ha, rfl⟩; exact ⟨a, (std_sort_perm _).mem_iff.2 ha, rfl⟩)
  have e4 : ncomp (particiona pesos).2 (emb.map (par (particiona pesos).1))
      = ncomp (particiona pesos).2 ((coleta_arestas g).map (par (particiona pesos).1)) :=
    ncomp_congr _ _ _ (fun e => by
      simp only [List.mem_map]
      constructor
      · rintro ⟨a, ha, rfl⟩; exact ⟨a, hperm.mem_iff.1 ha, rfl⟩
      · rintro ⟨a, ha, rfl⟩; exact ⟨a, hperm.mem_iff.2 ha, rfl⟩)
  have c1 := hinv1.conta
  have c2 := hinv2.conta
  rw [e1, e3] at c1
  rw [e2, e4] at c2
  refine ⟨st1.resultado, st2.resultado, s1, hT, hR, by omega, ?_⟩
  rw [← hk]
  exact c1

theorem mesma_quantidade_de_arestas_witness :
    ∃ T R s1, agmg_gulosa triangulo = .ok ⟨some T, T.length⟩ ∧
      agmg_randomizada triangulo alpha_padrao sorteios = .ok (⟨some R, R.length⟩, s1) ∧
      R.length = T.length ∧
      T.length + ncomp ([10, 20, 30] : List Int).toFinset.card
        ((coleta_arestas triangulo).map (par (particiona [10, 20, 30]).1))
        = ([10, 20, 30] : List Int).toFinset.card :=
  mesma_quantidade_de_arestas triangulo [10, 20, 30] (by decide) (by decide) (by decide)
    alpha_padrao (by unfold alpha_padrao; norm_num) (by unfold alpha_padrao; norm_num) sorteios

/-! ## Disjoint sets: the invariant alone -/

theorem acima_lt_len (rank : List Nat) (k u : Nat) (hu : u < k) : acima rank k u < k := by
  unfold acima
  have hss : (Finset.range k).filter (fun i => em rank u < em rank i) ⊂ Finset.range k := by
    rw [Finset.ssubset_iff_of_subset (Finset.filter_subset _ _)]
    exact ⟨u, Finset.mem_range.2 hu, by simp⟩
  simpa using Finset.card_lt_card hss

theorem acima_lt (rank : List Nat) (k u v : Nat) (hv : v < k) (h : em rank u < em rank v) :
    acima rank k v < acima rank k u := by
  unfold acima
  apply Finset.card_lt_card
  rw [Finset.ssubset_iff_of_subset]
  · exact ⟨v, by simp [hv, h], by simp⟩
  · intro i hi
    simp only [Finset.mem_filter, Finset.mem_range] at hi ⊢
    exact ⟨hi.1, by omega⟩

theorem iter_lt {pai rank : List Nat} {k : Nat} (h : InvDSU pai rank k) :
    ∀ (n i : Nat), i < k → (em pai)^[n] i < k := by
  intro n
  induction n with
  | zero => intro i hi; exact hi
  | succ n ih =>
    intro i hi
    rw [Function.iterate_succ_apply]
    exact ih _ (h.2.2.1 i hi)

theorem iter_raiz {pai rank : List Nat} {k : Nat} (h : InvDSU pai rank k) :
    ∀ (n i : Nat), i < k → acima rank k i < n →
      em pai ((em pai)^[n] i) = (em pai)^[n] i := by
  intro n
  induction n with
  | zero => intro i _ hn; omega
  | succ n ih =>
    intro i hi hn
    by_cases hr : em pai i = i
    · rw [Function.iterate_fixed hr, hr]
    · rw [Function.iterate_succ_apply]
      have hp := h.2.2.1 i hi
      have := acima_lt rank k i (em pai i) hp (h.2.2.2 i hi hr)
      exact ih _ hp (by omega)

theorem raiz_raiz {pai rank : List Nat} {k : Nat} (h : InvDSU pai rank k) (i : Nat)
    (hi : i < k) : em pai (raiz pai i) = raiz pai i := by
  unfold raiz
  rw [h.1]
  exact iter_raiz h k i hi (acima_lt_len rank k i hi)

theorem inv_of_uf {pai rank : List Nat} {k m : Nat} {rep : Nat → Nat}
    (h : UF pai rank k m rep) : InvDSU pai rank k :=
  ⟨h.len_pai, h.len_rank, h.pai_lt, h.rank_pai⟩

theorem uf_raiz {pai rank : List Nat} {k m : Nat} {rep : Nat → Nat}
    (h : UF pai rank k m rep) (x : Nat) (hx : x < k) : rep x = raiz pai x := by
  have hinv := inv_of_uf h
  have hit : ∀ n i, i < k → rep ((em pai)^[n] i) = rep i := by
    intro n
    induction n with
    | zero => intro i _; rfl
    | succ n ih =>
      intro i hi
      rw [Function.iterate_succ_apply, ih _ (h.pai_lt i hi), h.rep_pai i hi]
  have h1 := hit pai.length x hx
  have h2 : raiz pai x < k := by
    unfold raiz
    exact iter_lt hinv _ x hx
  have h3 := h.rep_raiz _ h2 (raiz_raiz hinv x hx)
  unfold raiz at h3 ⊢
  rw [← h1, h3]

theorem uf_of_inv {pai rank : List Nat} {k : Nat} (h : InvDSU pai rank k) :
    UF pai rank k ((Finset.range k).sup (em rank)) (raiz pai) := by
  have hroot := raiz_raiz h
  have hlt : ∀ i < k, raiz pai i < k := fun i hi => by
    unfold raiz
    exact iter_lt h _ i hi
  refine ⟨h.1, h.2.1, h.2.2.1, hlt, ?_, ?_, hroot, h.2.2.2, ?_⟩
  · intro i hi
    have := hroot i hi
    unfold raiz at this ⊢
    rw [← Function.iterate_succ_apply, Function.iterate_succ_apply', this]
  · intro i _ hr
    unfold raiz
    exact Function.iterate_fixed hr _
  · intro i hi
    exact Finset.le_sup (f := em rank) (Finset.mem_range.2 hi)

theorem find_laco_metade (rank : List Nat) (k m : Nat) (rep : Nat → Nat) (fuel : Nat) :
    ∀ (pai : List Nat) (u : Nat), UF pai rank k m rep → u < k → acima rank k u < fuel →
      ∃ pai1, find_laco fuel pai u = .ok (pai1, rep u) ∧ UF pai1 rank k m rep ∧
        em pai1 u = em pai (em pai u) ∧
        ∀ i < k, em pai1 i ≠ em pai i →
          em rank u ≤ em rank i ∧ em pai1 i = em pai (em pai i) := by
  induction fuel with
  | zero =>
    intro pai u h hu hm
    omega
  | succ fuel ih =>
    intro pai u h hu hm
    have hlu : u < pai.length := by rw [h.len_pai]; exact hu
    simp only [find_laco, ler_em hlu]
    by_cases hr : em pai u = u
    · simp only [hr, if_true]
      exact ⟨pai, by rw [h.rep_raiz u hu hr], h, by simp only [hr], fun i _ hne => absurd rfl hne⟩
    · simp only [hr, if_false]
      have hpu : em pai u < k := h.pai_lt u hu
      have hlpu : em pai u < pai.length := by rw [h.len_pai]; exact hpu
      simp only [ler_em hlpu]
      have hppu : em pai (em pai u) < k := h.pai_lt _ hpu
      have hrk1 : em rank u < em rank (em pai u) := h.rank_pai u hu hr
      have hrk2 : em rank (em pai u) ≤ em rank (em pai (em pai u)) := by
        by_cases hr2 : em pai (em pai u) = em pai u
        · rw [hr2]
        · exact le_of_lt (h.rank_pai _ hpu hr2)
      have hne : em pai (em pai u) ≠ u := by
        intro heq
        rw [heq] at hrk2
        omega
      have h1 : UF (pai.set u (em pai (em pai u))) rank k m rep := by
        refine ⟨by simp [h.len_pai], h.len_rank, ?_, h.rep_lt, ?_, ?_, ?_, ?_, h.rank_le⟩
        · intro i hi
          rw [em_set _ _ hlu]
          split_ifs
          · exact hppu
          · exact h.pai_lt i hi
        · intro i hi
          rw [em_set _ _ hlu]
          split_ifs with hiu
          · rw [hiu, h.rep_pai _ hpu, h.rep_pai u hu]
          · exact h.rep_pai i hi
        · intro i hi
          rw [em_set _ _ hlu]
          split_ifs with hiu
          · intro heq
            rw [hiu] at heq
            exact absurd heq hne
          · exact h.rep_raiz i hi
        · intro i hi
          rw [em_set _ _ hlu]
          split_ifs with hiu
          · have := h.raiz_rep i hi
            rw [hiu] at this
            exact absurd this hr
          · exact h.raiz_rep i hi
        · intro i hi
          rw [em_set _ _ hlu]
          split_ifs with hiu
          · intro _
            rw [hiu]
            omega
          · exact h.rank_pai i hi
      have hac := acima_lt rank k u (em pai (em pai u)) hppu (by omega)
      obtain ⟨pai1, hf, h2, -, hmud⟩ := ih _ _ h1 hppu (by omega)
      have hu1 : em pai1 u = em pai (em pai u) := by
        by_contra hcon
        have hx := hmud u hu (by rw [em_set _ _ hlu, if_pos rfl]; exact hcon)
        omega
      refine ⟨pai1, ?_, h2, hu1, ?_⟩
      · rw [hf, h.rep_pai _ hpu, h.rep_pai u hu]
      · intro i hi hdif
        by_cases hiu : i = u
        · rw [hiu]
          exact ⟨le_refl _, hu1⟩
        · have hin : em (pai.set u (em pai (em pai u))) i = em pai i := by
            rw [em_set _ _ hlu, if_neg hiu]
          have hx := hmud i hi (by rw [hin]; exact hdif)
          rw [hin] at hx
          have hge : em rank i ≤ em rank (em pai i) := by
            by_cases hri : em pai i = i
            · rw [hri]
            · exact le_of_lt (h.rank_pai i hi hri)
          have hpi : em pai i ≠ u := by
            intro heq
            rw [heq] at hge
            omega
          rw [em_set _ _ hlu, if_neg hpi] at hx
          exact ⟨by omega, hx.2⟩

theorem find_metade {pai rank : List Nat} {k : Nat} (h : InvDSU pai rank k) {u : Nat}
    (hu : u < k) :
    ∃ pai1, find pai u = .ok (pai1, raiz pai u) ∧ InvDSU pai1 rank k ∧
      (∀ x < k, raiz pai1 x = raiz pai x) ∧
      em pai1 u = em pai (em pai u) ∧
      ∀ i < k, em pai1 i ≠ em pai i →
        em rank u ≤ em rank i ∧ em pai1 i = em pai (em pai i) := by
  have huf := uf_of_inv h
  obtain ⟨pai1, h1, h2, h3, h4⟩ := find_laco_metade rank k _ (raiz pai) pai.length pai u huf hu
    (by rw [h.1]; exact acima_lt_len rank k u hu)
  exact ⟨pai1, h1, inv_of_uf h2, fun x hx => (uf_raiz h2 x hx).symm, h3, h4⟩

/-! ## Disjoint sets: path halving and union -/

theorem prof_le (pai : List Nat) : ∀ (n i : Nat), prof pai n i ≤ n := by
  intro n
  induction n with
  | zero => intro i; simp [prof]
  | succ n ih =>
    intro i
    simp only [prof]
    split_ifs
    · omega
    · have := ih (em pai i); omega

theorem prof_succ (pai : List Nat) : ∀ (n i : Nat),
    em pai ((em pai)^[n] i) = (em pai)^[n] i → prof pai (n + 1) i = prof pai n i := by
  intro n
  induction n with
  | zero =>
    intro i h
    simp only [Function.iterate_zero, id_eq] at h
    simp [prof, h]
  | succ n ih =>
    intro i h
    rw [Function.iterate_succ_apply] at h
    by_cases hr : em pai i = i
    · simp [prof, hr]
    · have := ih (em pai i) h
      rw [prof, if_neg hr, this]
      simp [prof, hr]

theorem em_map_range (k : Nat) (f : Nat → Nat) (i : Nat) (hi : i < k) :
    em ((List.range k).map f) i = f i := by
  simp [em, hi]

theorem invdsu_of_aciclico {pai : List Nat} {k : Nat} (h : Aciclico pai k) :
    InvDSU pai ((List.range k).map (fun i => k - prof pai k i)) k := by
  obtain ⟨hlen, hlt, hroot⟩ := h
  refine ⟨hlen, by simp, hlt, ?_⟩
  intro i hi hr
  rw [em_map_range k _ i hi, em_map_range k _ _ (hlt i hi)]
  obtain ⟨n, rfl⟩ : ∃ n, k = n + 1 := ⟨k - 1, by omega⟩
  have h1 : prof pai (n + 1) i = prof pai n (em pai i) + 1 := by
    simp [prof, hr]
  have h2 : prof pai (n + 1) (em pai i) = prof pai n (em pai i) := by
    apply prof_succ
    have := hroot i hi
    unfold raiz at this
    rw [hlen, Function.iterate_succ_apply] at this
    exact this
  have h3 := prof_le pai n (em pai i)
  omega

theorem aciclico_of_invdsu {pai rank : List Nat} {k : Nat} (h : InvDSU pai rank k) :
    Aciclico pai k :=
  ⟨h.1, h.2.2.1, raiz_raiz h⟩

theorem unite_geral {pai rank : List Nat} {k : Nat} (h : InvDSU pai rank k) {u v : Nat}
    (hu : u < k) (hv : v < k) :
    ∃ pai1 rank1, unite pai rank u v = .ok (pai1, rank1) ∧ InvDSU pai1 rank1 k ∧
      ∀ x < k, ∀ y < k, (raiz pai1 x = raiz pai1 y ↔
        raiz pai x = raiz pai y ∨
          ((raiz pai x = raiz pai u ∨ raiz pai x = raiz pai v) ∧
           (raiz pai y = raiz pai u ∨ raiz pai y = raiz pai v))) := by
  have huf := uf_of_inv h
  obtain ⟨pai1, hf1, h1, -, -⟩ := find_laco_metade rank k _ (raiz pai) pai.length pai u huf hu
    (by rw [h.1]; exact acima_lt_len rank k u hu)
  obtain ⟨pai2, hf2, h2, -, -⟩ := find_laco_metade rank k _ (raiz pai) pai1.length pai1 v h1 hv
    (by rw [h1.len_pai]; exact acima_lt_len rank k v hv)
  by_cases heq : raiz pai u = raiz pai v
  · refine ⟨pai2, rank, ?_, inv_of_uf h2, ?_⟩
    · unfold unite find
      simp only [hf1, hf2, heq, if_true]
    · intro x hx y hy
      rw [← uf_raiz h2 x hx, ← uf_raiz h2 y hy, heq]
      constructor
      · intro hxy; exact Or.inl hxy
      · rintro (hxy | ⟨hx1, hy1⟩)
        · exact hxy
        · rcases hx1 with hx1 | hx1 <;> rcases hy1 with hy1 | hy1 <;> rw [hx1, hy1]
  · obtain ⟨pai3, rank1, rep1, h3, h4, h5⟩ := unite_corpo huf hu hv hf1 hf2 h2 heq
    refine ⟨pai3, rank1, h3, inv_of_uf h4, ?_⟩
    intro x hx y hy
    rw [← uf_raiz h4 x hx, ← uf_raiz h4 y hy]
    exact h5 x y

/-- C16 (counterexample): in the chain `3 → 2 → 1 → 0` the call `find(3)` returns
the root `0` and leaves `pai = [0, 0, 1, 1]`, so the nodes `3` and `2` of the path
have the parent `1`, not the root. -/
theorem find_nao_comprime_tudo :
    Aciclico [0, 0, 1, 2] 4 ∧ raiz [0, 0, 1, 2] 3 = 0 ∧
    find [0, 0, 1, 2] 3 = .ok ([0, 0, 1, 1], 0) ∧
    em [0, 0, 1, 1] 3 = 1 ∧ em [0, 0, 1, 1] 2 = 1 := by
  decide

/-- C16 (amended): for every well-formed parent array and every id `x` below `k`,
`find(x)` returns the root of the tree of `x` and halves the path: afterwards the
parent of `x` is its former grandparent, the parent of every node is its former
parent or its former grandparent, every node has the root it had, and the array
is still well formed. -/
theorem find_reduz_caminho (pai : List Nat) (k x : Nat) (h : Aciclico pai k) (hx : x < k) :
    ∃ pai1, find pai x = .ok (pai1, raiz pai x) ∧
      em pai (raiz pai x) = raiz pai x ∧
      em pai1 x = em pai (em pai x) ∧
      (∀ i < k, em pai1 i = em pai i ∨ em pai1 i = em pai (em pai i)) ∧
      (∀ i < k, raiz pai1 i = raiz pai i) ∧
      Aciclico pai1 k := by
  have hinv := invdsu_of_aciclico h
  obtain ⟨pai1, h1, h2, h3, h4, h5⟩ := find_metade hinv hx
  refine ⟨pai1, h1, h.2.2 x hx, h4, ?_, h3, aciclico_of_invdsu h2⟩
  intro i hi
  by_cases hdif : em pai1 i = em pai i
  · exact Or.inl hdif
  · exact Or.inr (h5 i hi hdif).2

theorem find_reduz_caminho_witness :
    ∃ pai1, find [0, 0, 1, 2] 3 = .ok (pai1, raiz [0, 0, 1, 2] 3) ∧
      em [0, 0, 1, 2] (raiz [0, 0, 1, 2] 3) = raiz [0, 0, 1, 2] 3 ∧
      em pai1 3 = em [0, 0, 1, 2] (em [0, 0, 1, 2] 3) ∧
      (∀ i < 4, em pai1 i = em [0, 0, 1, 2] i ∨
        em pai1 i = em [0, 0, 1, 2] (em [0, 0, 1, 2] i)) ∧
      (∀ i < 4, raiz pai1 i = raiz [0, 0, 1, 2] i) ∧
      Aciclico pai1 4 :=
  find_reduz_caminho [0, 0, 1, 2] 4 3 (by decide) (by decide)

/-- C20: the invariant (every entry of `pai` is an index below `k`, and the rank
grows strictly from each non-root to its parent) holds for the initial arrays; for
ids `u`, `v` below `k`, `find(u)` returns - its loop ends within `k` rounds - with
the root of `u`, keeps the invariant and the root of every node; `unite(u, v)`
returns and keeps the invariant, and afterwards two nodes have the same root
exactly when they had before or each was in the set of `u` or of `v`. -/
theorem invariante_dos_conjuntos (pai rank : List Nat) (k u v : Nat)
    (h : InvDSU pai rank k) (hu : u < k) (hv : v < k) :
    InvDSU (List.range k) (List.replicate k 0) k ∧
    (∃ pai1, find_laco k pai u = .ok (pai1, raiz pai u) ∧
      find pai u = .ok (pai1, raiz pai u) ∧ InvDSU pai1 rank k ∧
      ∀ x < k, raiz pai1 x = raiz pai x) ∧
    (∃ pai1 rank1, unite pai rank u v = .ok (pai1, rank1) ∧ InvDSU pai1 rank1 k ∧
      ∀ x < k, ∀ y < k, (raiz pai1 x = raiz pai1 y ↔
        raiz pai x = raiz pai y ∨
          ((raiz pai x = raiz pai u ∨ raiz pai x = raiz pai v) ∧
           (raiz pai y = raiz pai u ∨ raiz pai y = raiz pai v)))) := by
  refine ⟨inv_of_uf (uf_inicial k), ?_, unite_geral h hu hv⟩
  obtain ⟨pai1, h1, h2, h3, -, -⟩ := find_metade h hu
  refine ⟨pai1, ?_, h1, h2, h3⟩
  have := h1
  unfold find at this
  rw [h.1] at this
  exact this

theorem invariante_dos_conjuntos_witness :
    InvDSU (List.range 4) (List.replicate 4 0) 4 ∧
    (∃ pai1, find_laco 4 [0, 0, 2, 2] 1 = .ok (pai1, raiz [0, 0, 2, 2] 1) ∧
      find [0, 0, 2, 2] 1 = .ok (pai1, raiz [0, 0, 2, 2] 1) ∧ InvDSU pai1 [1, 0, 1, 0] 4 ∧
      ∀ x < 4, raiz pai1 x = raiz [0, 0, 2, 2] x) ∧
    (∃ pai1 rank1, unite [0, 0, 2, 2] [1, 0, 1, 0] 1 3 = .ok (pai1, rank1) ∧
      InvDSU pai1 rank1 4 ∧
      ∀ x < 4, ∀ y < 4, (raiz pai1 x = raiz pai1 y ↔
        raiz [0, 0, 2, 2] x = raiz [0, 0, 2, 2] y ∨
          ((raiz [0, 0, 2, 2] x = raiz [0, 0, 2, 2] 1 ∨
            raiz [0, 0, 2, 2] x = raiz [0, 0, 2, 2] 3) ∧
           (raiz [0, 0, 2, 2] y = raiz [0, 0, 2, 2] 1 ∨
            raiz [0, 0, 2, 2] y = raiz [0, 0, 2, 2] 3)))) :=
  invariante_dos_conjuntos [0, 0, 2, 2] [1, 0, 1, 0] 4 1 3 (by decide) (by decide) (by decide)

end AGMG
